import Mathlib

/-!
# A lock-free stack over an atomic shared pointer

Verification development for `src/atomic-thread-safe.cpp`: the `Stack<T>` template with
its `Node`, the atomic head slot `head_`, and the two operations `push` and `pop`, both
written as retry loops around `compare_exchange_weak`.

## Embedding

* A `std::shared_ptr<Node>` is an `Option Nat`: `none` is `nullptr`, `some i` refers to the
  `i`-th node ever created by `std::make_shared`.  All nodes live in an arena
  (`Stack.nodes`) that only grows; which nodes have been reclaimed is tracked separately, by
  the use counts of `RcSys`.
* `std::atomic<std::shared_ptr<Node>>` is the field `head_`; its operations are sequentially
  consistent, so an execution is an interleaving of the atomic `load` and
  `compare_exchange_weak` steps of the running calls.
* `compare_exchange_weak` may fail spuriously.  Every compare-and-swap therefore takes a
  Boolean saying whether this attempt fails spuriously.
* `std::move(active->value)` leaves the node's value in a moved-from state, which depends on
  the element type.  It is the parameter `moved : α → α` (the identity for `int`).
-/

namespace LockFree

/-! ## Data model -/

/-- A `Stack<T>::Node`: the stored value and the handle of the node below it. -/
structure Node (α : Type) where
  value : α
  prev : Option Nat
deriving DecidableEq

/-- The memory of one `Stack<T>`: the arena of all nodes created so far and the
atomic head slot `head_`. -/
structure Stack (α : Type) where
  nodes : List (Node α)
  head_ : Option Nat
deriving DecidableEq

/-- A default-constructed `Stack<T>`: `head_` holds `nullptr` and no node exists. -/
def Stack.empty {α : Type} : Stack α := ⟨[], none⟩

/-! ## Atomic primitives on the head slot -/

/-- The call `head_.load()`. -/
def Stack.load {α : Type} (s : Stack α) : Option Nat := s.head_

/-- The call `head_.compare_exchange_weak(expected, desired)`.  Returns the Boolean result, the
new memory, and the new content of the reference argument `expected`: on success `head_`
becomes `desired`; on failure (a mismatch or a spurious failure) `expected` is overwritten
with the current head. -/
def Stack.compare_exchange_weak {α : Type} (s : Stack α) (expected desired : Option Nat)
    (spurious : Bool) : Bool × Stack α × Option Nat :=
  if s.head_ = expected ∧ spurious = false then
    (true, { s with head_ := desired }, expected)
  else
    (false, s, s.head_)

/-- The effect of `std::make_shared<Node>(value, prev)`: the new node is appended to the arena
and its handle is the old arena size. -/
def Stack.alloc {α : Type} (s : Stack α) (value : α) (prev : Option Nat) : Stack α × Nat :=
  ({ s with nodes := s.nodes ++ [⟨value, prev⟩] }, s.nodes.length)

/-- A write to the field `prev` of node `i` (the reference `active->prev` handed to the
compare-and-swap of `push` is written through on failure). -/
def Stack.setPrev {α : Type} (s : Stack α) (i : Nat) (p : Option Nat) : Stack α :=
  { s with nodes := s.nodes.modify (fun nd => { nd with prev := p }) i }

/-- A write to the field `value` of node `i`. -/
def Stack.setValue {α : Type} (s : Stack α) (i : Nat) (v : α) : Stack α :=
  { s with nodes := s.nodes.modify (fun nd => { nd with value := v }) i }

/-! ## The two operations, run without interference -/

/-- The loop `while(not head_.compare_exchange_weak(active->prev, active));` of `push`.
The list gives, attempt by attempt, whether the weak compare-and-swap fails spuriously;
when it is used up the loop has not finished and the result is `none`.  Reading
`active->prev` through a handle that refers to no node is `none` as well. -/
def Stack.pushLoop {α : Type} (active : Nat) : List Bool → Stack α → Option (Stack α)
  | [], _ => none
  | b :: bs, s =>
    match s.nodes[active]? with
    | none => none
    | some nd =>
      match s.compare_exchange_weak nd.prev (some active) b with
      | (true, s', _) => some s'
      | (false, s', e) => Stack.pushLoop active bs (s'.setPrev active e)

/-- The member function `void push(T value)`. -/
def Stack.push {α : Type} (s : Stack α) (value : α) (sp : List Bool) : Option (Stack α) :=
  match s.alloc value s.load with
  | (s1, active) => Stack.pushLoop active sp s1

/-- The loop
`while(active != nullptr && not head_.compare_exchange_weak(active, active->prev));`
of `pop`; the result is the memory and the value of `active` after the loop. -/
def Stack.popLoop {α : Type} : List Bool → Stack α → Option Nat → Option (Stack α × Option Nat)
  | _, s, none => some (s, none)
  | [], _, some _ => none
  | b :: bs, s, some n =>
    match s.nodes[n]? with
    | none => none
    | some nd =>
      match s.compare_exchange_weak (some n) nd.prev b with
      | (true, s', _) => some (s', some n)
      | (false, s', e) => Stack.popLoop bs s' e

/-- The member function `std::optional<T> pop()`: the result is the memory after the call
and the returned optional. -/
def Stack.pop {α : Type} (moved : α → α) (s : Stack α) (sp : List Bool) :
    Option (Stack α × Option α) :=
  match Stack.popLoop sp s s.load with
  | none => none
  | some (s', none) => some (s', none)
  | some (s', some n) =>
    match s'.nodes[n]? with
    | none => none
    | some nd => some (s'.setValue n (moved nd.value), some nd.value)

/-! ## The chain below the head -/

/-- The handles met when following `prev` from `p`, as far as the fuel reaches;
`none` when the fuel runs out or a handle refers to no node. -/
def walk {α : Type} (nodes : List (Node α)) : Nat → Option Nat → Option (List Nat)
  | _, none => some []
  | 0, some _ => none
  | fuel + 1, some n =>
    match nodes[n]? with
    | none => none
    | some nd => (walk nodes fuel nd.prev).map (fun l => n :: l)

/-- The statement `Chain nodes p l`: following `prev` from the handle `p` visits exactly the
nodes `l`, in this order, and then reaches `nullptr`. -/
inductive Chain {α : Type} (nodes : List (Node α)) : Option Nat → List Nat → Prop
  | nil : Chain nodes none []
  | cons {n : Nat} {nd : Node α} {l : List Nat} :
      nodes[n]? = some nd → Chain nodes nd.prev l → Chain nodes (some n) (n :: l)

/-- The values stored in the nodes `l`, in order (handles that refer to no node are skipped). -/
def valuesOf {α : Type} (nodes : List (Node α)) (l : List Nat) : List α :=
  l.filterMap (fun n => (nodes[n]?).map (fun nd => nd.value))

/-- An operation a caller may invoke. -/
inductive Op (α : Type) where
  | push (v : α)
  | pop
deriving DecidableEq

/-- A caller running a list of operations one after the other on one stack, with nobody else
touching it.  Each operation comes with the spurious-failure pattern of its compare-and-swap
attempts.  The result is the final memory and what the `pop` calls returned, in order. -/
def Stack.exec {α : Type} (moved : α → α) :
    Stack α → List (Op α × List Bool) → Option (Stack α × List (Option α))
  | s, [] => some (s, [])
  | s, (Op.push v, sp) :: rest =>
    match s.push v sp with
    | none => none
    | some s' => Stack.exec moved s' rest
  | s, (Op.pop, sp) :: rest =>
    match s.pop moved sp with
    | none => none
    | some (s', r) =>
      match Stack.exec moved s' rest with
      | none => none
      | some (s'', rs) => some (s'', r :: rs)

/-! ## The sequential stack the operations are compared with -/

/-- One operation on a sequential stack, kept as the list of its values, top first:
the new content and what the operation returns (`none` for `push` and for `pop` on the
empty stack). -/
def specStep {α : Type} : List α → Op α → List α × Option α
  | st, .push v => (v :: st, none)
  | [], .pop => ([], none)
  | v :: st, .pop => (st, some v)

/-- A list of operations on the sequential stack: the final content and what the `pop`
operations returned, in order. -/
def specRun {α : Type} : List α → List (Op α) → List α × List (Option α)
  | st, [] => (st, [])
  | st, .push v :: ops => specRun (v :: st) ops
  | st, .pop :: ops =>
    ((specRun (specStep st .pop).1 ops).1, (specStep st .pop).2 :: (specRun (specStep st .pop).1 ops).2)

/-! ## Concurrent executions: one atomic step at a time -/

/-- Where a thread stands inside a call.  The payload is the local variable `active`. -/
inductive Local (α : Type) where
  /-- Not inside a call. -/
  | idle
  /-- Inside `push(value)`, before `head_.load()` and `std::make_shared`. -/
  | pushStart (value : α)
  /-- Inside `push`, at its `while`: about to run `compare_exchange_weak(active->prev, active)`. -/
  | pushCas (active : Nat)
  /-- Inside `push`, after the successful compare-and-swap, about to return. -/
  | pushDone
  /-- Inside `pop`, before `auto active = head_.load()`. -/
  | popStart
  /-- Inside `pop`, at the test of its `while`. -/
  | popLoop (active : Option Nat)
  /-- Inside `pop`, after the successful compare-and-swap against `active`. -/
  | popDone (active : Nat)
deriving DecidableEq

/-- The kinds of step a thread can be scheduled for. -/
inductive Act (α : Type) where
  /-- The caller enters `push` or `pop`. -/
  | call (op : Op α)
  /-- The atomic `head_.load()` (in `push` together with the thread-private `make_shared`). -/
  | load
  /-- One `compare_exchange_weak`, failing spuriously when the flag is set. -/
  | cas (spurious : Bool)
  /-- The rest of the call after its loop, up to the return. -/
  | ret
deriving DecidableEq

/-- What a step did, as recorded in the history of an execution. -/
inductive Event (α : Type) where
  /-- Thread `t` invoked `op`. -/
  | inv (t : Nat) (op : Op α)
  /-- Thread `t` loaded `head_` and saw `seen`. -/
  | loaded (t : Nat) (seen : Option Nat)
  /-- The compare-and-swap of a `push` by `t` succeeded: `head_` went from `old` to `some c`. -/
  | pushed (t : Nat) (c : Nat) (old : Option Nat)
  /-- The compare-and-swap of a `pop` by `t` succeeded: `head_` went from `some n` to `new`. -/
  | popped (t : Nat) (n : Nat) (new : Option Nat)
  /-- A compare-and-swap of `t` failed and refreshed its expected handle to `seen`, the head at
  that instant; `spurious` tells that the head did equal the expected handle. -/
  | failed (t : Nat) (seen : Option Nat) (spurious : Bool)
  /-- The call of thread `t` returned; `r` is the optional returned by `pop`
  (`none` also for `push`, which returns nothing). -/
  | res (t : Nat) (r : Option α)
deriving DecidableEq

/-- The thread an event belongs to. -/
def Event.tid {α : Type} : Event α → Nat
  | .inv t _ => t
  | .loaded t _ => t
  | .pushed t _ _ => t
  | .popped t _ _ => t
  | .failed t _ _ => t
  | .res t _ => t

/-- A stack shared by the threads `0 .. threads.length - 1`, with the history of the execution
so far, most recent event first.  The history is a record only: no step reads it. -/
structure Sys (α : Type) where
  mem : Stack α
  threads : List (Local α)
  hist : List (Event α)
deriving DecidableEq

/-- A freshly constructed stack and `k` threads, none of them inside a call. -/
def Sys.init {α : Type} (k : Nat) : Sys α := ⟨Stack.empty, List.replicate k Local.idle, []⟩

/-- The state after thread `t` took a step: new memory, new local state, one more event. -/
def Sys.advance {α : Type} (s : Sys α) (t : Nat) (m : Stack α) (l : Local α) (e : Event α) :
    Sys α :=
  ⟨m, s.threads.set t l, e :: s.hist⟩

/-- One atomic step of thread `t`; `none` when `t` cannot take this kind of step now
(or would dereference a handle that refers to no node). -/
def step {α : Type} (moved : α → α) (s : Sys α) (t : Nat) (a : Act α) : Option (Sys α) :=
  match s.threads[t]?, a with
  | some .idle, .call (.push v) => some (s.advance t s.mem (.pushStart v) (.inv t (.push v)))
  | some .idle, .call .pop => some (s.advance t s.mem .popStart (.inv t .pop))
  | some (.pushStart v), .load =>
    match s.mem.alloc v s.mem.load with
    | (m, active) => some (s.advance t m (.pushCas active) (.loaded t s.mem.load))
  | some (.pushCas active), .cas b =>
    match s.mem.nodes[active]? with
    | none => none
    | some nd =>
      match s.mem.compare_exchange_weak nd.prev (some active) b with
      | (true, m, e) => some (s.advance t m .pushDone (.pushed t active e))
      | (false, m, e) =>
        some (s.advance t (m.setPrev active e) (.pushCas active)
          (.failed t e (decide (s.mem.head_ = nd.prev))))
  | some .pushDone, .ret => some (s.advance t s.mem .idle (.res t none))
  | some .popStart, .load => some (s.advance t s.mem (.popLoop s.mem.load) (.loaded t s.mem.load))
  | some (.popLoop (some n)), .cas b =>
    match s.mem.nodes[n]? with
    | none => none
    | some nd =>
      match s.mem.compare_exchange_weak (some n) nd.prev b with
      | (true, m, _) => some (s.advance t m (.popDone n) (.popped t n nd.prev))
      | (false, m, e) =>
        some (s.advance t m (.popLoop e) (.failed t e (decide (s.mem.head_ = some n))))
  | some (.popLoop none), .ret => some (s.advance t s.mem .idle (.res t none))
  | some (.popDone n), .ret =>
    match s.mem.nodes[n]? with
    | none => none
    | some nd =>
      some (s.advance t (s.mem.setValue n (moved nd.value)) .idle (.res t (some nd.value)))
  | _, _ => none

/-- A schedule: which thread takes which kind of step, in order. -/
abbrev Schedule (α : Type) := List (Nat × Act α)

/-- Running a schedule from a state; `none` when some step of it cannot be taken. -/
def exec {α : Type} (moved : α → α) : Sys α → Schedule α → Option (Sys α)
  | s, [] => some s
  | s, (t, a) :: rest =>
    match step moved s t a with
    | none => none
    | some s' => exec moved s' rest

/-- The states an execution of `k` threads on a fresh stack can be in. -/
def Reachable {α : Type} (moved : α → α) (k : Nat) (s : Sys α) : Prop :=
  ∃ sched : Schedule α, exec moved (Sys.init k) sched = some s

/-! ## What the history says about a node -/

/-- Whether the history records that node `c` was installed as the head by a `push`. -/
def wasPushed {α : Type} (hist : List (Event α)) (c : Nat) : Bool :=
  hist.any (fun e => match e with
    | .pushed _ c' _ => decide (c' = c)
    | _ => false)

/-- Whether the history records that node `n` was taken off the head by a `pop`. -/
def wasPopped {α : Type} (hist : List (Event α)) (n : Nat) : Bool :=
  hist.any (fun e => match e with
    | .popped _ n' _ => decide (n' = n)
    | _ => false)

/-- The steps of `step`, one constructor for each way a step can go. -/
inductive Step {α : Type} (moved : α → α) (s : Sys α) (t : Nat) : Act α → Sys α → Prop
  | callPush (v : α) (ht : s.threads[t]? = some .idle) :
      Step moved s t (.call (.push v)) (s.advance t s.mem (.pushStart v) (.inv t (.push v)))
  | callPop (ht : s.threads[t]? = some .idle) :
      Step moved s t (.call .pop) (s.advance t s.mem .popStart (.inv t .pop))
  | pushLoad (v : α) (ht : s.threads[t]? = some (.pushStart v)) :
      Step moved s t .load
        (s.advance t ⟨s.mem.nodes ++ [⟨v, s.mem.head_⟩], s.mem.head_⟩
          (.pushCas s.mem.nodes.length) (.loaded t s.mem.head_))
  | pushOk (c : Nat) (nd : Node α) (ht : s.threads[t]? = some (.pushCas c))
      (hc : s.mem.nodes[c]? = some nd) (hh : s.mem.head_ = nd.prev) :
      Step moved s t (.cas false)
        (s.advance t { s.mem with head_ := some c } .pushDone (.pushed t c nd.prev))
  | pushFail (c : Nat) (nd : Node α) (b : Bool) (ht : s.threads[t]? = some (.pushCas c))
      (hc : s.mem.nodes[c]? = some nd) (hh : s.mem.head_ ≠ nd.prev ∨ b = true) :
      Step moved s t (.cas b)
        (s.advance t (s.mem.setPrev c s.mem.head_) (.pushCas c)
          (.failed t s.mem.head_ (decide (s.mem.head_ = nd.prev))))
  | pushRet (ht : s.threads[t]? = some .pushDone) :
      Step moved s t .ret (s.advance t s.mem .idle (.res t none))
  | popLoad (ht : s.threads[t]? = some .popStart) :
      Step moved s t .load (s.advance t s.mem (.popLoop s.mem.head_) (.loaded t s.mem.head_))
  | popOk (n : Nat) (nd : Node α) (ht : s.threads[t]? = some (.popLoop (some n)))
      (hn : s.mem.nodes[n]? = some nd) (hh : s.mem.head_ = some n) :
      Step moved s t (.cas false)
        (s.advance t { s.mem with head_ := nd.prev } (.popDone n) (.popped t n nd.prev))
  | popFail (n : Nat) (nd : Node α) (b : Bool) (ht : s.threads[t]? = some (.popLoop (some n)))
      (hn : s.mem.nodes[n]? = some nd) (hh : s.mem.head_ ≠ some n ∨ b = true) :
      Step moved s t (.cas b)
        (s.advance t s.mem (.popLoop s.mem.head_)
          (.failed t s.mem.head_ (decide (s.mem.head_ = some n))))
  | popRetEmpty (ht : s.threads[t]? = some (.popLoop none)) :
      Step moved s t .ret (s.advance t s.mem .idle (.res t none))
  | popRet (n : Nat) (nd : Node α) (ht : s.threads[t]? = some (.popDone n))
      (hn : s.mem.nodes[n]? = some nd) :
      Step moved s t .ret
        (s.advance t (s.mem.setValue n (moved nd.value)) .idle (.res t (some nd.value)))

/-- Well-formedness of a state of the shared stack: the head starts a chain of nodes that
were installed and not yet taken off; links only lead to installed nodes; the candidate of
a running `push` is private to it and not yet installed; a running `pop` only holds
installed nodes, and after its successful swap a node that was taken off. -/
structure WF {α : Type} (s : Sys α) : Prop where
  chain : ∃ l, Chain s.mem.nodes s.mem.head_ l ∧
    ∀ n ∈ l, wasPushed s.hist n = true ∧ wasPopped s.hist n = false
  prevPub : ∀ (i : Nat) (nd : Node α) (m : Nat), s.mem.nodes[i]? = some nd →
    nd.prev = some m → wasPushed s.hist m = true
  pubLt : ∀ c : Nat, wasPushed s.hist c = true → c < s.mem.nodes.length
  popPub : ∀ n : Nat, wasPopped s.hist n = true → wasPushed s.hist n = true
  cand : ∀ t c : Nat, s.threads[t]? = some (Local.pushCas c) →
    c < s.mem.nodes.length ∧ wasPushed s.hist c = false
  candUniq : ∀ t u c : Nat, s.threads[t]? = some (Local.pushCas c) →
    s.threads[u]? = some (Local.pushCas c) → t = u
  popObs : ∀ t n : Nat, s.threads[t]? = some (Local.popLoop (some n)) →
    wasPushed s.hist n = true
  popHeld : ∀ t n : Nat, s.threads[t]? = some (Local.popDone n) →
    wasPopped s.hist n = true
  popUniq : ∀ t u n : Nat, s.threads[t]? = some (Local.popDone n) →
    s.threads[u]? = some (Local.popDone n) → t = u

/-! ## What the history says about a thread -/

/-- The operation of the latest call thread `t` invoked. -/
def opOf {α : Type} : List (Event α) → Nat → Option (Op α)
  | [], _ => none
  | .inv t' op :: es, t => if t' = t then some op else opOf es t
  | _ :: es, t => opOf es t

/-- The head value thread `t` saw at its latest `load` or compare-and-swap, if it made one
since it last invoked or returned. -/
def lastSeen {α : Type} : List (Event α) → Nat → Option (Option Nat)
  | [], _ => none
  | e :: es, t =>
    if e.tid = t then
      match e with
      | .loaded _ seen => some seen
      | .failed _ seen _ => some seen
      | .pushed _ _ old => some old
      | .popped _ n _ => some (some n)
      | _ => none
    else lastSeen es t

/-- Whether thread `t` has written the head slot since its latest invocation. -/
def wroteHead {α : Type} : List (Event α) → Nat → Bool
  | [], _ => false
  | e :: es, t =>
    if e.tid = t then
      match e with
      | .pushed _ _ _ => true
      | .popped _ _ _ => true
      | .inv _ _ => false
      | _ => wroteHead es t
    else wroteHead es t

/-- What the history must say about thread `t` when its local state is `l`: which operation
it is in, what it last saw of the head, and whether it has written the head. -/
def Booked {α : Type} (nodes : List (Node α)) (hist : List (Event α)) (t : Nat) :
    Local α → Prop
  | .idle => True
  | .pushStart v => opOf hist t = some (.push v) ∧ wroteHead hist t = false
  | .pushCas c => ∃ nd, nodes[c]? = some nd ∧ opOf hist t = some (.push nd.value) ∧
      lastSeen hist t = some nd.prev ∧ wroteHead hist t = false
  | .pushDone => (∃ v, opOf hist t = some (.push v)) ∧ wroteHead hist t = true
  | .popStart => opOf hist t = some .pop ∧ wroteHead hist t = false
  | .popLoop a => opOf hist t = some .pop ∧ lastSeen hist t = some a ∧
      wroteHead hist t = false
  | .popDone n => opOf hist t = some .pop ∧ lastSeen hist t = some (some n) ∧
      wroteHead hist t = true

/-- Every thread's local state agrees with the history. -/
def Book {α : Type} (s : Sys α) : Prop :=
  ∀ (t : Nat) (l : Local α), s.threads[t]? = some l → Booked s.mem.nodes s.hist t l

/-! ## Accounting for values -/

/-- The values passed to the `push` calls invoked so far. -/
def invPushVals {α : Type} (hist : List (Event α)) : List α :=
  hist.filterMap (fun e => match e with
    | .inv _ (.push v) => some v
    | _ => none)

/-- The values returned by the `pop` calls that have returned so far. -/
def resVals {α : Type} (hist : List (Event α)) : List α :=
  hist.filterMap (fun e => match e with
    | .res _ (some v) => some v
    | _ => none)

/-- The values of the `push` calls whose compare-and-swap has succeeded so far: for each
recorded installation, the argument of the call the installing thread was in. -/
def pushedVals {α : Type} : List (Event α) → List α
  | [] => []
  | .pushed t _ _ :: es =>
    match opOf es t with
    | some (.push v) => v :: pushedVals es
    | _ => pushedVals es
  | _ :: es => pushedVals es

/-- The value a thread holds between the successful swap of its `pop` and its return. -/
def heldOf {α : Type} (nodes : List (Node α)) : Local α → Multiset α
  | .popDone n =>
    match nodes[n]? with
    | some nd => {nd.value}
    | none => 0
  | _ => 0

/-- The value a thread is pushing while its `push` has not yet installed it. -/
def inflightOf {α : Type} (nodes : List (Node α)) : Local α → Multiset α
  | .pushStart v => {v}
  | .pushCas c =>
    match nodes[c]? with
    | some nd => {nd.value}
    | none => 0
  | _ => 0

/-- The values taken off the stack by `pop` calls that have swapped but not yet returned. -/
def heldVals {α : Type} (s : Sys α) : Multiset α :=
  (s.threads.map (heldOf s.mem.nodes)).sum

/-- The values of the `push` calls that are running and have not yet installed their node. -/
def inflightVals {α : Type} (s : Sys α) : Multiset α :=
  (s.threads.map (inflightOf s.mem.nodes)).sum

/-- Conservation of values: what the completed pushes put in is on the chain or was taken off
by a `pop`; what was passed to `push` was installed or is still on its way. -/
structure Conserved {α : Type} (s : Sys α) : Prop where
  pushed : ∀ l, Chain s.mem.nodes s.mem.head_ l →
    (↑(pushedVals s.hist) : Multiset α) =
      ↑(valuesOf s.mem.nodes l) + (heldVals s + ↑(resVals s.hist))
  invoked : (↑(invPushVals s.hist) : Multiset α) = ↑(pushedVals s.hist) + inflightVals s

/-! ## Counting retries -/

/-- The failed compare-and-swap attempts of thread `t` since its latest invocation. -/
def failedOf {α : Type} (t : Nat) : List (Event α) → Nat
  | [] => 0
  | .inv t' _ :: es => if t' = t then 0 else failedOf t es
  | .failed t' _ _ :: es => (if t' = t then 1 else 0) + failedOf t es
  | _ :: es => failedOf t es

/-- Those of the failed attempts of thread `t` since its latest invocation that were
spurious: the head did equal the expected handle. -/
def spuriousOf {α : Type} (t : Nat) : List (Event α) → Nat
  | [] => 0
  | .inv t' _ :: es => if t' = t then 0 else spuriousOf t es
  | .failed t' _ sp :: es => (if t' = t ∧ sp = true then 1 else 0) + spuriousOf t es
  | _ :: es => spuriousOf t es

/-- The successful compare-and-swaps (changes of the head) made by threads other than `t`
since the latest invocation of `t`. -/
def swapsByOthers {α : Type} (t : Nat) : List (Event α) → Nat
  | [] => 0
  | .inv t' _ :: es => if t' = t then 0 else swapsByOthers t es
  | .pushed t' _ _ :: es => (if t' = t then 0 else 1) + swapsByOthers t es
  | .popped t' _ _ :: es => (if t' = t then 0 else 1) + swapsByOthers t es
  | _ :: es => swapsByOthers t es

/-- One for an event that records a successful compare-and-swap, zero for any other. -/
def Event.swapped {α : Type} : Event α → Nat
  | .pushed _ _ _ => 1
  | .popped _ _ _ => 1
  | _ => 0

/-- The number of successful compare-and-swaps in a history. -/
def swapCount {α : Type} : List (Event α) → Nat
  | [] => 0
  | .pushed _ _ _ :: es => 1 + swapCount es
  | .popped _ _ _ :: es => 1 + swapCount es
  | _ :: es => swapCount es

/-- The number of calls invoked in a history. -/
def invCount {α : Type} : List (Event α) → Nat
  | [] => 0
  | .inv _ _ :: es => 1 + invCount es
  | _ :: es => invCount es

/-- Whether the next compare-and-swap of a thread in this local state would find the head
different from its expected handle (`1`) or not (`0`). -/
def stale {α : Type} (nodes : List (Node α)) (head : Option Nat) : Local α → Nat
  | .pushCas c =>
    match nodes[c]? with
    | some nd => if head = nd.prev then 0 else 1
    | none => 0
  | .popLoop (some n) => if head = some n then 0 else 1
  | _ => 0

/-- Whether a thread in this local state is in a call that has not yet made its successful
compare-and-swap and may still make one. -/
def armed {α : Type} : Local α → Nat
  | .pushStart _ => 1
  | .pushCas _ => 1
  | .popStart => 1
  | .popLoop (some _) => 1
  | _ => 0

/-- The retry account of every thread: its failed attempts, plus one if its next attempt is
bound to fail, are covered by the head changes of the other threads and its spurious
failures. -/
def RetryOk {α : Type} (s : Sys α) : Prop :=
  ∀ t : Nat, failedOf t s.hist +
      (match s.threads[t]? with
        | some l => stale s.mem.nodes s.mem.head_ l
        | none => 0) ≤
    swapsByOthers t s.hist + spuriousOf t s.hist

/-- Every call makes at most one successful compare-and-swap. -/
def SwapOnce {α : Type} (s : Sys α) : Prop :=
  swapCount s.hist + (s.threads.map armed).sum ≤ invCount s.hist

/-- The call thread `t` is in returns within `n` steps when `t` runs alone from `s` and none
of its compare-and-swap attempts fails spuriously. -/
def Finishes {α : Type} (moved : α → α) (s : Sys α) (t : Nat) (n : Nat) : Prop :=
  ∃ (sched : Schedule α) (s' : Sys α), sched.length ≤ n ∧
    (∀ x ∈ sched, x.1 = t ∧ x.2 ≠ Act.cas true) ∧
    exec moved s sched = some s' ∧ s'.threads[t]? = some Local.idle

/-! ## Linearization -/

/-- A list of operations on the sequential stack: what each operation returns, in order. -/
def specTrace {α : Type} : List α → List (Op α) → List (Option α)
  | _, [] => []
  | st, op :: ops => (specStep st op).2 :: specTrace (specStep st op).1 ops

/-- The content of the sequential stack after a list of operations. -/
def specFinal {α : Type} : List α → List (Op α) → List α
  | st, [] => st
  | st, op :: ops => specFinal (specStep st op).1 ops

/-- Whether event `e`, coming after the history `es`, is the linearization point of a call,
and then of which thread and operation: the successful compare-and-swap of a `push` or of a
`pop`, and the `load` or failed compare-and-swap at which a `pop` sees the head empty. -/
def linOf {α : Type} (e : Event α) (es : List (Event α)) : Option (Nat × Op α) :=
  match e with
  | .pushed t _ _ =>
    match opOf es t with
    | some (.push v) => some (t, .push v)
    | _ => none
  | .popped t _ _ => some (t, .pop)
  | .loaded t none =>
    match opOf es t with
    | some .pop => some (t, .pop)
    | _ => none
  | .failed t none _ =>
    match opOf es t with
    | some .pop => some (t, .pop)
    | _ => none
  | _ => none

/-- The content of the sequential stack after the linearization points of a history. -/
def absStack {α : Type} : List (Event α) → List α
  | [] => []
  | e :: es =>
    match linOf e es with
    | some (_, op) => (specStep (absStack es) op).1
    | none => absStack es

/-- The calls that have taken effect, most recent first, in the order of their linearization
points: thread, operation, and the result the sequential stack gives the operation there. -/
def linHist {α : Type} : List (Event α) → List (Nat × Op α × Option α)
  | [] => []
  | e :: es =>
    match linOf e es with
    | some (t, op) => (t, op, (specStep (absStack es) op).2) :: linHist es
    | none => linHist es

/-- The operations thread `t` has invoked, most recent first. -/
def invOps {α : Type} (t : Nat) (hist : List (Event α)) : List (Op α) :=
  hist.filterMap (fun e => match e with
    | .inv t' op => if t' = t then some op else none
    | _ => none)

/-- The results the calls of thread `t` have returned, most recent first
(`none` for a `push` and for a `pop` that found the stack empty). -/
def resOf {α : Type} (t : Nat) (hist : List (Event α)) : List (Option α) :=
  hist.filterMap (fun e => match e with
    | .res t' r => if t' = t then some r else none
    | _ => none)

/-- The operations of thread `t` in a list of calls. -/
def linOpsOf {α : Type} (t : Nat) (lh : List (Nat × Op α × Option α)) : List (Op α) :=
  lh.filterMap (fun x => if x.1 = t then some x.2.1 else none)

/-- The results of the operations of thread `t` in a list of calls. -/
def linResOf {α : Type} (t : Nat) (lh : List (Nat × Op α × Option α)) : List (Option α) :=
  lh.filterMap (fun x => if x.1 = t then some x.2.2 else none)

/-- The linearization of an execution, in chronological order. -/
def linearization {α : Type} (s : Sys α) : List (Nat × Op α × Option α) :=
  (linHist s.hist).reverse

/-- The position, in a list of calls, of the call number `i` (from `0`) of thread `t`. -/
def posOf {α : Type} (t : Nat) : Nat → List (Nat × Op α × Option α) → Option Nat
  | _, [] => none
  | i, x :: xs =>
    if x.1 = t then
      match i with
      | 0 => some 0
      | i + 1 => (posOf t i xs).map (fun p => p + 1)
    else (posOf t i xs).map (fun p => p + 1)

/-- How far the call of a thread has got, told by the history: before its linearization point
the latest invoked operation is not yet among the linearized ones; after it the linearized
result is not yet among the returned ones; otherwise both agree. -/
def LinPhase {α : Type} (nodes : List (Node α)) (hist : List (Event α)) (t : Nat) :
    Option (Local α) → Prop
  | some (.pushStart _) | some (.pushCas _) | some .popStart | some (.popLoop (some _)) =>
    ∃ op, opOf hist t = some op ∧ invOps t hist = op :: linOpsOf t (linHist hist) ∧
      resOf t hist = linResOf t (linHist hist)
  | some .pushDone | some (.popLoop none) =>
    invOps t hist = linOpsOf t (linHist hist) ∧
      linResOf t (linHist hist) = none :: resOf t hist
  | some (.popDone n) =>
    invOps t hist = linOpsOf t (linHist hist) ∧
      ∃ nd, nodes[n]? = some nd ∧ linResOf t (linHist hist) = some nd.value :: resOf t hist
  | some .idle | none =>
    invOps t hist = linOpsOf t (linHist hist) ∧ resOf t hist = linResOf t (linHist hist)

/-- The simulation invariant: the chain below the head holds the content of the sequential
stack, and every thread is in the phase its local state tells. -/
structure Lin {α : Type} (s : Sys α) : Prop where
  abs : ∀ l, Chain s.mem.nodes s.mem.head_ l → absStack s.hist = valuesOf s.mem.nodes l
  phase : ∀ t : Nat, LinPhase s.mem.nodes s.hist t s.threads[t]?

/-! ## Reference counts

The handles of the program are `std::shared_ptr`s: every node has a use count, a copy of a
handle increments it, the destruction of a handle decrements it, and the handle that brings
it to zero reclaims the node, which destroys the node's own `prev` handle in turn.  The
operations of `std::atomic<std::shared_ptr>` increment as part of the atomic step and
decrement afterwards.  The copy a call passes as `desired` is counted together with the
compare-and-swap it is made for; it copies `active`, or the `prev` of the node `active`
refers to.  The state below adds this bookkeeping to `Sys`: the use counts, which
nodes have been reclaimed, and for each thread the handles it has still to destroy before it
goes on. -/

/-- The reference-count bookkeeping of one step: the nodes it dereferences, the handles it
copies, whether it creates a node, and the handles it leaves to be destroyed. -/
structure Effect where
  uses : List Nat
  incs : List Nat
  fresh : Bool
  drops : List Nat
deriving DecidableEq

/-- The bookkeeping of the step `step moved s t a`.
* `load` copies the head; in `push`, `make_shared` then creates the node, which takes the copy
  as its `prev`, with use count one for `active`.
* The compare-and-swap of `push` copies `active` into `desired`.  On success `desired` moves
  into the head, the handle the head held is destroyed, and so is `active` when the call
  returns.  On failure `active->prev` becomes a copy of the head, its old handle is destroyed,
  and so is `desired`.
* The compare-and-swap of `pop` copies `active->prev` into `desired`.  On success `desired`
  moves into the head and the handle the head held is destroyed.  On failure `active` becomes
  a copy of the head, its old handle is destroyed, and so is `desired`.
* The return of a `pop` that swapped reads `active->value` and destroys `active`. -/
def effect {α : Type} (s : Sys α) (t : Nat) (a : Act α) : Effect :=
  match s.threads[t]?, a with
  | some (.pushStart _), .load => ⟨[], s.mem.head_.toList, true, []⟩
  | some (.pushCas c), .cas b =>
    match s.mem.nodes[c]? with
    | some nd =>
      if s.mem.head_ = nd.prev ∧ b = false then ⟨[c], [c], false, nd.prev.toList ++ [c]⟩
      else ⟨[c], c :: s.mem.head_.toList, false, nd.prev.toList ++ [c]⟩
    | none => ⟨[c], [], false, []⟩
  | some .popStart, .load => ⟨[], s.mem.head_.toList, false, []⟩
  | some (.popLoop (some n)), .cas b =>
    match s.mem.nodes[n]? with
    | some nd =>
      if s.mem.head_ = some n ∧ b = false then ⟨[n], nd.prev.toList, false, [n]⟩
      else ⟨[n], nd.prev.toList ++ s.mem.head_.toList, false, n :: nd.prev.toList⟩
    | none => ⟨[n], [], false, []⟩
  | some (.popDone n), .ret => ⟨[n], [], false, [n]⟩
  | _, _ => ⟨[], [], false, []⟩

/-- The shared stack with its reference counts. -/
structure RcSys (α : Type) where
  base : Sys α
  rc : List Nat
  freed : List Bool
  drops : List (List Nat)
deriving DecidableEq

/-- A freshly constructed stack and `k` threads: no node, nothing to destroy. -/
def RcSys.init {α : Type} (k : Nat) : RcSys α := ⟨Sys.init k, [], [], List.replicate k []⟩

/-- The steps of the counted system: a step of the program, or the destruction of one
handle. -/
inductive RAct (α : Type) where
  | run (a : Act α)
  | release
deriving DecidableEq

/-- The handle stored in the field `prev` of node `n`. -/
def prevAt {α : Type} (s : Sys α) (n : Nat) : Option Nat :=
  match s.mem.nodes[n]? with
  | some nd => nd.prev
  | none => none

/-- The use counts after copying the handles `incs`. -/
def bump (incs : List Nat) (rc : List Nat) : List Nat :=
  incs.foldl (fun r i => r.modify (fun k => k + 1) i) rc

/-- One step of thread `t` in the counted system.
* `release` destroys the first handle the thread has still to destroy: the use count goes down
  by one, and if it reaches zero the node is reclaimed and its `prev` handle is next to be
  destroyed.  Destroying a handle to a reclaimed node (a double free) is `none`.
* `run a` is the step `a` of the program, possible once the thread has nothing left to
  destroy.  Dereferencing a reclaimed node or copying a handle to one (a use after free) is
  `none`. -/
def rstep {α : Type} (moved : α → α) (s : RcSys α) (t : Nat) : RAct α → Option (RcSys α)
  | .release =>
    match s.drops[t]? with
    | some (n :: rest) =>
      match s.freed[n]?, s.rc[n]? with
      | some false, some (k + 1) =>
        if k = 0 then
          some { s with
            rc := s.rc.set n 0
            freed := s.freed.set n true
            drops := s.drops.set t ((prevAt s.base n).toList ++ rest) }
        else some { s with rc := s.rc.set n k, drops := s.drops.set t rest }
      | _, _ => none
    | _ => none
  | .run a =>
    match s.drops[t]? with
    | some [] =>
      match step moved s.base t a with
      | none => none
      | some b =>
        if ((effect s.base t a).uses ++ (effect s.base t a).incs).all
            (fun i => decide (s.freed[i]? = some false)) then
          some {
            base := b
            rc := if (effect s.base t a).fresh then bump (effect s.base t a).incs s.rc ++ [1]
              else bump (effect s.base t a).incs s.rc
            freed := if (effect s.base t a).fresh then s.freed ++ [false] else s.freed
            drops := s.drops.set t (effect s.base t a).drops }
        else none
    | _ => none

/-- Running a schedule of the counted system. -/
def rexec {α : Type} (moved : α → α) : RcSys α → List (Nat × RAct α) → Option (RcSys α)
  | s, [] => some s
  | s, (t, a) :: rest =>
    match rstep moved s t a with
    | none => none
    | some s' => rexec moved s' rest

/-- The states an execution of `k` threads of the counted system can be in. -/
def RReachable {α : Type} (moved : α → α) (k : Nat) (s : RcSys α) : Prop :=
  ∃ sched : List (Nat × RAct α), rexec moved (RcSys.init k) sched = some s

/-- How many handles to node `n` a thread in this local state holds in `active`. -/
def holdsLocal {α : Type} : Local α → Nat → Nat
  | .pushCas c, n => if c = n then 1 else 0
  | .popLoop (some m), n => if m = n then 1 else 0
  | .popDone m, n => if m = n then 1 else 0
  | _, _ => 0

/-- One if node `m` is not reclaimed and its `prev` is a handle to node `n`. -/
def linkAt {α : Type} (s : RcSys α) (n m : Nat) : Nat :=
  if s.freed[m]? = some false ∧ prevAt s.base m = some n then 1 else 0

/-- The number of nodes that are not reclaimed and whose `prev` is a handle to node `n`. -/
def linkSum {α : Type} (s : RcSys α) (n : Nat) : Nat :=
  ((List.range s.base.mem.nodes.length).map (linkAt s n)).sum

/-- The number of handles to node `n` held in the `active` of running calls. -/
def localSum {α : Type} (s : Sys α) (n : Nat) : Nat :=
  (s.threads.map (fun l => holdsLocal l n)).sum

/-- The number of handles to node `n` among the handles threads have still to destroy. -/
def dropSum (drops : List (List Nat)) (n : Nat) : Nat :=
  (drops.map (fun d => d.count n)).sum

/-- The number of handles to node `n` there are: in the head slot, in the `prev` of nodes that
are not reclaimed, in the `active` of running calls, and among the handles threads have still
to destroy. -/
def holders {α : Type} (s : RcSys α) (n : Nat) : Nat :=
  (if s.base.mem.head_ = some n then 1 else 0) + linkSum s n + localSum s.base n +
    dropSum s.drops n

/-- The use count of node `n`. -/
def rcAt {α : Type} (s : RcSys α) (n : Nat) : Nat := (s.rc[n]?).getD 0

/-- The reference-count invariant: the use count of a node that is not reclaimed is the
number of handles to it and is not zero; nothing refers to a node that is reclaimed or does
not exist. -/
structure RcInv {α : Type} (s : RcSys α) : Prop where
  lenRc : s.rc.length = s.base.mem.nodes.length
  lenFreed : s.freed.length = s.base.mem.nodes.length
  lenDrops : s.drops.length = s.base.threads.length
  counted : ∀ n : Nat, s.freed[n]? = some false → rcAt s n = holders s n ∧ 0 < holders s n
  gone : ∀ n : Nat, s.freed[n]? ≠ some false → holders s n = 0

/-! ## The order of installation -/

/-- The nodes installed as head so far, most recently installed first. -/
def pushOrder {α : Type} (hist : List (Event α)) : List Nat :=
  hist.filterMap (fun e => match e with
    | .pushed _ c _ => some c
    | _ => none)

/-- The nodes that were installed as head and not taken off since, most recently installed
first. -/
def liveNodes {α : Type} (hist : List (Event α)) : List Nat :=
  (pushOrder hist).filter (fun n => !wasPopped hist n)

/-- The chain below the head is made of the nodes installed and not taken off, in the order
of their installation, and no node was installed twice. -/
structure Ordered {α : Type} (s : Sys α) : Prop where
  once : (pushOrder s.hist).Nodup
  live : Chain s.mem.nodes s.mem.head_ (liveNodes s.hist)

/-! ## Counting attempts -/

/-- The successful compare-and-swaps of other threads since the latest step of thread `t`.
For a thread about to compare-and-swap, its latest step is its latest observation of the
head: its `load` or its latest failed attempt. -/
def swapsSinceSeen {α : Type} (t : Nat) : List (Event α) → Nat
  | [] => 0
  | e :: es => if e.tid = t then 0 else e.swapped + swapsSinceSeen t es

/-- The successful compare-and-swaps of other threads since the latest `load` of thread `t`. -/
def swapsSinceLoad {α : Type} (t : Nat) : List (Event α) → Nat
  | [] => 0
  | .loaded t' _ :: es => if t' = t then 0 else swapsSinceLoad t es
  | .pushed t' _ _ :: es => (if t' = t then 0 else 1) + swapsSinceLoad t es
  | .popped t' _ _ :: es => (if t' = t then 0 else 1) + swapsSinceLoad t es
  | _ :: es => swapsSinceLoad t es

/-- The compare-and-swap attempts of thread `t` since its latest invocation, failed or not. -/
def attemptsOf {α : Type} (t : Nat) : List (Event α) → Nat
  | [] => 0
  | .inv t' _ :: es => if t' = t then 0 else attemptsOf t es
  | .failed t' _ _ :: es => (if t' = t then 1 else 0) + attemptsOf t es
  | .pushed t' _ _ :: es => (if t' = t then 1 else 0) + attemptsOf t es
  | .popped t' _ _ :: es => (if t' = t then 1 else 0) + attemptsOf t es
  | _ :: es => attemptsOf t es

/-- The attempt account of a thread in local state `l`: before its `load` the call has made no
attempt; in its loop its attempts, plus one if the next is bound to fail, are covered by the
head changes of other threads since its `load` and by its spurious failures. -/
def Fresh {α : Type} (nodes : List (Node α)) (head : Option Nat) (hist : List (Event α))
    (t : Nat) : Local α → Prop
  | .pushStart _ => attemptsOf t hist = 0
  | .popStart => attemptsOf t hist = 0
  | .pushCas c =>
    attemptsOf t hist + stale nodes head (.pushCas c) ≤ swapsSinceLoad t hist + spuriousOf t hist
  | .popLoop x =>
    attemptsOf t hist + stale nodes head (.popLoop x) ≤ swapsSinceLoad t hist + spuriousOf t hist
  | _ => True

/-- What every thread knows about the head: if its next compare-and-swap is bound to fail,
another thread has changed the head since the thread observed it; and its attempts are
accounted for. -/
structure Attempts {α : Type} (s : Sys α) : Prop where
  seen : ∀ (t : Nat) (l : Local α), s.threads[t]? = some l →
    stale s.mem.nodes s.mem.head_ l ≤ swapsSinceSeen t s.hist
  budget : ∀ (t : Nat) (l : Local α), s.threads[t]? = some l →
    Fresh s.mem.nodes s.mem.head_ s.hist t l

/-! ## Dereferences -/

/-- Whether the control flow of the program lets a thread in local state `l` take a step of
kind `a`.  In `pop` the loop test `active != nullptr` lets the compare-and-swap run only with
a non-empty `active`, and the `if` after the loop reads `active->value` only then. -/
def enabled {α : Type} : Local α → Act α → Bool
  | .idle, .call _ => true
  | .pushStart _, .load => true
  | .pushCas _, .cas _ => true
  | .pushDone, .ret => true
  | .popStart, .load => true
  | .popLoop (some _), .cas _ => true
  | .popLoop none, .ret => true
  | .popDone _, .ret => true
  | _, _ => false

/-- The handle `active` a step of kind `a` dereferences in local state `l`: for `active->prev`
in the compare-and-swap of `push` and of `pop`, for `active->value` in the return of a `pop`
that swapped; `none` for a step that dereferences nothing. -/
def derefOf {α : Type} : Local α → Act α → Option (Option Nat)
  | .pushCas c, .cas _ => some (some c)
  | .popLoop x, .cas _ => some x
  | .popDone n, .ret => some (some n)
  | _, _ => none

/-! ## Counting detachments -/

/-- One if the step of thread `t` that leads from `s` to `s'` is the successful
compare-and-swap of a `pop` against node `n`, zero otherwise. -/
def isDetach {α : Type} (s s' : Sys α) (t n : Nat) : Nat :=
  match s.threads[t]?, s'.threads[t]? with
  | some (.popLoop (some m)), some (.popDone _) => if m = n then 1 else 0
  | _, _ => 0

/-- One if a step of kind `a` of thread `t` in state `s` moves the value out of node `n`: the
return of a `pop` that took `n` off; zero otherwise. -/
def isMove {α : Type} (s : Sys α) (t : Nat) (a : Act α) (n : Nat) : Nat :=
  match s.threads[t]?, a with
  | some (.popDone m), .ret => if m = n then 1 else 0
  | _, _ => 0

/-- How many steps of the run that follows the schedule from `s`, as far as it can be
followed, are successful compare-and-swaps of a `pop` against node `n`. -/
def detaches {α : Type} (moved : α → α) : Sys α → Schedule α → Nat → Nat
  | _, [], _ => 0
  | s, (t, a) :: rest, n =>
    match step moved s t a with
    | none => 0
    | some s' => isDetach s s' t n + detaches moved s' rest n

/-- How many steps of the run that follows the schedule from `s`, as far as it can be
followed, move the value out of node `n`. -/
def movesOut {α : Type} (moved : α → α) : Sys α → Schedule α → Nat → Nat
  | _, [], _ => 0
  | s, (t, a) :: rest, n =>
    match step moved s t a with
    | none => 0
    | some s' => isMove s t a n + movesOut moved s' rest n

/-- Node `n` was taken off by a `pop` that has returned since: it was taken off and no thread
holds it between its swap and its return. -/
def Gone {α : Type} (s : Sys α) (n : Nat) : Prop :=
  wasPopped s.hist n = true ∧ ∀ u : Nat, s.threads[u]? ≠ some (Local.popDone n)

/-! ## Small concrete executions -/

/-- Thread `0` of one has invoked `pop` on the fresh stack and loaded the empty head. -/
def demoEmptyPop : Sys Nat :=
  ⟨Stack.empty, [Local.popLoop none], [Event.loaded 0 none, Event.inv 0 Op.pop]⟩

/-- Two threads push `1` and `2`: both have loaded the empty head and made their node; thread
`1` has installed its node and thread `0` is about to try. -/
def demoRace : Sys Nat :=
  ⟨⟨[⟨1, none⟩, ⟨2, none⟩], some 1⟩, [Local.pushCas 0, Local.pushDone],
    [Event.pushed 1 1 none, Event.loaded 1 none, Event.loaded 0 none,
      Event.inv 1 (Op.push 2), Event.inv 0 (Op.push 1)]⟩

/-- The schedule that leads to `demoRace`. -/
def demoRaceSchedule : Schedule Nat :=
  [(0, Act.call (Op.push 1)), (1, Act.call (Op.push 2)), (0, Act.load), (1, Act.load),
    (1, Act.cas false)]

/-- One thread has invoked `push(7)` on the fresh stack, loaded the head and made its node. -/
def demoPush : Sys Nat :=
  ⟨⟨[⟨7, none⟩], none⟩, [Local.pushCas 0], [Event.loaded 0 none, Event.inv 0 (Op.push 7)]⟩

/-- The state `demoPush` after the compare-and-swap of the `push` succeeded. -/
def demoPushed : Sys Nat :=
  ⟨⟨[⟨7, none⟩], some 0⟩, [Local.pushDone],
    [Event.pushed 0 0 none, Event.loaded 0 none, Event.inv 0 (Op.push 7)]⟩

/-- One thread has pushed `7` and returned, has invoked `pop` and loaded the head. -/
def demoPop : Sys Nat :=
  ⟨⟨[⟨7, none⟩], some 0⟩, [Local.popLoop (some 0)],
    [Event.loaded 0 (some 0), Event.inv 0 Op.pop, Event.res 0 none, Event.pushed 0 0 none,
      Event.loaded 0 none, Event.inv 0 (Op.push 7)]⟩

/-- The state `demoPop` after the compare-and-swap of the `pop` succeeded. -/
def demoPopped : Sys Nat :=
  ⟨⟨[⟨7, none⟩], none⟩, [Local.popDone 0],
    [Event.popped 0 0 none, Event.loaded 0 (some 0), Event.inv 0 Op.pop, Event.res 0 none,
      Event.pushed 0 0 none, Event.loaded 0 none, Event.inv 0 (Op.push 7)]⟩

/-- The schedule that leads to `demoPop`. -/
def demoPopSchedule : Schedule Nat :=
  [(0, Act.call (Op.push 7)), (0, Act.load), (0, Act.cas false), (0, Act.ret),
    (0, Act.call Op.pop), (0, Act.load)]

/-- A stack of vectors (`std::vector<int>`, whose move constructor leaves the source empty):
one thread has pushed `[7]` and returned, and its `pop` has swapped the head and is about to
move the value out and return. -/
def demoVec : Sys (List Nat) :=
  ⟨⟨[⟨[7], none⟩], none⟩, [Local.popDone 0],
    [Event.popped 0 0 none, Event.loaded 0 (some 0), Event.inv 0 Op.pop, Event.res 0 none,
      Event.pushed 0 0 none, Event.loaded 0 none, Event.inv 0 (Op.push [7])]⟩

/-- The schedule that leads to `demoVec`. -/
def demoVecSchedule : Schedule (List Nat) :=
  [(0, Act.call (Op.push [7])), (0, Act.load), (0, Act.cas false), (0, Act.ret),
    (0, Act.call Op.pop), (0, Act.load), (0, Act.cas false)]

/-- Two threads push `1` and `2` concurrently and then pop concurrently until both have their
value: thread `1` installs first, thread `0` fails once and installs on top; thread `0` takes
its node off first, thread `1` fails once and takes the other. -/
def demoDrainSchedule : Schedule Nat :=
  demoRaceSchedule ++
    [(0, Act.cas false), (0, Act.cas false), (0, Act.ret), (1, Act.ret),
      (0, Act.call Op.pop), (1, Act.call Op.pop), (0, Act.load), (1, Act.load),
      (0, Act.cas false), (1, Act.cas false), (1, Act.cas false), (0, Act.ret), (1, Act.ret)]

/-- The state at the end of `demoDrainSchedule`. -/
def demoDrained : Sys Nat :=
  ⟨⟨[⟨1, some 1⟩, ⟨2, none⟩], none⟩, [Local.idle, Local.idle],
    [Event.res 1 (some 2), Event.res 0 (some 1), Event.popped 1 1 none,
      Event.failed 1 (some 1) false, Event.popped 0 0 (some 1), Event.loaded 1 (some 0),
      Event.loaded 0 (some 0), Event.inv 1 Op.pop, Event.inv 0 Op.pop, Event.res 1 none,
      Event.res 0 none, Event.pushed 0 0 (some 1), Event.failed 0 (some 1) false,
      Event.pushed 1 1 none, Event.loaded 1 none, Event.loaded 0 none,
      Event.inv 1 (Op.push 2), Event.inv 0 (Op.push 1)]⟩

/-- One thread pushes `7` and pops it again, destroying its handles as it goes, up to the
return of the `pop`. -/
def demoCountedSchedule : List (Nat × RAct Nat) :=
  [(0, RAct.run (Act.call (Op.push 7))), (0, RAct.run Act.load), (0, RAct.run (Act.cas false)),
    (0, RAct.release), (0, RAct.run Act.ret), (0, RAct.run (Act.call Op.pop)),
    (0, RAct.run Act.load), (0, RAct.run (Act.cas false)), (0, RAct.release),
    (0, RAct.run Act.ret)]

/-- The state at the end of `demoCountedSchedule`: the `pop` has returned `7`, and the last
handle to the node, the `active` of the `pop`, is about to be destroyed. -/
def demoCounted : RcSys Nat :=
  ⟨⟨⟨[⟨7, none⟩], none⟩, [Local.idle],
      [Event.res 0 (some 7), Event.popped 0 0 none, Event.loaded 0 (some 0),
        Event.inv 0 Op.pop, Event.res 0 none, Event.pushed 0 0 none, Event.loaded 0 none,
        Event.inv 0 (Op.push 7)]⟩,
    [1], [false], [[0]]⟩

/-- The state `demoRace` after the compare-and-swap of thread `0` has failed: the `prev` of its
candidate, node `0`, now is the head it found, node `1`. -/
def demoRetried : Sys Nat :=
  ⟨⟨[⟨1, some 1⟩, ⟨2, none⟩], some 1⟩, [Local.pushCas 0, Local.pushDone],
    Event.failed 0 (some 1) false :: demoRace.hist⟩

/-- The schedule that continues `demoPopped`: the `pop` returns, and the thread pushes `9`. -/
def demoAgainSchedule : Schedule Nat :=
  [(0, Act.ret), (0, Act.call (Op.push 9)), (0, Act.load), (0, Act.cas false)]

/-- The state at the end of `demoAgainSchedule`: node `0` was taken off and its value returned,
and node `1`, holding `9`, is the head. -/
def demoAgain : Sys Nat :=
  ⟨⟨[⟨7, none⟩, ⟨9, none⟩], some 1⟩, [Local.pushDone],
    [Event.pushed 0 1 none, Event.loaded 0 none, Event.inv 0 (Op.push 9),
      Event.res 0 (some 7), Event.popped 0 0 none, Event.loaded 0 (some 0),
      Event.inv 0 Op.pop, Event.res 0 none, Event.pushed 0 0 none, Event.loaded 0 none,
      Event.inv 0 (Op.push 7)]⟩

end LockFree

/-! # Theorems -/

namespace LockFree

/-! ## The compare-and-swap primitive -/

theorem cas_eq_true {α : Type} (s : Stack α) (d : Option Nat) :
    s.compare_exchange_weak s.head_ d false = (true, { s with head_ := d }, s.head_) := by
  simp [Stack.compare_exchange_weak]

theorem cas_spurious {α : Type} (s : Stack α) (e d : Option Nat) :
    s.compare_exchange_weak e d true = (false, s, s.head_) := by
  simp [Stack.compare_exchange_weak]

theorem cas_ne {α : Type} (s : Stack α) (e d : Option Nat) (b : Bool) (h : s.head_ ≠ e) :
    s.compare_exchange_weak e d b = (false, s, s.head_) := by
  simp [Stack.compare_exchange_weak, h]

theorem setPrev_same {α : Type} (s : Stack α) (i : Nat) (nd : Node α)
    (h : s.nodes[i]? = some nd) : s.setPrev i nd.prev = s := by
  cases s with
  | mk nodes hd =>
    simp only [Stack.setPrev, Stack.mk.injEq, and_true]
    simp only at h
    apply List.ext_getElem?
    intro j
    rw [List.getElem?_modify]
    by_cases hj : i = j
    · subst hj
      simp [h]
    · simp [hj]

/-! ## Chains -/

theorem Chain.unique {α : Type} {nodes : List (Node α)} {p : Option Nat} {l l' : List Nat}
    (h : Chain nodes p l) (h' : Chain nodes p l') : l = l' := by
  induction h generalizing l' with
  | nil => cases h'; rfl
  | cons hn _ ih =>
    cases h' with
    | cons hn' hc' =>
      rw [hn] at hn'
      cases hn'
      rw [ih hc']

theorem Chain.lt_length {α : Type} {nodes : List (Node α)} {p : Option Nat} {l : List Nat}
    (h : Chain nodes p l) : ∀ n ∈ l, n < nodes.length := by
  induction h with
  | nil => intro n hn; cases hn
  | @cons m nd l hn _ ih =>
    intro n hmem
    rcases List.mem_cons.mp hmem with rfl | hmem
    · rcases Nat.lt_or_ge n nodes.length with h1 | h1
      · exact h1
      · rw [List.getElem?_eq_none h1] at hn
        cases hn
    · exact ih n hmem

theorem Chain.append {α : Type} {nodes : List (Node α)} {p : Option Nat} {l : List Nat}
    (h : Chain nodes p l) (extra : List (Node α)) : Chain (nodes ++ extra) p l := by
  induction h with
  | nil => exact Chain.nil
  | @cons m nd l hn _ ih =>
    refine Chain.cons ?_ ih
    have hlt : m < nodes.length := by
      rcases Nat.lt_or_ge m nodes.length with h1 | h1
      · exact h1
      · rw [List.getElem?_eq_none h1] at hn
        cases hn
    rw [List.getElem?_append_left hlt]
    exact hn

/-- A write into a node that is not on the chain leaves the chain as it is. -/
theorem Chain.modify_of_not_mem {α : Type} {nodes : List (Node α)} {p : Option Nat}
    {l : List Nat} (h : Chain nodes p l) (f : Node α → Node α) (i : Nat) (hi : i ∉ l) :
    Chain (nodes.modify f i) p l := by
  induction h with
  | nil => exact Chain.nil
  | @cons m nd l hn _ ih =>
    have hne : i ≠ m := fun e => hi (e ▸ List.mem_cons_self _ _)
    refine Chain.cons ?_ (ih (fun hmem => hi (List.mem_cons_of_mem _ hmem)))
    rw [List.getElem?_modify_ne _ _ hne]
    exact hn

/-- A write that keeps `prev` leaves every chain as it is. -/
theorem Chain.modify_of_prev {α : Type} {nodes : List (Node α)} {p : Option Nat}
    {l : List Nat} (h : Chain nodes p l) (f : Node α → Node α) (i : Nat)
    (hf : ∀ nd, (f nd).prev = nd.prev) : Chain (nodes.modify f i) p l := by
  induction h with
  | nil => exact Chain.nil
  | @cons m nd l hn _ ih =>
    by_cases hne : i = m
    · subst hne
      have : (nodes.modify f i)[i]? = some (f nd) := by
        rw [List.getElem?_modify_eq, hn]; rfl
      have h2 := Chain.cons this (l := l) (by rw [hf]; exact ih)
      exact h2
    · refine Chain.cons ?_ ih
      rw [List.getElem?_modify_ne _ _ hne]
      exact hn

theorem Chain.suffix_of_mem {α : Type} {nodes : List (Node α)} {p : Option Nat} {l : List Nat}
    (h : Chain nodes p l) {n : Nat} (hn : n ∈ l) :
    ∃ l1 l2, l = l1 ++ n :: l2 ∧ Chain nodes (some n) (n :: l2) := by
  induction h with
  | nil => cases hn
  | @cons m nd l hm hc ih =>
    rcases List.mem_cons.mp hn with rfl | hmem
    · exact ⟨[], l, rfl, Chain.cons hm hc⟩
    · obtain ⟨l1, l2, hl, hc2⟩ := ih hmem
      exact ⟨m :: l1, l2, by rw [hl]; rfl, hc2⟩

theorem Chain.nodup {α : Type} {nodes : List (Node α)} {p : Option Nat} {l : List Nat}
    (h : Chain nodes p l) : l.Nodup := by
  induction h with
  | nil => exact List.nodup_nil
  | @cons m nd l hm hc ih =>
    refine List.nodup_cons.mpr ⟨?_, ih⟩
    intro hmem
    obtain ⟨l1, l2, hl, hc2⟩ := hc.suffix_of_mem hmem
    have := (Chain.cons hm hc).unique hc2
    have hlen := congrArg List.length this
    rw [hl] at hlen
    simp at hlen
    omega

theorem walk_sound {α : Type} (nodes : List (Node α)) :
    ∀ (fuel : Nat) (p : Option Nat) (l : List Nat), walk nodes fuel p = some l →
      Chain nodes p l := by
  intro fuel
  induction fuel with
  | zero =>
    intro p l h
    cases p with
    | none => simp [walk] at h; subst h; exact Chain.nil
    | some n => simp [walk] at h
  | succ fuel ih =>
    intro p l h
    cases p with
    | none => simp [walk] at h; subst h; exact Chain.nil
    | some n =>
      simp only [walk] at h
      cases hn : nodes[n]? with
      | none => rw [hn] at h; simp at h
      | some nd =>
        rw [hn] at h
        simp only [Option.map_eq_some'] at h
        obtain ⟨l', hl', rfl⟩ := h
        exact Chain.cons hn (ih _ _ hl')

theorem valuesOf_append {α : Type} (nodes extra : List (Node α)) (l : List Nat)
    (h : ∀ n ∈ l, n < nodes.length) : valuesOf (nodes ++ extra) l = valuesOf nodes l := by
  unfold valuesOf
  apply List.filterMap_congr
  intro n hn
  rw [List.getElem?_append_left (h n hn)]

theorem valuesOf_modify {α : Type} (nodes : List (Node α)) (f : Node α → Node α) (i : Nat)
    (l : List Nat) (h : i ∉ l) : valuesOf (nodes.modify f i) l = valuesOf nodes l := by
  unfold valuesOf
  apply List.filterMap_congr
  intro n hn
  have : i ≠ n := fun e => h (e ▸ hn)
  rw [List.getElem?_modify_ne _ _ this]

/-! ## The operations without interference -/

/-- The loop of `push`, started with `active->prev` equal to the head: it ends at the first
attempt that does not fail spuriously and installs `active`; nothing else changes. -/
theorem pushLoop_eq {α : Type} (active : Nat) (s : Stack α) (nd : Node α)
    (hn : s.nodes[active]? = some nd) (hp : nd.prev = s.head_) :
    ∀ sp : List Bool, false ∈ sp →
      Stack.pushLoop active sp s = some { s with head_ := some active } := by
  intro sp
  induction sp with
  | nil => intro h; cases h
  | cons b bs ih =>
    intro h
    cases b with
    | false =>
      simp only [Stack.pushLoop, hn, hp, cas_eq_true]
    | true =>
      have hbs : false ∈ bs := by
        rcases List.mem_cons.mp h with h1 | h1
        · cases h1
        · exact h1
      simp only [Stack.pushLoop, hn, cas_spurious]
      have := setPrev_same s active nd hn
      rw [hp] at this
      rw [this]
      exact ih hbs

theorem push_eq {α : Type} (s : Stack α) (v : α) (sp : List Bool) (hsp : false ∈ sp) :
    s.push v sp = some ⟨s.nodes ++ [⟨v, s.head_⟩], some s.nodes.length⟩ := by
  simp only [Stack.push, Stack.alloc, Stack.load]
  exact pushLoop_eq s.nodes.length ⟨s.nodes ++ [⟨v, s.head_⟩], s.head_⟩ ⟨v, s.head_⟩
    (by simp) rfl sp hsp

/-- The loop of `pop` on a non-empty stack, started with `active` equal to the head. -/
theorem popLoop_eq {α : Type} (s : Stack α) (n : Nat) (nd : Node α)
    (hh : s.head_ = some n) (hn : s.nodes[n]? = some nd) :
    ∀ sp : List Bool, false ∈ sp →
      Stack.popLoop sp s (some n) = some ({ s with head_ := nd.prev }, some n) := by
  intro sp
  induction sp with
  | nil => intro h; cases h
  | cons b bs ih =>
    intro h
    cases b with
    | false =>
      simp only [Stack.popLoop, hn]
      rw [← hh, cas_eq_true]
    | true =>
      have hbs : false ∈ bs := by
        rcases List.mem_cons.mp h with h1 | h1
        · cases h1
        · exact h1
      simp only [Stack.popLoop, hn, cas_spurious]
      rw [hh]
      exact ih hbs

theorem pop_eq_of_some {α : Type} (moved : α → α) (s : Stack α) (n : Nat) (nd : Node α)
    (hh : s.head_ = some n) (hn : s.nodes[n]? = some nd) (sp : List Bool) (hsp : false ∈ sp) :
    s.pop moved sp =
      some (Stack.setValue { s with head_ := nd.prev } n (moved nd.value), some nd.value) := by
  simp only [Stack.pop, Stack.load]
  rw [hh, popLoop_eq s n nd hh hn sp hsp]
  simp only [hn]

theorem pop_eq_of_none {α : Type} (moved : α → α) (s : Stack α) (hh : s.head_ = none)
    (sp : List Bool) : s.pop moved sp = some (s, none) := by
  simp only [Stack.pop, Stack.load, hh]
  cases sp <;> simp [Stack.popLoop]

theorem push_chain {α : Type} (s : Stack α) (v : α) (sp : List Bool) (hsp : false ∈ sp)
    (l : List Nat) (hl : Chain s.nodes s.head_ l) :
    ∃ s', s.push v sp = some s' ∧ s'.nodes = s.nodes ++ [⟨v, s.head_⟩] ∧
      s'.head_ = some s.nodes.length ∧ s.nodes.length ∉ l ∧
      Chain s'.nodes s'.head_ (s.nodes.length :: l) ∧
      valuesOf s'.nodes (s.nodes.length :: l) = v :: valuesOf s.nodes l := by
  refine ⟨_, push_eq s v sp hsp, rfl, rfl, ?_, ?_, ?_⟩
  · intro hmem
    exact Nat.lt_irrefl _ (hl.lt_length _ hmem)
  · exact @Chain.cons _ _ _ ⟨v, s.head_⟩ _ (by simp) (hl.append _)
  · have h1 : valuesOf (s.nodes ++ [⟨v, s.head_⟩]) l = valuesOf s.nodes l :=
      valuesOf_append _ _ _ hl.lt_length
    simp only [valuesOf] at h1 ⊢
    rw [List.filterMap_cons]
    simp [h1]

theorem pop_chain {α : Type} (moved : α → α) (s : Stack α) (sp : List Bool) (hsp : false ∈ sp)
    (n : Nat) (l : List Nat) (hl : Chain s.nodes s.head_ (n :: l)) :
    ∃ nd s', s.nodes[n]? = some nd ∧ s.pop moved sp = some (s', some nd.value) ∧
      s'.head_ = nd.prev ∧ s'.nodes = s.nodes.modify (fun x => { x with value := moved x.value }) n ∧
      n ∉ l ∧ Chain s'.nodes s'.head_ l ∧ valuesOf s'.nodes l = valuesOf s.nodes l ∧
      valuesOf s.nodes (n :: l) = nd.value :: valuesOf s.nodes l := by
  have hnd := hl.nodup
  generalize hp : s.head_ = p at hl
  cases hl with
  | @cons _ nd _ hn hc =>
    have hnl : n ∉ l := (List.nodup_cons.mp hnd).1
    have hmod : s.nodes.modify (fun x => { x with value := moved nd.value }) n =
        s.nodes.modify (fun x => { x with value := moved x.value }) n := by
      rw [List.modify_eq_set_get?, List.modify_eq_set_get?]
      simp [hn]
    refine ⟨nd, _, hn, pop_eq_of_some moved s n nd hp hn sp hsp, rfl, hmod, hnl, ?_, ?_, ?_⟩
    · exact hc.modify_of_not_mem _ _ hnl
    · exact valuesOf_modify _ _ _ _ hnl
    · simp [valuesOf, List.filterMap_cons, hn]

/-- Refinement: run without interference, the operations do on the chain below the head what
the sequential stack does on its list of values, and every call returns. -/
theorem exec_refines {α : Type} (moved : α → α) :
    ∀ (ops : List (Op α × List Bool)) (s : Stack α) (l : List Nat),
      (∀ o ∈ ops, false ∈ o.2) → Chain s.nodes s.head_ l →
      ∃ s' l', Stack.exec moved s ops =
          some (s', (specRun (valuesOf s.nodes l) (ops.map (fun o => o.1))).2) ∧
        Chain s'.nodes s'.head_ l' ∧
        valuesOf s'.nodes l' = (specRun (valuesOf s.nodes l) (ops.map (fun o => o.1))).1 := by
  intro ops
  induction ops with
  | nil =>
    intro s l _ hl
    exact ⟨s, l, rfl, hl, rfl⟩
  | cons o ops ih =>
    intro s l hsp hl
    obtain ⟨op, sp⟩ := o
    have hsp0 : false ∈ sp := hsp (op, sp) (List.mem_cons_self _ _)
    have hsp1 : ∀ o ∈ ops, false ∈ o.2 := fun o ho => hsp o (List.mem_cons_of_mem _ ho)
    cases op with
    | push v =>
      obtain ⟨s1, h1, _, _, _, hc1, hv1⟩ := push_chain s v sp hsp0 l hl
      obtain ⟨s2, l2, h2, hc2, hv2⟩ := ih s1 _ hsp1 hc1
      refine ⟨s2, l2, ?_, hc2, ?_⟩
      · simp only [Stack.exec, h1, h2, List.map_cons, specRun, hv1]
      · simp only [List.map_cons, specRun, hv2, hv1]
    | pop =>
      cases l with
      | nil =>
        have hh : s.head_ = none := by
          generalize s.head_ = p at hl
          cases hl
          rfl
        have h1 := pop_eq_of_none moved s hh sp
        obtain ⟨s2, l2, h2, hc2, hv2⟩ := ih s [] hsp1 hl
        refine ⟨s2, l2, ?_, hc2, ?_⟩
        · simp only [Stack.exec, h1, h2, List.map_cons, specRun, specStep, valuesOf,
            List.filterMap_nil]
        · simp only [valuesOf, List.filterMap_nil] at hv2
          simp only [List.map_cons, specRun, specStep, valuesOf, List.filterMap_nil, hv2]
      | cons n l =>
        obtain ⟨nd, s1, hn, h1, _, _, _, hc1, hv1, hv0⟩ := pop_chain moved s sp hsp0 n l hl
        obtain ⟨s2, l2, h2, hc2, hv2⟩ := ih s1 l hsp1 hc1
        refine ⟨s2, l2, ?_, hc2, ?_⟩
        · simp only [Stack.exec, h1, h2, List.map_cons, specRun, specStep, hv0, hv1]
        · simp only [List.map_cons, specRun, specStep, hv0, hv2, hv1]

theorem specRun_push {α : Type} (xs : List α) :
    ∀ (st : List α) (ops : List (Op α)),
      specRun st (xs.map Op.push ++ ops) = specRun (xs.reverse ++ st) ops := by
  induction xs with
  | nil => intro st ops; rfl
  | cons x xs ih =>
    intro st ops
    have := ih (x :: st) ops
    simp only [List.map_cons, List.cons_append, specRun, List.reverse_cons,
      List.append_assoc, List.singleton_append] at this ⊢
    exact this

theorem specRun_pop {α : Type} (st : List α) :
    specRun st (List.replicate st.length Op.pop) = ([], st.map some) := by
  induction st with
  | nil => rfl
  | cons x st ih =>
    simp only [List.length_cons, List.replicate_succ, specRun, specStep, ih, List.map_cons]

/-! ## Steps and executions -/

theorem step_iff {α : Type} (moved : α → α) (s : Sys α) (t : Nat) (a : Act α) (s' : Sys α) :
    step moved s t a = some s' ↔ Step moved s t a s' := by
  constructor
  · intro h
    unfold step at h
    split at h
    · cases h; exact Step.callPush _ (by assumption)
    · cases h; exact Step.callPop (by assumption)
    · simp only [Stack.alloc, Stack.load, Option.some.injEq] at h
      subst h
      exact Step.pushLoad _ (by assumption)
    · rename_i active b ht
      split at h
      · cases h
      · rename_i nd hc
        by_cases hh : s.mem.head_ = nd.prev ∧ b = false
        · obtain ⟨h1, h2⟩ := hh
          subst h2
          rw [← h1, cas_eq_true] at h
          simp only [Option.some.injEq] at h
          subst h
          rw [h1]
          exact Step.pushOk _ _ ht hc h1
        · have h3 : s.mem.compare_exchange_weak nd.prev (some active) b =
              (false, s.mem, s.mem.head_) := by
            simp [Stack.compare_exchange_weak, hh]
          rw [h3] at h
          simp only [Option.some.injEq] at h
          subst h
          refine Step.pushFail _ _ _ ht hc ?_
          by_cases h4 : s.mem.head_ = nd.prev
          · right
            cases b
            · exact absurd ⟨h4, rfl⟩ hh
            · rfl
          · exact Or.inl h4
    · cases h; exact Step.pushRet (by assumption)
    · cases h; exact Step.popLoad (by assumption)
    · rename_i n b ht
      split at h
      · cases h
      · rename_i nd hn
        by_cases hh : s.mem.head_ = some n ∧ b = false
        · obtain ⟨h1, h2⟩ := hh
          subst h2
          rw [← h1, cas_eq_true] at h
          simp only [Option.some.injEq] at h
          subst h
          exact Step.popOk _ _ ht hn h1
        · have h3 : s.mem.compare_exchange_weak (some n) nd.prev b =
              (false, s.mem, s.mem.head_) := by
            simp [Stack.compare_exchange_weak, hh]
          rw [h3] at h
          simp only [Option.some.injEq] at h
          subst h
          refine Step.popFail _ _ _ ht hn ?_
          by_cases h4 : s.mem.head_ = some n
          · right
            cases b
            · exact absurd ⟨h4, rfl⟩ hh
            · rfl
          · exact Or.inl h4
    · cases h; exact Step.popRetEmpty (by assumption)
    · rename_i n ht
      split at h
      · cases h
      · rename_i nd hn
        cases h
        exact Step.popRet _ _ ht hn
    · cases h
  · intro h
    cases h with
    | callPush v ht => simp [step, ht]
    | callPop ht => simp [step, ht]
    | pushLoad v ht => simp [step, ht, Stack.alloc, Stack.load]
    | pushOk c nd ht hc hh => simp [step, ht, hc, ← hh, cas_eq_true]
    | pushFail c nd b ht hc hh =>
      have h3 : s.mem.compare_exchange_weak nd.prev (some c) b =
          (false, s.mem, s.mem.head_) := by
        rcases hh with hh | hh
        · exact cas_ne _ _ _ _ hh
        · subst hh; exact cas_spurious _ _ _
      simp [step, ht, hc, h3]
    | pushRet ht => simp [step, ht]
    | popLoad ht => simp [step, ht, Stack.load]
    | popOk n nd ht hn hh =>
      have := cas_eq_true s.mem nd.prev
      rw [hh] at this
      simp [step, ht, hn, this]
    | popFail n nd b ht hn hh =>
      have h3 : s.mem.compare_exchange_weak (some n) nd.prev b =
          (false, s.mem, s.mem.head_) := by
        rcases hh with hh | hh
        · exact cas_ne _ _ _ _ hh
        · subst hh; exact cas_spurious _ _ _
      simp [step, ht, hn, h3]
    | popRetEmpty ht => simp [step, ht]
    | popRet n nd ht hn => simp [step, ht, hn]

theorem exec_append {α : Type} (moved : α → α) :
    ∀ (a b : Schedule α) (s : Sys α),
      exec moved s (a ++ b) = (exec moved s a).bind (fun s' => exec moved s' b) := by
  intro a
  induction a with
  | nil => intro b s; rfl
  | cons x a ih =>
    intro b s
    obtain ⟨t, act⟩ := x
    simp only [List.cons_append, exec]
    cases h : step moved s t act with
    | none => rfl
    | some s' => exact ih b s'

theorem Reachable.at_init {α : Type} (moved : α → α) (k : Nat) :
    Reachable moved k (Sys.init k : Sys α) := ⟨[], rfl⟩

theorem Reachable.after {α : Type} {moved : α → α} {k : Nat} {s s' : Sys α} {t : Nat}
    {a : Act α} (h : Reachable moved k s) (hs : step moved s t a = some s') :
    Reachable moved k s' := by
  obtain ⟨sched, hsched⟩ := h
  refine ⟨sched ++ [(t, a)], ?_⟩
  rw [exec_append, hsched]
  simp [exec, hs]

theorem Reachable.exec {α : Type} {moved : α → α} {k : Nat} {s s' : Sys α}
    (h : Reachable moved k s) (sched : Schedule α) (hs : exec moved s sched = some s') :
    Reachable moved k s' := by
  obtain ⟨sched0, hsched⟩ := h
  refine ⟨sched0 ++ sched, ?_⟩
  rw [exec_append, hsched]
  exact hs

/-- Induction over executions: a property of the initial state that every step taken from a
reachable state preserves holds in every reachable state. -/
theorem Reachable.induction {α : Type} {moved : α → α} {k : Nat} (P : Sys α → Prop)
    (h0 : P (Sys.init k))
    (hstep : ∀ s t a s', Reachable moved k s → P s → Step moved s t a s' → P s') :
    ∀ s, Reachable moved k s → P s := by
  have key : ∀ (sched : Schedule α) (s s' : Sys α), Reachable moved k s → P s →
      LockFree.exec moved s sched = some s' → P s' := by
    intro sched
    induction sched with
    | nil =>
      intro s s' _ hp h
      simp only [LockFree.exec, Option.some.injEq] at h
      exact h ▸ hp
    | cons x sched ih =>
      intro s s' hr hp h
      obtain ⟨t, a⟩ := x
      simp only [LockFree.exec] at h
      cases hs : LockFree.step moved s t a with
      | none => rw [hs] at h; cases h
      | some s1 =>
        rw [hs] at h
        exact ih s1 s' (hr.after hs) (hstep s t a s1 hr hp ((step_iff _ _ _ _ _).mp hs)) h
  intro s hr
  obtain ⟨sched, hsched⟩ := hr
  exact key sched _ s (Reachable.at_init moved k) h0 hsched

/-! ## Bookkeeping for one step -/

theorem advance_threads {α : Type} {s : Sys α} {t : Nat} {l0 : Local α}
    (ht : s.threads[t]? = some l0) (m : Stack α) (l : Local α) (e : Event α) (u : Nat) :
    (s.advance t m l e).threads[u]? = if u = t then some l else s.threads[u]? := by
  have hlt : t < s.threads.length := by
    rcases Nat.lt_or_ge t s.threads.length with h1 | h1
    · exact h1
    · rw [List.getElem?_eq_none h1] at ht
      cases ht
  simp only [Sys.advance, List.getElem?_set]
  by_cases h : u = t
  · subst h
    simp [hlt]
  · have h' : ¬ t = u := fun e => h e.symm
    simp [h, h']

@[simp] theorem advance_mem {α : Type} (s : Sys α) (t : Nat) (m : Stack α) (l : Local α)
    (e : Event α) : (s.advance t m l e).mem = m := rfl

@[simp] theorem advance_hist {α : Type} (s : Sys α) (t : Nat) (m : Stack α) (l : Local α)
    (e : Event α) : (s.advance t m l e).hist = e :: s.hist := rfl

theorem wasPushed_cons {α : Type} (e : Event α) (es : List (Event α)) (c : Nat) :
    wasPushed (e :: es) c =
      ((match e with
        | .pushed _ c' _ => decide (c' = c)
        | _ => false) || wasPushed es c) := by
  simp [wasPushed, List.any_cons]

theorem wasPopped_cons {α : Type} (e : Event α) (es : List (Event α)) (n : Nat) :
    wasPopped (e :: es) n =
      ((match e with
        | .popped _ n' _ => decide (n' = n)
        | _ => false) || wasPopped es n) := by
  simp [wasPopped, List.any_cons]

theorem wasPushed_mono {α : Type} (e : Event α) (es : List (Event α)) (c : Nat)
    (h : wasPushed es c = true) : wasPushed (e :: es) c = true := by
  rw [wasPushed_cons, h, Bool.or_true]

theorem wasPopped_mono {α : Type} (e : Event α) (es : List (Event α)) (c : Nat)
    (h : wasPopped es c = true) : wasPopped (e :: es) c = true := by
  rw [wasPopped_cons, h, Bool.or_true]

theorem getElem?_lt {β : Type} {l : List β} {i : Nat} {x : β} (h : l[i]? = some x) :
    i < l.length := by
  rcases Nat.lt_or_ge i l.length with h1 | h1
  · exact h1
  · rw [List.getElem?_eq_none h1] at h
    cases h

theorem WF.head_pub {α : Type} {s : Sys α} (h : WF s) {n : Nat} (hn : s.mem.head_ = some n) :
    wasPushed s.hist n = true ∧ wasPopped s.hist n = false := by
  obtain ⟨l, hl, hp⟩ := h.chain
  rw [hn] at hl
  cases hl with
  | cons _ _ => exact hp n (List.mem_cons_self _ _)

/-- A step that leaves the memory alone and records neither an installation nor a removal
keeps the state well-formed, as long as the new local state holds no new handle. -/
theorem WF.quiet {α : Type} {s : Sys α} (h : WF s) {t : Nat} {l0 : Local α}
    (ht : s.threads[t]? = some l0) (l : Local α) (e : Event α)
    (he1 : ∀ c, wasPushed (e :: s.hist) c = wasPushed s.hist c)
    (he2 : ∀ n, wasPopped (e :: s.hist) n = wasPopped s.hist n)
    (hl1 : ∀ c, l ≠ Local.pushCas c)
    (hl2 : ∀ n, l = Local.popLoop (some n) → wasPushed s.hist n = true)
    (hl3 : ∀ n, l ≠ Local.popDone n) : WF (s.advance t s.mem l e) := by
  constructor
  · obtain ⟨c, hc, hp⟩ := h.chain
    refine ⟨c, hc, ?_⟩
    intro n hn
    simp only [advance_hist, he1, he2]
    exact hp n hn
  · intro i nd m hi hm
    simp only [advance_hist, he1]
    exact h.prevPub i nd m hi hm
  · intro c hc
    simp only [advance_hist, he1] at hc
    exact h.pubLt c hc
  · intro n hn
    simp only [advance_hist, he1, he2] at hn ⊢
    exact h.popPub n hn
  · intro u c hu
    rw [advance_threads ht] at hu
    simp only [advance_hist, he1, advance_mem]
    split at hu
    · exact absurd (Option.some.inj hu) (hl1 c)
    · exact h.cand u c hu
  · intro u w c hu hw
    rw [advance_threads ht] at hu hw
    split at hu
    · exact absurd (Option.some.inj hu) (hl1 c)
    · split at hw
      · exact absurd (Option.some.inj hw) (hl1 c)
      · exact h.candUniq u w c hu hw
  · intro u n hu
    rw [advance_threads ht] at hu
    simp only [advance_hist, he1]
    split at hu
    · exact hl2 n (Option.some.inj hu)
    · exact h.popObs u n hu
  · intro u n hu
    rw [advance_threads ht] at hu
    simp only [advance_hist, he2]
    split at hu
    · exact absurd (Option.some.inj hu) (hl3 n)
    · exact h.popHeld u n hu
  · intro u w n hu hw
    rw [advance_threads ht] at hu hw
    split at hu
    · exact absurd (Option.some.inj hu) (hl3 n)
    · split at hw
      · exact absurd (Option.some.inj hw) (hl3 n)
      · exact h.popUniq u w n hu hw

theorem init_threads {α : Type} (k t : Nat) (l : Local α)
    (h : (Sys.init k : Sys α).threads[t]? = some l) : l = Local.idle := by
  simp only [Sys.init, List.getElem?_replicate] at h
  split at h
  · exact (Option.some.inj h).symm
  · cases h

theorem WF.at_start {α : Type} (k : Nat) : WF (Sys.init k : Sys α) := by
  constructor
  · exact ⟨[], Chain.nil, fun n hn => by cases hn⟩
  · intro i nd m hi
    simp [Sys.init, Stack.empty] at hi
  · intro c hc
    simp [Sys.init, wasPushed] at hc
  · intro n hn
    simp [Sys.init, wasPopped] at hn
  · intro t c ht
    cases init_threads k t _ ht
  · intro t u c ht
    cases init_threads k t _ ht
  · intro t c ht
    cases init_threads k t _ ht
  · intro t c ht
    cases init_threads k t _ ht
  · intro t u c ht
    cases init_threads k t _ ht

theorem WF.pushLoad {α : Type} {s : Sys α} (h : WF s) {t : Nat} {v : α}
    (ht : s.threads[t]? = some (Local.pushStart v)) :
    WF (s.advance t ⟨s.mem.nodes ++ [⟨v, s.mem.head_⟩], s.mem.head_⟩
      (Local.pushCas s.mem.nodes.length) (Event.loaded t s.mem.head_)) := by
  have he1 : ∀ c, wasPushed (Event.loaded t s.mem.head_ :: s.hist) c = wasPushed s.hist c := by
    intro c; simp [wasPushed_cons]
  have he2 : ∀ c, wasPopped (Event.loaded t s.mem.head_ :: s.hist) c = wasPopped s.hist c := by
    intro c; simp [wasPopped_cons]
  constructor
  · obtain ⟨l, hl, hp⟩ := h.chain
    refine ⟨l, hl.append _, ?_⟩
    intro n hn
    simp only [advance_hist, he1, he2]
    exact hp n hn
  · intro i nd m hi hm
    simp only [advance_hist, he1]
    simp only [advance_mem] at hi
    rcases Nat.lt_or_ge i s.mem.nodes.length with hlt | hge
    · rw [List.getElem?_append_left hlt] at hi
      exact h.prevPub i nd m hi hm
    · rw [List.getElem?_append_right hge] at hi
      have hz : i - s.mem.nodes.length = 0 := by
        have := getElem?_lt hi
        simp at this
        omega
      rw [hz] at hi
      simp only [List.getElem?_cons_zero, Option.some.injEq] at hi
      subst hi
      exact (h.head_pub hm).1
  · intro c hc
    simp only [advance_hist, he1] at hc
    have := h.pubLt c hc
    simp only [advance_mem, List.length_append, List.length_singleton]
    omega
  · intro n hn
    simp only [advance_hist, he1, he2] at hn ⊢
    exact h.popPub n hn
  · intro u c hu
    rw [advance_threads ht] at hu
    simp only [advance_hist, he1, advance_mem, List.length_append, List.length_singleton]
    split at hu
    · cases Option.some.inj hu
      refine ⟨Nat.lt_succ_self _, ?_⟩
      cases hp : wasPushed s.hist s.mem.nodes.length with
      | false => rfl
      | true => exact absurd (h.pubLt _ hp) (Nat.lt_irrefl _)
    · have := h.cand u c hu
      exact ⟨by omega, this.2⟩
  · intro u w c hu hw
    rw [advance_threads ht] at hu hw
    split at hu
    · split at hw
      · rename_i h1 h2
        rw [h1, h2]
      · cases Option.some.inj hu
        exact absurd (h.cand w _ hw).1 (Nat.lt_irrefl _)
    · split at hw
      · cases Option.some.inj hw
        exact absurd (h.cand u _ hu).1 (Nat.lt_irrefl _)
      · exact h.candUniq u w c hu hw
  · intro u n hu
    rw [advance_threads ht] at hu
    simp only [advance_hist, he1]
    split at hu
    · cases Option.some.inj hu
    · exact h.popObs u n hu
  · intro u n hu
    rw [advance_threads ht] at hu
    simp only [advance_hist, he2]
    split at hu
    · cases Option.some.inj hu
    · exact h.popHeld u n hu
  · intro u w n hu hw
    rw [advance_threads ht] at hu hw
    split at hu
    · cases Option.some.inj hu
    · split at hw
      · cases Option.some.inj hw
      · exact h.popUniq u w n hu hw

theorem WF.pushOk {α : Type} {s : Sys α} (h : WF s) {t c : Nat} {nd : Node α}
    (ht : s.threads[t]? = some (Local.pushCas c)) (hc : s.mem.nodes[c]? = some nd)
    (hh : s.mem.head_ = nd.prev) :
    WF (s.advance t { s.mem with head_ := some c } Local.pushDone
      (Event.pushed t c nd.prev)) := by
  have he1 : ∀ x, wasPushed (Event.pushed t c nd.prev :: s.hist) x =
      (decide (c = x) || wasPushed s.hist x) := by
    intro x; simp [wasPushed_cons]
  have he2 : ∀ x, wasPopped (Event.pushed t c nd.prev :: s.hist) x = wasPopped s.hist x := by
    intro x; simp [wasPopped_cons]
  have hcand := h.cand t c ht
  have hcpop : wasPopped s.hist c = false := by
    cases hp : wasPopped s.hist c with
    | false => rfl
    | true =>
      have := h.popPub c hp
      rw [hcand.2] at this
      cases this
  constructor
  · obtain ⟨l, hl, hp⟩ := h.chain
    rw [hh] at hl
    refine ⟨c :: l, Chain.cons hc hl, ?_⟩
    intro n hn
    simp only [advance_hist, he1, he2]
    rcases List.mem_cons.mp hn with rfl | hn
    · simp [hcpop]
    · simp [hp n hn]
  · intro i nd' m hi hm
    simp only [advance_hist, he1]
    simp [h.prevPub i nd' m hi hm]
  · intro x hx
    simp only [advance_hist, he1, Bool.or_eq_true, decide_eq_true_eq] at hx
    rcases hx with rfl | hx
    · exact hcand.1
    · exact h.pubLt x hx
  · intro n hn
    simp only [advance_hist, he1, he2] at hn ⊢
    simp [h.popPub n hn]
  · intro u c' hu
    rw [advance_threads ht] at hu
    simp only [advance_hist, he1, advance_mem]
    split at hu
    · cases Option.some.inj hu
    · rename_i hne
      have := h.cand u c' hu
      refine ⟨this.1, ?_⟩
      have hcc : c ≠ c' := by
        intro e
        subst e
        exact hne (h.candUniq u t c hu ht)
      simp [hcc, this.2]
  · intro u w c' hu hw
    rw [advance_threads ht] at hu hw
    split at hu
    · cases Option.some.inj hu
    · split at hw
      · cases Option.some.inj hw
      · exact h.candUniq u w c' hu hw
  · intro u n hu
    rw [advance_threads ht] at hu
    simp only [advance_hist, he1]
    split at hu
    · cases Option.some.inj hu
    · simp [h.popObs u n hu]
  · intro u n hu
    rw [advance_threads ht] at hu
    simp only [advance_hist, he2]
    split at hu
    · cases Option.some.inj hu
    · exact h.popHeld u n hu
  · intro u w n hu hw
    rw [advance_threads ht] at hu hw
    split at hu
    · cases Option.some.inj hu
    · split at hw
      · cases Option.some.inj hw
      · exact h.popUniq u w n hu hw

theorem advance_threads_same {α : Type} {s : Sys α} {t : Nat} {l0 : Local α}
    (ht : s.threads[t]? = some l0) (m : Stack α) (e : Event α) (u : Nat) :
    (s.advance t m l0 e).threads[u]? = s.threads[u]? := by
  rw [advance_threads ht]
  split
  · rename_i h; rw [h, ht]
  · rfl

theorem WF.pushFail {α : Type} {s : Sys α} (h : WF s) {t c : Nat} {nd : Node α}
    (ht : s.threads[t]? = some (Local.pushCas c)) (hc : s.mem.nodes[c]? = some nd)
    (sp : Bool) :
    WF (s.advance t (s.mem.setPrev c s.mem.head_) (Local.pushCas c)
      (Event.failed t s.mem.head_ sp)) := by
  have he1 : ∀ x, wasPushed (Event.failed t s.mem.head_ sp :: s.hist) x =
      wasPushed s.hist x := by
    intro x; simp [wasPushed_cons]
  have he2 : ∀ x, wasPopped (Event.failed t s.mem.head_ sp :: s.hist) x =
      wasPopped s.hist x := by
    intro x; simp [wasPopped_cons]
  have hcand := h.cand t c ht
  constructor
  · obtain ⟨l, hl, hp⟩ := h.chain
    have hcl : c ∉ l := by
      intro hmem
      have := (hp c hmem).1
      rw [hcand.2] at this
      cases this
    refine ⟨l, hl.modify_of_not_mem _ _ hcl, ?_⟩
    intro n hn
    simp only [advance_hist, he1, he2]
    exact hp n hn
  · intro i nd' m hi hm
    simp only [advance_hist, he1]
    simp only [advance_mem, Stack.setPrev] at hi
    by_cases hic : c = i
    · subst hic
      rw [List.getElem?_modify_eq, hc] at hi
      simp only [Option.map_eq_map, Option.map_some', Option.some.injEq] at hi
      subst hi
      exact (h.head_pub hm).1
    · rw [List.getElem?_modify_ne _ _ hic] at hi
      exact h.prevPub i nd' m hi hm
  · intro x hx
    simp only [advance_hist, he1] at hx
    simp only [advance_mem, Stack.setPrev, List.length_modify]
    exact h.pubLt x hx
  · intro n hn
    simp only [advance_hist, he1, he2] at hn ⊢
    exact h.popPub n hn
  · intro u c' hu
    rw [advance_threads_same ht] at hu
    simp only [advance_hist, he1, advance_mem, Stack.setPrev, List.length_modify]
    exact h.cand u c' hu
  · intro u w c' hu hw
    rw [advance_threads_same ht] at hu hw
    exact h.candUniq u w c' hu hw
  · intro u n hu
    rw [advance_threads_same ht] at hu
    simp only [advance_hist, he1]
    exact h.popObs u n hu
  · intro u n hu
    rw [advance_threads_same ht] at hu
    simp only [advance_hist, he2]
    exact h.popHeld u n hu
  · intro u w n hu hw
    rw [advance_threads_same ht] at hu hw
    exact h.popUniq u w n hu hw

theorem WF.popOk {α : Type} {s : Sys α} (h : WF s) {t n : Nat} {nd : Node α}
    (ht : s.threads[t]? = some (Local.popLoop (some n))) (hn : s.mem.nodes[n]? = some nd)
    (hh : s.mem.head_ = some n) :
    WF (s.advance t { s.mem with head_ := nd.prev } (Local.popDone n)
      (Event.popped t n nd.prev)) := by
  have he1 : ∀ x, wasPushed (Event.popped t n nd.prev :: s.hist) x = wasPushed s.hist x := by
    intro x; simp [wasPushed_cons]
  have he2 : ∀ x, wasPopped (Event.popped t n nd.prev :: s.hist) x =
      (decide (n = x) || wasPopped s.hist x) := by
    intro x; simp [wasPopped_cons]
  constructor
  · obtain ⟨l, hl, hp⟩ := h.chain
    have hnd := hl.nodup
    rw [hh] at hl
    cases hl with
    | @cons _ nd' l' hn' hc' =>
      rw [hn] at hn'
      cases hn'
      refine ⟨l', hc', ?_⟩
      intro m hm
      simp only [advance_hist, he1, he2]
      have hne : n ≠ m := by
        intro e
        subst e
        exact (List.nodup_cons.mp hnd).1 hm
      have := hp m (List.mem_cons_of_mem _ hm)
      simp [hne, this]
  · intro i nd' m hi hm
    simp only [advance_hist, he1]
    exact h.prevPub i nd' m hi hm
  · intro x hx
    simp only [advance_hist, he1] at hx
    exact h.pubLt x hx
  · intro x hx
    simp only [advance_hist, he1, he2, Bool.or_eq_true, decide_eq_true_eq] at hx ⊢
    rcases hx with rfl | hx
    · exact (h.head_pub hh).1
    · exact h.popPub x hx
  · intro u c' hu
    rw [advance_threads ht] at hu
    simp only [advance_hist, he1, advance_mem]
    split at hu
    · cases Option.some.inj hu
    · exact h.cand u c' hu
  · intro u w c' hu hw
    rw [advance_threads ht] at hu hw
    split at hu
    · cases Option.some.inj hu
    · split at hw
      · cases Option.some.inj hw
      · exact h.candUniq u w c' hu hw
  · intro u m hu
    rw [advance_threads ht] at hu
    simp only [advance_hist, he1]
    split at hu
    · cases Option.some.inj hu
    · exact h.popObs u m hu
  · intro u m hu
    rw [advance_threads ht] at hu
    simp only [advance_hist, he2]
    split at hu
    · cases Option.some.inj hu
      simp
    · simp [h.popHeld u m hu]
  · intro u w m hu hw
    rw [advance_threads ht] at hu hw
    split at hu
    · split at hw
      · rename_i h1 h2
        rw [h1, h2]
      · cases Option.some.inj hu
        have := h.popHeld w _ hw
        rw [(h.head_pub hh).2] at this
        cases this
    · split at hw
      · cases Option.some.inj hw
        have := h.popHeld u _ hu
        rw [(h.head_pub hh).2] at this
        cases this
      · exact h.popUniq u w m hu hw

theorem WF.popRet {α : Type} {s : Sys α} (h : WF s) {t n : Nat} (v : α) (r : Option α)
    (ht : s.threads[t]? = some (Local.popDone n)) :
    WF (s.advance t (s.mem.setValue n v) Local.idle (Event.res t r)) := by
  have he1 : ∀ x, wasPushed (Event.res t r :: s.hist) x = wasPushed s.hist x := by
    intro x; simp [wasPushed_cons]
  have he2 : ∀ x, wasPopped (Event.res t r :: s.hist) x = wasPopped s.hist x := by
    intro x; simp [wasPopped_cons]
  constructor
  · obtain ⟨l, hl, hp⟩ := h.chain
    refine ⟨l, hl.modify_of_prev _ _ (fun _ => rfl), ?_⟩
    intro m hm
    simp only [advance_hist, he1, he2]
    exact hp m hm
  · intro i nd' m hi hm
    simp only [advance_hist, he1]
    simp only [advance_mem, Stack.setValue] at hi
    by_cases hic : n = i
    · subst hic
      rw [List.getElem?_modify_eq] at hi
      cases hnn : s.mem.nodes[n]? with
      | none => rw [hnn] at hi; cases hi
      | some nd0 =>
        rw [hnn] at hi
        simp only [Option.map_eq_map, Option.map_some', Option.some.injEq] at hi
        subst hi
        exact h.prevPub n nd0 m hnn hm
    · rw [List.getElem?_modify_ne _ _ hic] at hi
      exact h.prevPub i nd' m hi hm
  · intro x hx
    simp only [advance_hist, he1] at hx
    simp only [advance_mem, Stack.setValue, List.length_modify]
    exact h.pubLt x hx
  · intro x hx
    simp only [advance_hist, he1, he2] at hx ⊢
    exact h.popPub x hx
  · intro u c' hu
    rw [advance_threads ht] at hu
    simp only [advance_hist, he1, advance_mem, Stack.setValue, List.length_modify]
    split at hu
    · cases Option.some.inj hu
    · exact h.cand u c' hu
  · intro u w c' hu hw
    rw [advance_threads ht] at hu hw
    split at hu
    · cases Option.some.inj hu
    · split at hw
      · cases Option.some.inj hw
      · exact h.candUniq u w c' hu hw
  · intro u m hu
    rw [advance_threads ht] at hu
    simp only [advance_hist, he1]
    split at hu
    · cases Option.some.inj hu
    · exact h.popObs u m hu
  · intro u m hu
    rw [advance_threads ht] at hu
    simp only [advance_hist, he2]
    split at hu
    · cases Option.some.inj hu
    · exact h.popHeld u m hu
  · intro u w m hu hw
    rw [advance_threads ht] at hu hw
    split at hu
    · cases Option.some.inj hu
    · split at hw
      · cases Option.some.inj hw
      · exact h.popUniq u w m hu hw

/-- Every step keeps the state well-formed. -/
theorem WF.preserved {α : Type} {moved : α → α} {s s' : Sys α} {t : Nat} {a : Act α}
    (h : WF s) (hs : Step moved s t a s') : WF s' := by
  cases hs with
  | callPush v ht =>
    exact h.quiet ht _ _ (fun c => by simp [wasPushed_cons]) (fun c => by simp [wasPopped_cons])
      (fun c => by simp) (fun n hn => by cases hn) (fun n => by simp)
  | callPop ht =>
    exact h.quiet ht _ _ (fun c => by simp [wasPushed_cons]) (fun c => by simp [wasPopped_cons])
      (fun c => by simp) (fun n hn => by cases hn) (fun n => by simp)
  | pushLoad v ht => exact h.pushLoad ht
  | pushOk c nd ht hc hh => exact h.pushOk ht hc hh
  | pushFail c nd b ht hc hh => exact h.pushFail ht hc _
  | pushRet ht =>
    exact h.quiet ht _ _ (fun c => by simp [wasPushed_cons]) (fun c => by simp [wasPopped_cons])
      (fun c => by simp) (fun n hn => by cases hn) (fun n => by simp)
  | popLoad ht =>
    refine h.quiet ht _ _ (fun c => by simp [wasPushed_cons])
      (fun c => by simp [wasPopped_cons]) (fun c => by simp) (fun n hn => ?_) (fun n => by simp)
    have : s.mem.head_ = some n := by
      simp only [Local.popLoop.injEq] at hn
      exact hn
    exact (h.head_pub this).1
  | popOk n nd ht hn hh => exact h.popOk ht hn hh
  | popFail n nd b ht hn hh =>
    refine h.quiet ht _ _ (fun c => by simp [wasPushed_cons])
      (fun c => by simp [wasPopped_cons]) (fun c => by simp) (fun n hn => ?_) (fun n => by simp)
    have : s.mem.head_ = some n := by
      simp only [Local.popLoop.injEq] at hn
      exact hn
    exact (h.head_pub this).1
  | popRetEmpty ht =>
    exact h.quiet ht _ _ (fun c => by simp [wasPushed_cons]) (fun c => by simp [wasPopped_cons])
      (fun c => by simp) (fun n hn => by cases hn) (fun n => by simp)
  | popRet n nd ht hn => exact h.popRet _ _ ht

theorem Reachable.wf {α : Type} {moved : α → α} {k : Nat} {s : Sys α}
    (h : Reachable moved k s) : WF s :=
  Reachable.induction WF (WF.at_start k) (fun _ _ _ _ _ hp hs => hp.preserved hs) s h

/-! ## Claims about calls that run without interference -/

theorem Chain.valuesOf_length {α : Type} {nodes : List (Node α)} {p : Option Nat}
    {l : List Nat} (h : Chain nodes p l) : (valuesOf nodes l).length = l.length := by
  induction h with
  | nil => rfl
  | @cons m nd l hm _ ih =>
    simp only [valuesOf, List.filterMap_cons, hm, Option.map_some', List.length_cons]
    simp only [valuesOf] at ih
    rw [ih]

theorem modify_append_last {α : Type} (nodes : List (Node α)) (x : Node α)
    (f : Node α → Node α) :
    (nodes ++ [x]).modify f nodes.length = nodes ++ [f x] := by
  apply List.ext_getElem?
  intro j
  by_cases hj : nodes.length = j
  · subst hj
    rw [List.getElem?_modify_eq]
    simp
  · rw [List.getElem?_modify_ne _ _ hj]
    rcases Nat.lt_or_ge j nodes.length with h1 | h1
    · rw [List.getElem?_append_left h1, List.getElem?_append_left h1]
    · have h2 : (nodes ++ [x]).length ≤ j := by
        simp only [List.length_append, List.length_singleton]
        omega
      have h3 : (nodes ++ [f x]).length ≤ j := by
        simp only [List.length_append, List.length_singleton]
        omega
      rw [List.getElem?_eq_none h2, List.getElem?_eq_none h3]

/-- C1. LIFO order without concurrency: pushing the values of `xs` in order onto a freshly
constructed stack and then calling `pop` as many times as there are values, with no other
thread interfering, returns the values in reverse order, each wrapped as present, and leaves
the head slot empty.  Every call returns as soon as one of its compare-and-swap attempts
does not fail spuriously. -/
theorem lifo_without_concurrency {α : Type} (moved : α → α) (xs : List (α × List Bool))
    (qs : List (List Bool)) (hx : ∀ x ∈ xs, false ∈ x.2) (hq : ∀ q ∈ qs, false ∈ q)
    (hlen : qs.length = xs.length) :
    ∃ s', Stack.exec moved Stack.empty
        (xs.map (fun x => (Op.push x.1, x.2)) ++ qs.map (fun q => (Op.pop, q))) =
          some (s', xs.reverse.map (fun x => some x.1)) ∧
      s'.head_ = none := by
  have hops : ∀ o ∈ xs.map (fun x => (Op.push x.1, x.2)) ++ qs.map (fun q => (Op.pop, q)),
      false ∈ o.2 := by
    intro o ho
    rcases List.mem_append.mp ho with h1 | h1
    · obtain ⟨x, hx1, rfl⟩ := List.mem_map.mp h1
      exact hx x hx1
    · obtain ⟨q, hq1, rfl⟩ := List.mem_map.mp h1
      exact hq q hq1
  obtain ⟨s', l', h1, h2, h3⟩ :=
    exec_refines moved _ (Stack.empty : Stack α) [] hops Chain.nil
  have hmap : (xs.map (fun x : α × List Bool => (Op.push x.1, x.2)) ++
        qs.map (fun q : List Bool => ((Op.pop : Op α), q))).map
      (fun o : Op α × List Bool => o.1) =
      (xs.map (fun x : α × List Bool => x.1)).map Op.push ++
        List.replicate ((xs.map (fun x : α × List Bool => x.1)).reverse ++ []).length
          Op.pop := by
    simp only [List.map_append, List.map_map, List.append_nil, List.length_reverse,
      List.length_map]
    congr 1
    rw [← hlen]
    apply List.ext_getElem?
    intro j
    simp only [List.getElem?_map, List.getElem?_replicate]
    by_cases hj : j < qs.length
    · simp [hj, List.getElem?_eq_getElem hj]
    · simp [hj, List.getElem?_eq_none (Nat.le_of_not_lt hj)]
  have hv : valuesOf (Stack.empty : Stack α).nodes [] = [] := rfl
  rw [hv, hmap, specRun_push, specRun_pop] at h1 h3
  refine ⟨s', ?_, ?_⟩
  · rw [h1]
    simp [List.map_reverse]
  · have hlen' := h2.valuesOf_length
    rw [h3] at hlen'
    have : l' = [] := List.length_eq_zero.mp hlen'.symm
    subst this
    generalize s'.head_ = p at h2
    cases h2
    rfl

theorem lifo_without_concurrency_witness :
    ∃ s', Stack.exec id (Stack.empty : Stack Nat)
        [(Op.push 1, [false]), (Op.push 2, [true, false]), (Op.push 3, [false]),
          (Op.pop, [false]), (Op.pop, [true, true, false]), (Op.pop, [false])] =
          some (s', [some 3, some 2, some 1]) ∧
      s'.head_ = none :=
  lifo_without_concurrency id [(1, [false]), (2, [true, false]), (3, [false])]
    [[false], [true, true, false], [false]] (by decide) (by decide) rfl

/-- C3. Push/pop round trip: from any stack state, `push(v)` followed at once by `pop()`
returns `v` present and restores the head, so the chain reachable from the head is the chain
before the push, with the same values; the only trace left is the new, moved-from node at
the end of the arena.  On a fresh stack, `push(v); pop(); pop()` returns `v` and then
nothing. -/
theorem push_pop_round_trip {α : Type} (moved : α → α) (s : Stack α) (v : α)
    (sp sq sr : List Bool) (hsp : false ∈ sp) (hsq : false ∈ sq) :
    (∃ s1 s2, s.push v sp = some s1 ∧ s1.pop moved sq = some (s2, some v) ∧
      s2.head_ = s.head_ ∧ s2.nodes = s.nodes ++ [⟨moved v, s.head_⟩] ∧
      ∀ l, Chain s.nodes s.head_ l →
        Chain s2.nodes s2.head_ l ∧ valuesOf s2.nodes l = valuesOf s.nodes l) ∧
    ∃ s3, Stack.exec moved (Stack.empty : Stack α)
      [(Op.push v, sp), (Op.pop, sq), (Op.pop, sr)] = some (s3, [some v, none]) ∧
      s3.head_ = none := by
  have key : ∀ s : Stack α, (s.push v sp).bind (fun s1 => s1.pop moved sq) =
      some (⟨s.nodes ++ [⟨moved v, s.head_⟩], s.head_⟩, some v) := by
    intro s
    rw [push_eq s v sp hsp]
    simp only [Option.some_bind]
    rw [pop_eq_of_some moved _ s.nodes.length ⟨v, s.head_⟩ rfl (by simp) sq hsq]
    simp only [Stack.setValue, modify_append_last]
  constructor
  · have hk := key s
    rw [push_eq s v sp hsp] at hk
    simp only [Option.some_bind] at hk
    refine ⟨_, _, push_eq s v sp hsp, hk, rfl, rfl, ?_⟩
    intro l hl
    exact ⟨hl.append _, valuesOf_append _ _ _ hl.lt_length⟩
  · have hk := key Stack.empty
    rw [push_eq _ v sp hsp] at hk
    simp only [Option.some_bind] at hk
    refine ⟨⟨[⟨moved v, none⟩], none⟩, ?_, rfl⟩
    simp only [Stack.exec, push_eq _ v sp hsp, hk]
    rw [pop_eq_of_none moved _ rfl sr]
    rfl

theorem push_pop_round_trip_witness :
    (∃ s1 s2, (⟨[⟨5, none⟩], some 0⟩ : Stack Nat).push 7 [true, false] = some s1 ∧
      s1.pop id [false] = some (s2, some 7) ∧
      s2.head_ = some 0 ∧ s2.nodes = [⟨5, none⟩] ++ [⟨7, some 0⟩] ∧
      ∀ l, Chain [(⟨5, none⟩ : Node Nat)] (some 0) l →
        Chain s2.nodes s2.head_ l ∧ valuesOf s2.nodes l = valuesOf [⟨5, none⟩] l) ∧
    ∃ s3, Stack.exec id (Stack.empty : Stack Nat)
      [(Op.push 7, [true, false]), (Op.pop, [false]), (Op.pop, [])] =
        some (s3, [some 7, none]) ∧
      s3.head_ = none :=
  push_pop_round_trip id ⟨[⟨5, none⟩], some 0⟩ 7 [true, false] [false] [] (by decide)
    (by decide)

/-! ## What one step changes -/

/-- The shape of every step: the stepping thread existed, its local state is replaced, and one
event of that thread is recorded. -/
theorem Step.shape {α : Type} {moved : α → α} {s s' : Sys α} {t : Nat} {a : Act α}
    (hs : Step moved s t a s') :
    ∃ l0 m l e, s.threads[t]? = some l0 ∧ s' = s.advance t m l e ∧ Event.tid e = t := by
  cases hs with
  | callPush v ht => exact ⟨_, _, _, _, ht, rfl, rfl⟩
  | callPop ht => exact ⟨_, _, _, _, ht, rfl, rfl⟩
  | pushLoad v ht => exact ⟨_, _, _, _, ht, rfl, rfl⟩
  | pushOk c nd ht hc hh => exact ⟨_, _, _, _, ht, rfl, rfl⟩
  | pushFail c nd b ht hc hh => exact ⟨_, _, _, _, ht, rfl, rfl⟩
  | pushRet ht => exact ⟨_, _, _, _, ht, rfl, rfl⟩
  | popLoad ht => exact ⟨_, _, _, _, ht, rfl, rfl⟩
  | popOk n nd ht hn hh => exact ⟨_, _, _, _, ht, rfl, rfl⟩
  | popFail n nd b ht hn hh => exact ⟨_, _, _, _, ht, rfl, rfl⟩
  | popRetEmpty ht => exact ⟨_, _, _, _, ht, rfl, rfl⟩
  | popRet n nd ht hn => exact ⟨_, _, _, _, ht, rfl, rfl⟩

/-- What a step does to a node that exists: nothing, or it is the failed compare-and-swap of
the `push` whose candidate the node is and rewrites `prev` with the head, or it is the
return of the `pop` that took the node off and moves the value out. -/
theorem Step.node_change {α : Type} {moved : α → α} {s s' : Sys α} {t : Nat} {a : Act α}
    (hs : Step moved s t a s') {i : Nat} {nd : Node α} (hi : s.mem.nodes[i]? = some nd) :
    s'.mem.nodes[i]? = some nd ∨
    (s.threads[t]? = some (Local.pushCas i) ∧ (∃ b, a = Act.cas b) ∧
      s'.mem.nodes[i]? = some { nd with prev := s.mem.head_ } ∧
      s'.mem.head_ = s.mem.head_) ∨
    (s.threads[t]? = some (Local.popDone i) ∧ a = Act.ret ∧
      s'.mem.nodes[i]? = some { nd with value := moved nd.value }) := by
  cases hs with
  | callPush v ht => exact Or.inl hi
  | callPop ht => exact Or.inl hi
  | pushLoad v ht =>
    left
    simp only [advance_mem]
    rw [List.getElem?_append_left (getElem?_lt hi)]
    exact hi
  | pushOk c nd ht hc hh => exact Or.inl hi
  | pushFail c nd0 b ht hc hh =>
    by_cases hic : c = i
    · subst hic
      right; left
      refine ⟨ht, ⟨b, rfl⟩, ?_, rfl⟩
      simp only [advance_mem, Stack.setPrev]
      rw [List.getElem?_modify_eq, hi]
      rfl
    · left
      simp only [advance_mem, Stack.setPrev]
      rw [List.getElem?_modify_ne _ _ hic]
      exact hi
  | pushRet ht => exact Or.inl hi
  | popLoad ht => exact Or.inl hi
  | popOk n nd ht hn hh => exact Or.inl hi
  | popFail n nd b ht hn hh => exact Or.inl hi
  | popRetEmpty ht => exact Or.inl hi
  | popRet n nd0 ht hn =>
    by_cases hic : n = i
    · subst hic
      right; right
      refine ⟨ht, rfl, ?_⟩
      simp only [advance_mem, Stack.setValue]
      rw [List.getElem?_modify_eq, hi]
      rw [hi] at hn
      cases hn
      rfl
    · left
      simp only [advance_mem, Stack.setValue]
      rw [List.getElem?_modify_ne _ _ hic]
      exact hi

/-- The candidate of a running `push` is not touched by the steps of other threads. -/
theorem Step.cand_frame {α : Type} {moved : α → α} {s s' : Sys α} {t : Nat} {a : Act α}
    (hs : Step moved s t a s') (hw : WF s) {u c : Nat}
    (hu : s.threads[u]? = some (Local.pushCas c)) (hne : u ≠ t) :
    s'.mem.nodes[c]? = s.mem.nodes[c]? := by
  have hc := hw.cand u c hu
  obtain ⟨nd, hnd⟩ : ∃ nd, s.mem.nodes[c]? = some nd :=
    ⟨_, List.getElem?_eq_getElem hc.1⟩
  rcases hs.node_change hnd with h | ⟨h, _⟩ | ⟨h, _⟩
  · rw [h, hnd]
  · exact absurd (hw.candUniq u t c hu h) hne
  · have := hw.popPub c (hw.popHeld t c h)
    rw [hc.2] at this
    cases this

/-- The node held by a `pop` after its successful swap is not touched by the steps of other
threads. -/
theorem Step.held_frame {α : Type} {moved : α → α} {s s' : Sys α} {t : Nat} {a : Act α}
    (hs : Step moved s t a s') (hw : WF s) {u n : Nat}
    (hu : s.threads[u]? = some (Local.popDone n)) (hne : u ≠ t) :
    s'.mem.nodes[n]? = s.mem.nodes[n]? := by
  have hp := hw.popHeld u n hu
  have hlt := hw.pubLt n (hw.popPub n hp)
  obtain ⟨nd, hnd⟩ : ∃ nd, s.mem.nodes[n]? = some nd :=
    ⟨_, List.getElem?_eq_getElem hlt⟩
  rcases hs.node_change hnd with h | ⟨h, _⟩ | ⟨h, _⟩
  · rw [h, hnd]
  · have := hw.popPub n hp
    rw [(hw.cand t n h).2] at this
    cases this
  · exact absurd (hw.popUniq u t n hu h) hne

/-- The nodes of the chain below the head are not touched by any step. -/
theorem Step.chain_frame {α : Type} {moved : α → α} {s s' : Sys α} {t : Nat} {a : Act α}
    (hs : Step moved s t a s') (hw : WF s) {n : Nat}
    (hp : wasPushed s.hist n = true) (hq : wasPopped s.hist n = false) :
    s'.mem.nodes[n]? = s.mem.nodes[n]? := by
  have hlt := hw.pubLt n hp
  obtain ⟨nd, hnd⟩ : ∃ nd, s.mem.nodes[n]? = some nd :=
    ⟨_, List.getElem?_eq_getElem hlt⟩
  rcases hs.node_change hnd with h | ⟨h, _⟩ | ⟨h, _⟩
  · rw [h, hnd]
  · rw [(hw.cand t n h).2] at hp
    cases hp
  · rw [hw.popHeld t n h] at hq
    cases hq

theorem opOf_cons_ne {α : Type} (e : Event α) (es : List (Event α)) (u : Nat)
    (h : Event.tid e ≠ u) : opOf (e :: es) u = opOf es u := by
  cases e <;> simp only [opOf]
  rename_i t op
  simp only [Event.tid] at h
  simp [h]

theorem lastSeen_cons_ne {α : Type} (e : Event α) (es : List (Event α)) (u : Nat)
    (h : Event.tid e ≠ u) : lastSeen (e :: es) u = lastSeen es u := by
  simp [lastSeen, h]

theorem wroteHead_cons_ne {α : Type} (e : Event α) (es : List (Event α)) (u : Nat)
    (h : Event.tid e ≠ u) : wroteHead (e :: es) u = wroteHead es u := by
  simp [wroteHead, h]

/-- Steps of other threads do not disturb what the history says about a thread. -/
theorem Booked.frame {α : Type} {moved : α → α} {s s' : Sys α} {t : Nat} {a : Act α}
    (hs : Step moved s t a s') (hw : WF s) {u : Nat} {l : Local α}
    (hu : s.threads[u]? = some l) (hne : u ≠ t) (hb : Booked s.mem.nodes s.hist u l) :
    Booked s'.mem.nodes s'.hist u l := by
  obtain ⟨l0, m, l1, e, ht, rfl, he⟩ := hs.shape
  have hne' : Event.tid e ≠ u := by rw [he]; exact fun h => hne h.symm
  cases l with
  | idle => trivial
  | pushCas c =>
    obtain ⟨nd, h1, h2, h3, h4⟩ := hb
    refine ⟨nd, ?_, ?_, ?_, ?_⟩
    · rw [hs.cand_frame hw hu hne]; exact h1
    · rw [advance_hist, opOf_cons_ne _ _ _ hne']; exact h2
    · rw [advance_hist, lastSeen_cons_ne _ _ _ hne']; exact h3
    · rw [advance_hist, wroteHead_cons_ne _ _ _ hne']; exact h4
  | pushStart v =>
    simp only [Booked, advance_hist, opOf_cons_ne _ _ _ hne',
      wroteHead_cons_ne _ _ _ hne'] at hb ⊢
    exact hb
  | pushDone =>
    simp only [Booked, advance_hist, opOf_cons_ne _ _ _ hne',
      wroteHead_cons_ne _ _ _ hne'] at hb ⊢
    exact hb
  | popStart =>
    simp only [Booked, advance_hist, opOf_cons_ne _ _ _ hne',
      wroteHead_cons_ne _ _ _ hne'] at hb ⊢
    exact hb
  | popLoop x =>
    simp only [Booked, advance_hist, opOf_cons_ne _ _ _ hne', lastSeen_cons_ne _ _ _ hne',
      wroteHead_cons_ne _ _ _ hne'] at hb ⊢
    exact hb
  | popDone n =>
    simp only [Booked, advance_hist, opOf_cons_ne _ _ _ hne', lastSeen_cons_ne _ _ _ hne',
      wroteHead_cons_ne _ _ _ hne'] at hb ⊢
    exact hb

theorem advance_threads_self {α : Type} {s : Sys α} {t : Nat} {l0 : Local α}
    (ht : s.threads[t]? = some l0) (m : Stack α) (l : Local α) (e : Event α) :
    (s.advance t m l e).threads[t]? = some l := by
  rw [advance_threads ht]
  simp

theorem advance_threads_ne {α : Type} {s : Sys α} {t : Nat} {l0 : Local α}
    (ht : s.threads[t]? = some l0) (m : Stack α) (l : Local α) (e : Event α) {u : Nat}
    (hne : u ≠ t) : (s.advance t m l e).threads[u]? = s.threads[u]? := by
  rw [advance_threads ht]
  simp [hne]

theorem Book.at_init_ok {α : Type} (k : Nat) : Book (Sys.init k : Sys α) := by
  intro t l ht
  cases init_threads k t _ ht
  trivial

theorem Book.preserved_by {α : Type} {moved : α → α} {s s' : Sys α} {t : Nat} {a : Act α}
    (hw : WF s) (hb : Book s) (hs : Step moved s t a s') : Book s' := by
  intro u l hu
  by_cases hut : u = t
  · subst hut
    cases hs with
    | callPush v ht =>
      rw [advance_threads_self ht] at hu
      cases Option.some.inj hu
      simp [Booked, opOf, wroteHead, Event.tid]
    | callPop ht =>
      rw [advance_threads_self ht] at hu
      cases Option.some.inj hu
      simp [Booked, opOf, wroteHead, Event.tid]
    | pushLoad v ht =>
      rw [advance_threads_self ht] at hu
      cases Option.some.inj hu
      have h0 := hb u _ ht
      simp only [Booked] at h0
      refine ⟨⟨v, s.mem.head_⟩, by simp, ?_, ?_, ?_⟩
      · simp [opOf, h0.1]
      · simp [lastSeen, Event.tid]
      · simp [wroteHead, Event.tid, h0.2]
    | pushOk c nd ht hc hh =>
      rw [advance_threads_self ht] at hu
      cases Option.some.inj hu
      obtain ⟨nd', h1, h2, h3, h4⟩ := hb u _ ht
      refine ⟨⟨nd'.value, ?_⟩, ?_⟩
      · simp [opOf, h2]
      · simp [wroteHead, Event.tid]
    | pushFail c nd b ht hc hh =>
      rw [advance_threads_self ht] at hu
      cases Option.some.inj hu
      obtain ⟨nd', h1, h2, h3, h4⟩ := hb u _ ht
      refine ⟨{ nd' with prev := s.mem.head_ }, ?_, ?_, ?_, ?_⟩
      · simp only [advance_mem, Stack.setPrev]
        rw [List.getElem?_modify_eq, h1]
        rfl
      · simp [opOf, h2]
      · simp [lastSeen, Event.tid]
      · simp [wroteHead, Event.tid, h4]
    | pushRet ht =>
      rw [advance_threads_self ht] at hu
      cases Option.some.inj hu
      trivial
    | popLoad ht =>
      rw [advance_threads_self ht] at hu
      cases Option.some.inj hu
      have h0 := hb u _ ht
      simp only [Booked] at h0
      simp [Booked, opOf, lastSeen, wroteHead, Event.tid, h0.1, h0.2]
    | popOk n nd ht hn hh =>
      rw [advance_threads_self ht] at hu
      cases Option.some.inj hu
      have h0 := hb u _ ht
      simp only [Booked] at h0
      simp [Booked, opOf, lastSeen, wroteHead, Event.tid, h0.1]
    | popFail n nd b ht hn hh =>
      rw [advance_threads_self ht] at hu
      cases Option.some.inj hu
      have h0 := hb u _ ht
      simp only [Booked] at h0
      simp [Booked, opOf, lastSeen, wroteHead, Event.tid, h0.1, h0.2.2]
    | popRetEmpty ht =>
      rw [advance_threads_self ht] at hu
      cases Option.some.inj hu
      trivial
    | popRet n nd ht hn =>
      rw [advance_threads_self ht] at hu
      cases Option.some.inj hu
      trivial
  · obtain ⟨l0, m, l1, e, ht, hs', he⟩ := hs.shape
    have hu0 : s.threads[u]? = some l := by
      rw [hs', advance_threads_ne ht _ _ _ hut] at hu
      exact hu
    exact Booked.frame hs hw hu0 hut (hb u l hu0)

theorem Reachable.book {α : Type} {moved : α → α} {k : Nat} {s : Sys α}
    (h : Reachable moved k s) : Book s :=
  Reachable.induction Book (Book.at_init_ok k) (fun _ _ _ _ hr hp hs => Book.preserved_by hr.wf hp hs) s h

/-! ## Claims about single steps of concurrent executions -/

theorem demoEmptyPop_reachable : Reachable id 1 demoEmptyPop :=
  ⟨[(0, Act.call Op.pop), (0, Act.load)], by decide⟩

theorem demoRace_reachable : Reachable id 2 demoRace := ⟨demoRaceSchedule, by decide⟩

theorem demoPop_reachable : Reachable id 1 demoPop := ⟨demoPopSchedule, by decide⟩

/-- C2. Empty pop: when a `pop` returns in any concurrent execution, it returns nothing
exactly if the head slot was empty at the instant the call last observed it (its `load` or
its latest compare-and-swap); in that case the call has not written the head slot, and its
return leaves the memory as it is.  In particular `pop` on a freshly constructed stack
returns nothing and leaves the stack empty. -/
theorem empty_pop {α : Type} (moved : α → α) (k : Nat) (s s' : Sys α) (t : Nat)
    (sp : List Bool) (hr : Reachable moved k s) (hop : opOf s.hist t = some Op.pop)
    (hs : step moved s t Act.ret = some s') :
    (∃ r, s'.hist = Event.res t r :: s.hist ∧
      (r = none ↔ lastSeen s.hist t = some none) ∧
      (r = none → wroteHead s.hist t = false ∧ s'.mem = s.mem)) ∧
    Stack.pop moved (Stack.empty : Stack α) sp = some (Stack.empty, none) := by
  refine ⟨?_, pop_eq_of_none moved _ rfl sp⟩
  have hb := hr.book
  generalize hact : Act.ret = a at hs
  cases (step_iff _ _ _ _ _).mp hs with
  | callPush v ht => cases hact
  | callPop ht => cases hact
  | pushLoad v ht => cases hact
  | pushOk c nd ht hc hh => cases hact
  | pushFail c nd b ht hc hh => cases hact
  | popLoad ht => cases hact
  | popOk n nd ht hn hh => cases hact
  | popFail n nd b ht hn hh => cases hact
  | pushRet ht =>
    obtain ⟨⟨v, hv⟩, _⟩ := hb t _ ht
    rw [hv] at hop
    cases hop
  | popRetEmpty ht =>
    have h0 := hb t _ ht
    simp only [Booked] at h0
    exact ⟨none, rfl, ⟨fun _ => h0.2.1, fun _ => rfl⟩, fun _ => ⟨h0.2.2, rfl⟩⟩
  | popRet n nd ht hn =>
    have h0 := hb t _ ht
    simp only [Booked] at h0
    have h1 : lastSeen s.hist t ≠ some none := by
      rw [h0.2.1]
      intro h
      cases h
    exact ⟨some nd.value, rfl, ⟨fun h => Option.noConfusion h, fun h => absurd h h1⟩,
      fun h => Option.noConfusion h⟩

theorem empty_pop_witness :
    (∃ r, (⟨Stack.empty, [Local.idle],
          [Event.res 0 none, Event.loaded 0 none, Event.inv 0 Op.pop]⟩ : Sys Nat).hist =
        Event.res 0 r :: demoEmptyPop.hist ∧
      (r = none ↔ lastSeen demoEmptyPop.hist 0 = some none) ∧
      (r = none → wroteHead demoEmptyPop.hist 0 = false ∧
        (⟨Stack.empty, [Local.idle],
          [Event.res 0 none, Event.loaded 0 none, Event.inv 0 Op.pop]⟩ : Sys Nat).mem =
            demoEmptyPop.mem)) ∧
    Stack.pop id (Stack.empty : Stack Nat) [] = some (Stack.empty, none) :=
  empty_pop id 1 demoEmptyPop _ 0 [] demoEmptyPop_reachable (by decide) (by decide)

/-- While other threads run, a `pop` that has swapped keeps its node and the node keeps its
content. -/
theorem held_stable {α : Type} {moved : α → α} {k : Nat} {t n : Nat} {nd : Node α} :
    ∀ (sched : Schedule α) (s1 s2 : Sys α), Reachable moved k s1 →
      s1.threads[t]? = some (Local.popDone n) → s1.mem.nodes[n]? = some nd →
      (∀ x ∈ sched, x.1 ≠ t) → exec moved s1 sched = some s2 →
      s2.threads[t]? = some (Local.popDone n) ∧ s2.mem.nodes[n]? = some nd := by
  intro sched
  induction sched with
  | nil =>
    intro s1 s2 _ h1 h2 _ he
    simp only [exec, Option.some.injEq] at he
    subst he
    exact ⟨h1, h2⟩
  | cons x sched ih =>
    intro s1 s2 hr h1 h2 hx he
    obtain ⟨u, a⟩ := x
    simp only [exec] at he
    cases hst : step moved s1 u a with
    | none => rw [hst] at he; cases he
    | some s3 =>
      rw [hst] at he
      have hut : t ≠ u := fun e => hx (u, a) (List.mem_cons_self _ _) e.symm
      have hS := (step_iff _ _ _ _ _).mp hst
      obtain ⟨l0, m, l1, e, hu, hs', _⟩ := hS.shape
      have h1' : s3.threads[t]? = some (Local.popDone n) := by
        rw [hs', advance_threads_ne hu _ _ _ hut]
        exact h1
      have h2' : s3.mem.nodes[n]? = some nd := by
        rw [hS.held_frame hr.wf h1 hut]
        exact h2
      exact ih s3 s2 (hr.after hst) h1' h2'
        (fun y hy => hx y (List.mem_cons_of_mem _ hy)) he

/-- C4. Push postcondition.  Run without interference, `push(v)` returns and leaves exactly one
new node, holding `v`, on top of the chain that was there, with every earlier node
unchanged.  In any concurrent execution, the compare-and-swap of a `push` that succeeds
changes no node and puts the candidate, which holds the pushed value and was not reachable
before, on top of the chain reachable at that instant: the values reachable from the head
become `v` followed by exactly the values reachable before. -/
theorem push_postcondition {α : Type} (moved : α → α) (m : Stack α) (v : α) (sp : List Bool)
    (l : List Nat) (hl : Chain m.nodes m.head_ l) (hsp : false ∈ sp)
    (k : Nat) (s s' : Sys α) (t : Nat) (b : Bool) (hr : Reachable moved k s)
    (hs : step moved s t (Act.cas b) = some s')
    (hdone : s'.threads[t]? = some Local.pushDone) :
    (∃ m', m.push v sp = some m' ∧ m'.nodes = m.nodes ++ [⟨v, m.head_⟩] ∧
      m'.head_ = some m.nodes.length ∧ m.nodes.length ∉ l ∧
      Chain m'.nodes m'.head_ (m.nodes.length :: l) ∧
      valuesOf m'.nodes (m.nodes.length :: l) = v :: valuesOf m.nodes l) ∧
    (∃ c w l', s.threads[t]? = some (Local.pushCas c) ∧ opOf s.hist t = some (Op.push w) ∧
      Chain s.mem.nodes s.mem.head_ l' ∧ c ∉ l' ∧
      s'.mem.nodes = s.mem.nodes ∧ s'.mem.head_ = some c ∧
      Chain s'.mem.nodes s'.mem.head_ (c :: l') ∧
      valuesOf s'.mem.nodes (c :: l') = w :: valuesOf s.mem.nodes l') := by
  refine ⟨push_chain m v sp hsp l hl, ?_⟩
  have hw := hr.wf
  have hb := hr.book
  generalize hact : Act.cas b = a at hs
  cases (step_iff _ _ _ _ _).mp hs with
  | callPush v ht => cases hact
  | callPop ht => cases hact
  | pushLoad v ht => cases hact
  | pushRet ht => cases hact
  | popLoad ht => cases hact
  | popRetEmpty ht => cases hact
  | popRet n nd ht hn => cases hact
  | pushFail c nd b ht hc hh =>
    rw [advance_threads_self ht] at hdone
    cases Option.some.inj hdone
  | popOk n nd ht hn hh =>
    rw [advance_threads_self ht] at hdone
    cases Option.some.inj hdone
  | popFail n nd b ht hn hh =>
    rw [advance_threads_self ht] at hdone
    cases Option.some.inj hdone
  | pushOk c nd ht hc hh =>
    obtain ⟨l', hl', hp⟩ := hw.chain
    obtain ⟨nd', h1, h2, _, _⟩ := hb t _ ht
    rw [hc] at h1
    cases h1
    have hcl : c ∉ l' := by
      intro hmem
      have := (hp c hmem).1
      rw [(hw.cand t c ht).2] at this
      cases this
    refine ⟨c, nd.value, l', ht, h2, hl', hcl, rfl, rfl, ?_, ?_⟩
    · exact Chain.cons hc (hh ▸ hl')
    · simp [valuesOf, List.filterMap_cons, hc]

theorem demoPush_reachable : Reachable id 1 demoPush :=
  ⟨[(0, Act.call (Op.push 7)), (0, Act.load)], by decide⟩

theorem push_postcondition_witness :
    (∃ m', (⟨[⟨5, none⟩], some 0⟩ : Stack Nat).push 9 [true, false] = some m' ∧
      m'.nodes = [⟨5, none⟩] ++ [⟨9, some 0⟩] ∧
      m'.head_ = some 1 ∧ 1 ∉ [0] ∧
      Chain m'.nodes m'.head_ (1 :: [0]) ∧
      valuesOf m'.nodes (1 :: [0]) = 9 :: valuesOf [(⟨5, none⟩ : Node Nat)] [0]) ∧
    (∃ c w l', demoPush.threads[0]? = some (Local.pushCas c) ∧
      opOf demoPush.hist 0 = some (Op.push w) ∧
      Chain demoPush.mem.nodes demoPush.mem.head_ l' ∧ c ∉ l' ∧
      demoPushed.mem.nodes = demoPush.mem.nodes ∧ demoPushed.mem.head_ = some c ∧
      Chain demoPushed.mem.nodes demoPushed.mem.head_ (c :: l') ∧
      valuesOf demoPushed.mem.nodes (c :: l') = w :: valuesOf demoPush.mem.nodes l') :=
  push_postcondition id ⟨[⟨5, none⟩], some 0⟩ 9 [true, false] [0]
    (walk_sound _ 1 _ _ (by decide)) (by decide) 1 demoPush demoPushed 0 false
    demoPush_reachable (by decide) (by decide)

/-- C5. Pop postcondition on a non-empty stack.  Run without interference on a stack whose
head is node `n`, `pop` returns the value of `n` present, sets the head to the `prev` of `n`
and leaves every other node as it was, so the chain loses exactly its first node.  In any
concurrent execution, the compare-and-swap of a `pop` that succeeds against `n` finds `n` at
the head, changes no node, sets the head to the `prev` of `n`, so that `n` is no longer on the
chain while the chain below is as before; and whatever other threads do afterwards, the call
returns the value that `n` held. -/
theorem pop_postcondition {α : Type} (moved : α → α) (m : Stack α) (sp : List Bool) (n : Nat)
    (l : List Nat) (hl : Chain m.nodes m.head_ (n :: l)) (hsp : false ∈ sp)
    (k : Nat) (s s' : Sys α) (t : Nat) (b : Bool) (n' : Nat) (hr : Reachable moved k s)
    (hs : step moved s t (Act.cas b) = some s')
    (hdone : s'.threads[t]? = some (Local.popDone n')) :
    (∃ nd m', m.nodes[n]? = some nd ∧ m.pop moved sp = some (m', some nd.value) ∧
      m'.head_ = nd.prev ∧ n ∉ l ∧ Chain m'.nodes m'.head_ l ∧
      (∀ i, i ≠ n → m'.nodes[i]? = m.nodes[i]?) ∧
      valuesOf m'.nodes l = valuesOf m.nodes l ∧
      valuesOf m.nodes (n :: l) = nd.value :: valuesOf m.nodes l) ∧
    (∃ nd l', s.mem.head_ = some n' ∧ s.mem.nodes[n']? = some nd ∧
      Chain s.mem.nodes s.mem.head_ (n' :: l') ∧ n' ∉ l' ∧
      s'.mem.nodes = s.mem.nodes ∧ s'.mem.head_ = nd.prev ∧
      Chain s'.mem.nodes s'.mem.head_ l' ∧
      ∀ (sched : Schedule α) (s2 : Sys α), (∀ x ∈ sched, x.1 ≠ t) →
        exec moved s' sched = some s2 →
        ∃ s3, step moved s2 t Act.ret = some s3 ∧
          s3.hist = Event.res t (some nd.value) :: s2.hist) := by
  constructor
  · obtain ⟨nd, m', h1, h2, h3, h4, h5, h6, h7, h8⟩ := pop_chain moved m sp hsp n l hl
    refine ⟨nd, m', h1, h2, h3, h5, h6, ?_, h7, h8⟩
    intro i hi
    rw [h4, List.getElem?_modify_ne _ _ (fun e => hi e.symm)]
  · have hw := hr.wf
    have hr' := hr.after hs
    generalize hact : Act.cas b = a at hs
    cases (step_iff _ _ _ _ _).mp hs with
    | callPush v ht => cases hact
    | callPop ht => cases hact
    | pushLoad v ht => cases hact
    | pushRet ht => cases hact
    | popLoad ht => cases hact
    | popRetEmpty ht => cases hact
    | popRet n nd ht hn => cases hact
    | pushFail c nd b ht hc hh =>
      rw [advance_threads_self ht] at hdone
      cases Option.some.inj hdone
    | pushOk n nd ht hn hh =>
      rw [advance_threads_self ht] at hdone
      cases Option.some.inj hdone
    | popFail n nd b ht hn hh =>
      rw [advance_threads_self ht] at hdone
      cases Option.some.inj hdone
    | popOk n0 nd ht hn hh =>
      rw [advance_threads_self ht] at hdone
      cases Option.some.inj hdone
      obtain ⟨l0, hl0, _⟩ := hw.chain
      have hnd := hl0.nodup
      have hl1 := hl0
      rw [hh] at hl1
      cases hl1 with
      | @cons _ nd1 l1 hn1 hc1 =>
        rw [hn] at hn1
        cases hn1
        refine ⟨nd, l1, hh, hn, hl0, (List.nodup_cons.mp hnd).1, rfl, rfl, hc1, ?_⟩
        intro sched s2 hx he
        obtain ⟨h1, h2⟩ := held_stable sched _ s2 hr' (advance_threads_self ht _ _ _) hn hx he
        refine ⟨_, (step_iff _ _ _ _ _).mpr (Step.popRet n' nd h1 h2), rfl⟩

theorem pop_postcondition_witness :
    (∃ nd m', ([⟨5, none⟩, ⟨9, some 0⟩] : List (Node Nat))[1]? = some nd ∧
      (⟨[⟨5, none⟩, ⟨9, some 0⟩], some 1⟩ : Stack Nat).pop id [true, false] =
        some (m', some nd.value) ∧
      m'.head_ = nd.prev ∧ 1 ∉ [0] ∧ Chain m'.nodes m'.head_ [0] ∧
      (∀ i, i ≠ 1 → m'.nodes[i]? = ([⟨5, none⟩, ⟨9, some 0⟩] : List (Node Nat))[i]?) ∧
      valuesOf m'.nodes [0] = valuesOf [(⟨5, none⟩ : Node Nat), ⟨9, some 0⟩] [0] ∧
      valuesOf [(⟨5, none⟩ : Node Nat), ⟨9, some 0⟩] (1 :: [0]) =
        nd.value :: valuesOf [(⟨5, none⟩ : Node Nat), ⟨9, some 0⟩] [0]) ∧
    (∃ nd l', demoPop.mem.head_ = some 0 ∧ demoPop.mem.nodes[0]? = some nd ∧
      Chain demoPop.mem.nodes demoPop.mem.head_ (0 :: l') ∧ 0 ∉ l' ∧
      demoPopped.mem.nodes = demoPop.mem.nodes ∧ demoPopped.mem.head_ = nd.prev ∧
      Chain demoPopped.mem.nodes demoPopped.mem.head_ l' ∧
      ∀ (sched : Schedule Nat) (s2 : Sys Nat), (∀ x ∈ sched, x.1 ≠ 0) →
        exec id demoPopped sched = some s2 →
        ∃ s3, step id s2 0 Act.ret = some s3 ∧
          s3.hist = Event.res 0 (some nd.value) :: s2.hist) :=
  pop_postcondition id ⟨[⟨5, none⟩, ⟨9, some 0⟩], some 1⟩ [true, false] 1 [0]
    (walk_sound _ 2 _ _ (by decide)) (by decide) 1 demoPop demoPopped 0 false 0
    demoPop_reachable (by decide) (by decide)

/-! ## Which writes reach a node -/

/-- C10, as stated, fails.  In the execution `demoRaceSchedule` two threads push concurrently;
thread `1` wins, and the failed compare-and-swap of thread `0` then rewrites the `prev` of
node `0`, constructed earlier with `prev` empty, to the new head.  And in a stack of
vectors, the return of a `pop` moves the value out of the node it took off, leaving the
node's value empty. -/
theorem node_immutability_counterexample :
    (exec id (Sys.init 2) demoRaceSchedule = some demoRace ∧
      demoRace.mem.nodes[0]? = some ⟨1, none⟩ ∧
      (step id demoRace 0 (Act.cas false)).map (fun s => s.mem.nodes[0]?) =
        some (some ⟨1, some 1⟩)) ∧
    (exec (fun _ => []) (Sys.init 1) demoVecSchedule = some demoVec ∧
      demoVec.mem.nodes[0]? = some ⟨[7], none⟩ ∧
      (step (fun _ => []) demoVec 0 Act.ret).map (fun s => s.mem.nodes[0]?) =
        some (some ⟨[], none⟩)) := by
  decide

/-- C10, amended.  In every concurrent execution, a step leaves every existing node in place
and: the `prev` of a node that has been installed as head never changes; the value of a node
that has not been taken off by a `pop` never changes; a change of `prev` is the failed
compare-and-swap of the `push` whose still private candidate the node is, and writes the
head just observed, leaving the head slot alone; a change of `value` is the return of the
`pop` that took the node off, moving the value out. -/
theorem node_immutability_amended {α : Type} (moved : α → α) (k : Nat) (s s' : Sys α)
    (t : Nat) (a : Act α) (i : Nat) (nd : Node α) (hr : Reachable moved k s)
    (hs : step moved s t a = some s') (hi : s.mem.nodes[i]? = some nd) :
    ∃ nd', s'.mem.nodes[i]? = some nd' ∧
      (wasPushed s.hist i = true → nd'.prev = nd.prev) ∧
      (wasPopped s.hist i = false → nd'.value = nd.value) ∧
      (nd'.prev ≠ nd.prev → s.threads[t]? = some (Local.pushCas i) ∧ (∃ b, a = Act.cas b) ∧
        nd'.prev = s.mem.head_ ∧ nd'.value = nd.value ∧ s'.mem.head_ = s.mem.head_) ∧
      (nd'.value ≠ nd.value → s.threads[t]? = some (Local.popDone i) ∧ a = Act.ret ∧
        nd'.value = moved nd.value ∧ nd'.prev = nd.prev ∧ s'.mem.head_ = s.mem.head_) := by
  have hw := hr.wf
  have hS := (step_iff _ _ _ _ _).mp hs
  rcases hS.node_change hi with h | ⟨h1, h2, h3, h4⟩ | ⟨h1, h2, h3⟩
  · exact ⟨nd, h, fun _ => rfl, fun _ => rfl, fun h => absurd rfl h, fun h => absurd rfl h⟩
  · refine ⟨_, h3, ?_, fun _ => rfl, fun _ => ⟨h1, h2, rfl, rfl, h4⟩, fun h => absurd rfl h⟩
    intro hp
    rw [(hw.cand t i h1).2] at hp
    cases hp
  · refine ⟨_, h3, fun _ => rfl, ?_, fun h => absurd rfl h, fun _ => ⟨h1, h2, rfl, rfl, ?_⟩⟩
    · intro hp
      rw [hw.popHeld t i h1] at hp
      cases hp
    · subst h2
      generalize hact : Act.ret = a at hS
      cases hS with
      | callPush v ht => cases hact
      | callPop ht => cases hact
      | pushLoad v ht => cases hact
      | pushOk c nd ht hc hh => cases hact
      | pushFail c nd b ht hc hh => cases hact
      | popLoad ht => cases hact
      | popOk n nd ht hn hh => cases hact
      | popFail n nd b ht hn hh => cases hact
      | pushRet ht => rfl
      | popRetEmpty ht => rfl
      | popRet n nd ht hn => rfl

theorem node_immutability_amended_witness :
    ∃ nd', (⟨⟨[⟨1, some 1⟩, ⟨2, none⟩], some 1⟩, [Local.pushCas 0, Local.pushDone],
        Event.failed 0 (some 1) false :: demoRace.hist⟩ : Sys Nat).mem.nodes[0]? = some nd' ∧
      (wasPushed demoRace.hist 0 = true → nd'.prev = none) ∧
      (wasPopped demoRace.hist 0 = false → nd'.value = 1) ∧
      (nd'.prev ≠ none → demoRace.threads[0]? = some (Local.pushCas 0) ∧
        (∃ b, Act.cas false = (Act.cas b : Act Nat)) ∧
        nd'.prev = demoRace.mem.head_ ∧ nd'.value = 1 ∧
        (⟨⟨[⟨1, some 1⟩, ⟨2, none⟩], some 1⟩, [Local.pushCas 0, Local.pushDone],
          Event.failed 0 (some 1) false :: demoRace.hist⟩ : Sys Nat).mem.head_ =
            demoRace.mem.head_) ∧
      (nd'.value ≠ 1 → demoRace.threads[0]? = some (Local.popDone 0) ∧
        (Act.cas false : Act Nat) = Act.ret ∧
        nd'.value = id 1 ∧ nd'.prev = none ∧
        (⟨⟨[⟨1, some 1⟩, ⟨2, none⟩], some 1⟩, [Local.pushCas 0, Local.pushDone],
          Event.failed 0 (some 1) false :: demoRace.hist⟩ : Sys Nat).mem.head_ =
            demoRace.mem.head_) :=
  node_immutability_amended id 2 demoRace _ 0 (Act.cas false) 0 ⟨1, none⟩
    demoRace_reachable (by decide) (by decide)

/-! ## Conservation of values -/

/-- Replacing one entry of a list changes the sum of a function over it by that entry alone,
also when the function changes, as long as it changes on no other entry. -/
theorem sum_update {β M : Type} [AddCommMonoid M] (g g' : β → M) :
    ∀ (l : List β) (t : Nat) (x0 x : β), l[t]? = some x0 →
      (∀ u y, u ≠ t → l[u]? = some y → g' y = g y) →
      ((l.set t x).map g').sum + g x0 = (l.map g).sum + g' x := by
  intro l
  induction l with
  | nil => intro t x0 x h; simp at h
  | cons a l ih =>
    intro t x0 x h hf
    cases t with
    | zero =>
      simp only [List.getElem?_cons_zero, Option.some.injEq] at h
      subst h
      have hrest : l.map g' = l.map g := by
        apply List.map_congr_left
        intro y hy
        obtain ⟨u, hu⟩ := List.getElem?_of_mem hy
        exact hf (u + 1) y (Nat.succ_ne_zero u) (by simpa using hu)
      simp only [List.set_cons_zero, List.map_cons, List.sum_cons, hrest]
      abel
    | succ t =>
      simp only [List.getElem?_cons_succ] at h
      have hf' : ∀ u y, u ≠ t → l[u]? = some y → g' y = g y := by
        intro u y hu hy
        exact hf (u + 1) y (fun e => hu (Nat.succ.inj e)) (by simpa using hy)
      have h0 : g' a = g a := hf 0 a (Nat.succ_ne_zero t).symm (by simp)
      have := ih t x0 x h hf'
      simp only [List.set_cons_succ, List.map_cons, List.sum_cons, h0]
      rw [add_assoc, this, add_assoc]

theorem Step.heldVals_eq {α : Type} {moved : α → α} {s s' : Sys α} {t : Nat} {a : Act α}
    (hs : Step moved s t a s') (hw : WF s) {l0 l1 : Local α}
    (h0 : s.threads[t]? = some l0) (h1 : s'.threads[t]? = some l1) :
    heldVals s' + heldOf s.mem.nodes l0 = heldVals s + heldOf s'.mem.nodes l1 := by
  obtain ⟨l0', m, l1', e, ht, hs', _⟩ := hs.shape
  have hl1 : l1' = l1 := by
    rw [hs', advance_threads_self ht] at h1
    exact Option.some.inj h1
  have hthr : s'.threads = s.threads.set t l1 := by rw [hs', ← hl1]; rfl
  unfold heldVals
  rw [hthr]
  apply sum_update _ _ _ _ _ _ h0
  intro u y hu hy
  cases y with
  | popDone n =>
    simp only [heldOf]
    rw [hs.held_frame hw hy hu]
  | idle => rfl
  | pushStart v => rfl
  | pushCas c => rfl
  | pushDone => rfl
  | popStart => rfl
  | popLoop x => rfl

theorem Step.inflightVals_eq {α : Type} {moved : α → α} {s s' : Sys α} {t : Nat} {a : Act α}
    (hs : Step moved s t a s') (hw : WF s) {l0 l1 : Local α}
    (h0 : s.threads[t]? = some l0) (h1 : s'.threads[t]? = some l1) :
    inflightVals s' + inflightOf s.mem.nodes l0 =
      inflightVals s + inflightOf s'.mem.nodes l1 := by
  obtain ⟨l0', m, l1', e, ht, hs', _⟩ := hs.shape
  have hl1 : l1' = l1 := by
    rw [hs', advance_threads_self ht] at h1
    exact Option.some.inj h1
  have hthr : s'.threads = s.threads.set t l1 := by rw [hs', ← hl1]; rfl
  unfold inflightVals
  rw [hthr]
  apply sum_update _ _ _ _ _ _ h0
  intro u y hu hy
  cases y with
  | pushCas c =>
    simp only [inflightOf]
    rw [hs.cand_frame hw hy hu]
  | idle => rfl
  | pushStart v => rfl
  | popDone n => rfl
  | pushDone => rfl
  | popStart => rfl
  | popLoop x => rfl

theorem coe_cons_eq {α : Type} (v : α) (l : List α) :
    (↑(v :: l) : Multiset α) = {v} + ↑l := by
  rw [← Multiset.cons_coe, Multiset.singleton_add]

theorem Conserved.at_first {α : Type} (k : Nat) : Conserved (Sys.init k : Sys α) := by
  constructor
  · intro l hl
    cases hl
    have : heldVals (Sys.init k : Sys α) = 0 := by
      simp only [heldVals, Sys.init]
      induction k with
      | zero => rfl
      | succ k ih =>
        simp only [List.replicate_succ, List.map_cons, List.sum_cons, ih]
        rfl
    rw [this]
    rfl
  · have : inflightVals (Sys.init k : Sys α) = 0 := by
      simp only [inflightVals, Sys.init]
      induction k with
      | zero => rfl
      | succ k ih =>
        simp only [List.replicate_succ, List.map_cons, List.sum_cons, ih]
        rfl
    rw [this]
    rfl

theorem invPushVals_cons {α : Type} (e : Event α) (es : List (Event α)) :
    (↑(invPushVals (e :: es)) : Multiset α) =
      (match e with
        | .inv _ (.push v) => {v}
        | _ => 0) + ↑(invPushVals es) := by
  cases e with
  | inv t op =>
    cases op with
    | push v => simp only [invPushVals, List.filterMap_cons]; exact coe_cons_eq _ _
    | pop => simp [invPushVals, List.filterMap_cons]
  | loaded t x => simp [invPushVals, List.filterMap_cons]
  | pushed t c o => simp [invPushVals, List.filterMap_cons]
  | popped t c o => simp [invPushVals, List.filterMap_cons]
  | failed t x b => simp [invPushVals, List.filterMap_cons]
  | res t r => simp [invPushVals, List.filterMap_cons]

theorem resVals_cons {α : Type} (e : Event α) (es : List (Event α)) :
    (↑(resVals (e :: es)) : Multiset α) =
      (match e with
        | .res _ (some v) => {v}
        | _ => 0) + ↑(resVals es) := by
  cases e with
  | res t r =>
    cases r with
    | some v => simp only [resVals, List.filterMap_cons]; exact coe_cons_eq _ _
    | none => simp [resVals, List.filterMap_cons]
  | loaded t x => simp [resVals, List.filterMap_cons]
  | pushed t c o => simp [resVals, List.filterMap_cons]
  | popped t c o => simp [resVals, List.filterMap_cons]
  | failed t x b => simp [resVals, List.filterMap_cons]
  | inv t op => simp [resVals, List.filterMap_cons]

/-- A step that leaves the memory alone, records no installation, and moves the thread
between local states that carry no value keeps the accounts, up to what it adds to the
invoked and returned values. -/
theorem Conserved.quiet_step {α : Type} {moved : α → α} {s : Sys α} {t : Nat} {a : Act α}
    {l0 l1 : Local α} {e : Event α}
    (hs : Step moved s t a (s.advance t s.mem l1 e)) (hw : WF s) (hc : Conserved s)
    (ht : s.threads[t]? = some l0)
    (hheld : ∀ nodes : List (Node α), heldOf nodes l0 = 0 ∧ heldOf nodes l1 = 0)
    (hpv : pushedVals (e :: s.hist) = pushedVals s.hist)
    (hrv : resVals (e :: s.hist) = resVals s.hist)
    (hiv : (↑(invPushVals (e :: s.hist)) : Multiset α) + inflightOf s.mem.nodes l0 =
      ↑(invPushVals s.hist) + inflightOf s.mem.nodes l1) :
    Conserved (s.advance t s.mem l1 e) := by
  have hH := hs.heldVals_eq hw ht (advance_threads_self ht _ _ _)
  have hI := hs.inflightVals_eq hw ht (advance_threads_self ht _ _ _)
  rw [(hheld _).1, (hheld _).2, add_zero, add_zero] at hH
  simp only [advance_mem] at hI
  constructor
  · intro l hl
    simp only [advance_mem, advance_hist, hpv, hrv, hH] at hl ⊢
    exact hc.pushed l hl
  · simp only [advance_hist, hpv]
    have hV := hc.invoked
    apply add_right_cancel (b := inflightOf s.mem.nodes l0)
    rw [hiv, hV, add_assoc, add_assoc, hI]

theorem valuesOf_congr {α : Type} (nodes nodes' : List (Node α)) (l : List Nat)
    (h : ∀ n ∈ l, nodes'[n]? = nodes[n]?) : valuesOf nodes' l = valuesOf nodes l := by
  unfold valuesOf
  apply List.filterMap_congr
  intro n hn
  rw [h n hn]

theorem Conserved.preserved_step {α : Type} {moved : α → α} {s s' : Sys α} {t : Nat}
    {a : Act α} (hw : WF s) (hb : Book s) (hc : Conserved s) (hs : Step moved s t a s') :
    Conserved s' := by
  obtain ⟨l, hl, hp⟩ := hw.chain
  have hP := hc.pushed l hl
  have hV := hc.invoked
  cases hs with
  | callPush v ht =>
    have hS : Step moved s t _ _ := Step.callPush v ht
    refine Conserved.quiet_step hS hw hc ht (fun _ => ⟨rfl, rfl⟩) rfl rfl ?_
    rw [invPushVals_cons]
    simp only [inflightOf, add_zero]
    rw [add_comm]
  | callPop ht =>
    have hS : Step moved s t _ _ := Step.callPop ht
    exact Conserved.quiet_step hS hw hc ht (fun _ => ⟨rfl, rfl⟩) rfl rfl rfl
  | pushRet ht =>
    have hS : Step moved s t _ _ := Step.pushRet ht
    exact Conserved.quiet_step hS hw hc ht (fun _ => ⟨rfl, rfl⟩) rfl rfl rfl
  | popLoad ht =>
    have hS : Step moved s t _ _ := Step.popLoad ht
    exact Conserved.quiet_step hS hw hc ht (fun _ => ⟨rfl, rfl⟩) rfl rfl rfl
  | popFail n nd b ht hn hh =>
    have hS : Step moved s t _ _ := Step.popFail n nd b ht hn hh
    exact Conserved.quiet_step hS hw hc ht (fun _ => ⟨rfl, rfl⟩) rfl rfl rfl
  | popRetEmpty ht =>
    have hS : Step moved s t _ _ := Step.popRetEmpty ht
    exact Conserved.quiet_step hS hw hc ht (fun _ => ⟨rfl, rfl⟩) rfl rfl rfl
  | pushLoad v ht =>
    have hS : Step moved s t _ _ := Step.pushLoad v ht
    have hH := hS.heldVals_eq hw ht (advance_threads_self ht _ _ _)
    have hI := hS.inflightVals_eq hw ht (advance_threads_self ht _ _ _)
    simp only [heldOf, add_zero] at hH
    have hnew : inflightOf (s.mem.nodes ++ [⟨v, s.mem.head_⟩])
        (Local.pushCas s.mem.nodes.length : Local α) = {v} := by
      simp [inflightOf]
    simp only [advance_mem, hnew] at hI
    have hI' := add_right_cancel hI
    constructor
    · intro l' hl'
      have := (hl.append [⟨v, s.mem.head_⟩]).unique hl'
      subst this
      simp only [advance_mem, advance_hist, hH]
      rw [valuesOf_append _ _ _ hl.lt_length]
      exact hP
    · simp only [advance_hist, hI']
      exact hV
  | pushOk c nd ht hc' hh =>
    have hS : Step moved s t _ _ := Step.pushOk c nd ht hc' hh
    have hH := hS.heldVals_eq hw ht (advance_threads_self ht _ _ _)
    have hI := hS.inflightVals_eq hw ht (advance_threads_self ht _ _ _)
    simp only [heldOf, add_zero] at hH
    simp only [inflightOf, hc', add_zero] at hI
    obtain ⟨nd', h1, h2, _, _⟩ := hb t _ ht
    rw [hc'] at h1
    cases h1
    have hpv : pushedVals (Event.pushed t c nd.prev :: s.hist) =
        nd.value :: pushedVals s.hist := by
      simp only [pushedVals, h2]
    constructor
    · intro l' hl'
      have hcons : Chain s.mem.nodes (some c) (c :: l) := Chain.cons hc' (hh ▸ hl)
      have := hcons.unique hl'
      subst this
      simp only [advance_mem, advance_hist, hH, hpv]
      have hv : valuesOf s.mem.nodes (c :: l) = nd.value :: valuesOf s.mem.nodes l := by
        simp [valuesOf, List.filterMap_cons, hc']
      rw [hv, coe_cons_eq, coe_cons_eq, hP, add_assoc]
      rfl
    · simp only [advance_hist, hpv]
      rw [invPushVals_cons, coe_cons_eq, hV, ← hI]
      simp only [zero_add]
      abel
  | pushFail c nd b ht hc' hh =>
    have hS : Step moved s t _ _ := Step.pushFail c nd b ht hc' hh
    have hH := hS.heldVals_eq hw ht (advance_threads_self ht _ _ _)
    have hI := hS.inflightVals_eq hw ht (advance_threads_self ht _ _ _)
    simp only [heldOf, add_zero] at hH
    have hnode : (s.mem.setPrev c s.mem.head_).nodes[c]? =
        some { nd with prev := s.mem.head_ } := by
      simp only [Stack.setPrev]
      rw [List.getElem?_modify_eq, hc']
      rfl
    simp only [advance_mem, inflightOf, hc', hnode] at hI
    have hI' := add_right_cancel hI
    have hcl : c ∉ l := by
      intro hmem
      have := (hp c hmem).1
      rw [(hw.cand t c ht).2] at this
      cases this
    constructor
    · intro l' hl'
      have := (hl.modify_of_not_mem (fun x => { x with prev := s.mem.head_ }) c hcl).unique hl'
      subst this
      have hv : valuesOf (s.mem.setPrev c s.mem.head_).nodes l = valuesOf s.mem.nodes l :=
        valuesOf_modify _ _ _ _ hcl
      have hpv : pushedVals (Event.failed t s.mem.head_ (decide (s.mem.head_ = nd.prev)) ::
          s.hist) = pushedVals s.hist := rfl
      have hrv : resVals (Event.failed t s.mem.head_ (decide (s.mem.head_ = nd.prev)) ::
          s.hist) = resVals s.hist := rfl
      simp only [advance_mem, advance_hist]
      rw [hH, hv, hpv, hrv]
      exact hP
    · simp only [advance_hist, hI']
      exact hV
  | popOk n nd ht hn hh =>
    have hS : Step moved s t _ _ := Step.popOk n nd ht hn hh
    have hH := hS.heldVals_eq hw ht (advance_threads_self ht _ _ _)
    have hI := hS.inflightVals_eq hw ht (advance_threads_self ht _ _ _)
    simp only [advance_mem, heldOf, hn, add_zero] at hH
    simp only [inflightOf, add_zero] at hI
    constructor
    · intro l' hl'
      have hl1 := hl
      rw [hh] at hl1
      cases hl1 with
      | @cons _ nd1 l1 hn1 hc1 =>
        rw [hn] at hn1
        cases hn1
        have := hc1.unique hl'
        subst this
        simp only [advance_mem, advance_hist, hH]
        have hv : valuesOf s.mem.nodes (n :: l1) = nd.value :: valuesOf s.mem.nodes l1 := by
          simp [valuesOf, List.filterMap_cons, hn]
        rw [hv, coe_cons_eq] at hP
        have hpv : pushedVals (Event.popped t n nd.prev :: s.hist) = pushedVals s.hist := rfl
        have hrv : resVals (Event.popped t n nd.prev :: s.hist) = resVals s.hist := rfl
        rw [hpv, hrv, hP]
        abel
    · simp only [advance_hist, hI]
      exact hV
  | popRet n nd ht hn =>
    have hS : Step moved s t _ _ := Step.popRet n nd ht hn
    have hH := hS.heldVals_eq hw ht (advance_threads_self ht _ _ _)
    have hI := hS.inflightVals_eq hw ht (advance_threads_self ht _ _ _)
    simp only [advance_mem, heldOf, hn, add_zero] at hH
    simp only [inflightOf, add_zero] at hI
    have hnl : n ∉ l := by
      intro hmem
      have := (hp n hmem).2
      rw [hw.popHeld t n ht] at this
      cases this
    constructor
    · intro l' hl'
      have := (hl.modify_of_prev (fun x => { x with value := moved nd.value }) n
        (fun _ => rfl)).unique hl'
      subst this
      have hv : valuesOf (s.mem.setValue n (moved nd.value)).nodes l =
          valuesOf s.mem.nodes l := valuesOf_modify _ _ _ _ hnl
      have hpv : pushedVals (Event.res t (some nd.value) :: s.hist) = pushedVals s.hist := rfl
      simp only [advance_mem, advance_hist]
      rw [hv, hpv, resVals_cons, hP, ← hH]
      simp only
      abel
    · simp only [advance_hist, hI]
      exact hV

theorem Reachable.conserved {α : Type} {moved : α → α} {k : Nat} {s : Sys α}
    (h : Reachable moved k s) : Conserved s :=
  Reachable.induction Conserved (Conserved.at_first k)
    (fun _ _ _ _ hr hp hs => Conserved.preserved_step hr.wf hr.book hp hs) s h

theorem sum_map_zero {β M : Type} [AddCommMonoid M] (g : β → M) (l : List β)
    (h : ∀ x ∈ l, g x = 0) : (l.map g).sum = 0 := by
  induction l with
  | nil => rfl
  | cons a l ih =>
    simp only [List.map_cons, List.sum_cons, h a (List.mem_cons_self _ _), zero_add]
    exact ih (fun x hx => h x (List.mem_cons_of_mem _ hx))

theorem demoPopped_reachable : Reachable id 1 demoPopped :=
  ⟨demoPopSchedule ++ [(0, Act.cas false)], by decide⟩

/-- C7. No lost or duplicated values.  In every state reachable by interleaving the atomic
steps of any number of `push` and `pop` calls on a fresh stack, the multiset of values of the
pushes whose compare-and-swap has succeeded equals the multiset of values on the chain
reachable from the head plus the multiset of values taken off by successful pops (those
held by a `pop` that has swapped and not yet returned, and those already returned); and the
values passed to `push` are those installed plus those of the pushes still on their way.
Hence, once every call has returned and the head is empty, the multiset of values returned
by `pop` is exactly the multiset of values passed to `push`. -/
theorem no_lost_or_duplicated_values {α : Type} (moved : α → α) (k : Nat) (s : Sys α)
    (hr : Reachable moved k s) :
    (∃ l, Chain s.mem.nodes s.mem.head_ l ∧
      (↑(pushedVals s.hist) : Multiset α) =
        ↑(valuesOf s.mem.nodes l) + (heldVals s + ↑(resVals s.hist))) ∧
    (↑(invPushVals s.hist) : Multiset α) = ↑(pushedVals s.hist) + inflightVals s ∧
    ((∀ x ∈ s.threads, x = Local.idle) → s.mem.head_ = none →
      (↑(resVals s.hist) : Multiset α) = ↑(invPushVals s.hist)) := by
  have hc := hr.conserved
  obtain ⟨l, hl, _⟩ := hr.wf.chain
  refine ⟨⟨l, hl, hc.pushed l hl⟩, hc.invoked, ?_⟩
  intro hidle hhead
  have hH : heldVals s = 0 := by
    apply sum_map_zero
    intro x hx
    rw [hidle x hx]
    rfl
  have hI : inflightVals s = 0 := by
    apply sum_map_zero
    intro x hx
    rw [hidle x hx]
    rfl
  have hP := hc.pushed l hl
  rw [hhead] at hl
  cases hl
  rw [hc.invoked, hI, hP, hH]
  simp [valuesOf]

theorem demoDrained_reachable : Reachable id 2 demoDrained :=
  ⟨demoDrainSchedule, by decide⟩

theorem no_lost_or_duplicated_values_witness :
    ((∃ l, Chain demoPopped.mem.nodes demoPopped.mem.head_ l ∧
      (↑(pushedVals demoPopped.hist) : Multiset Nat) =
        ↑(valuesOf demoPopped.mem.nodes l) +
          (heldVals demoPopped + ↑(resVals demoPopped.hist))) ∧
    (↑(invPushVals demoPopped.hist) : Multiset Nat) =
      ↑(pushedVals demoPopped.hist) + inflightVals demoPopped) ∧
    (↑(resVals demoDrained.hist) : Multiset Nat) = ↑(invPushVals demoDrained.hist) :=
  ⟨⟨(no_lost_or_duplicated_values id 1 demoPopped demoPopped_reachable).1,
      (no_lost_or_duplicated_values id 1 demoPopped demoPopped_reachable).2.1⟩,
    (no_lost_or_duplicated_values id 2 demoDrained demoDrained_reachable).2.2
      (by decide) rfl⟩

/-! ## Retries -/

theorem failedOf_cons_ne {α : Type} (e : Event α) (es : List (Event α)) (u : Nat)
    (h : Event.tid e ≠ u) : failedOf u (e :: es) = failedOf u es := by
  cases e <;> simp only [failedOf] <;> simp only [Event.tid] at h <;> simp [h]

theorem spuriousOf_cons_ne {α : Type} (e : Event α) (es : List (Event α)) (u : Nat)
    (h : Event.tid e ≠ u) : spuriousOf u (e :: es) = spuriousOf u es := by
  cases e <;> simp only [spuriousOf] <;> simp only [Event.tid] at h <;> simp [h]

theorem swapsByOthers_cons_ne {α : Type} (e : Event α) (es : List (Event α)) (u : Nat)
    (h : Event.tid e ≠ u) :
    swapsByOthers u (e :: es) = Event.swapped e + swapsByOthers u es := by
  cases e <;> simp only [swapsByOthers, Event.swapped] <;> simp only [Event.tid] at h <;>
    simp [h]

theorem stale_le_one {α : Type} (nodes : List (Node α)) (head : Option Nat) (l : Local α) :
    stale nodes head l ≤ 1 := by
  cases l with
  | pushCas c =>
    simp only [stale]
    split
    · split <;> omega
    · omega
  | popLoop x =>
    cases x with
    | none => simp [stale]
    | some n =>
      simp only [stale]
      split <;> omega
  | idle => simp [stale]
  | pushStart v => simp [stale]
  | pushDone => simp [stale]
  | popStart => simp [stale]
  | popDone n => simp [stale]

/-- A step either leaves the head slot alone or records a successful compare-and-swap. -/
theorem Step.head_or_swap {α : Type} {moved : α → α} {s s' : Sys α} {t : Nat} {a : Act α}
    (hs : Step moved s t a s') :
    s'.mem.head_ = s.mem.head_ ∧ swapCount s'.hist = swapCount s.hist ∧
        (∀ u, u ≠ t → swapsByOthers u s'.hist = swapsByOthers u s.hist) ∨
      swapCount s'.hist = 1 + swapCount s.hist ∧
        (∀ u, u ≠ t → swapsByOthers u s'.hist = 1 + swapsByOthers u s.hist) := by
  cases hs with
  | callPush v ht =>
    refine Or.inl ⟨rfl, rfl, fun u hu => ?_⟩
    have hu' : ¬ t = u := fun h => hu h.symm
    simp [swapsByOthers, hu']
  | callPop ht =>
    refine Or.inl ⟨rfl, rfl, fun u hu => ?_⟩
    have hu' : ¬ t = u := fun h => hu h.symm
    simp [swapsByOthers, hu']
  | pushLoad v ht =>
    refine Or.inl ⟨rfl, rfl, fun u hu => ?_⟩
    have hu' : ¬ t = u := fun h => hu h.symm
    simp [swapsByOthers, hu']
  | pushOk c nd ht hc hh =>
    refine Or.inr ⟨rfl, fun u hu => ?_⟩
    have hu' : ¬ t = u := fun h => hu h.symm
    simp [swapsByOthers, hu']
  | pushFail c nd b ht hc hh =>
    refine Or.inl ⟨rfl, rfl, fun u hu => ?_⟩
    have hu' : ¬ t = u := fun h => hu h.symm
    simp [swapsByOthers, hu']
  | pushRet ht =>
    refine Or.inl ⟨rfl, rfl, fun u hu => ?_⟩
    have hu' : ¬ t = u := fun h => hu h.symm
    simp [swapsByOthers, hu']
  | popLoad ht =>
    refine Or.inl ⟨rfl, rfl, fun u hu => ?_⟩
    have hu' : ¬ t = u := fun h => hu h.symm
    simp [swapsByOthers, hu']
  | popOk n nd ht hn hh =>
    refine Or.inr ⟨rfl, fun u hu => ?_⟩
    have hu' : ¬ t = u := fun h => hu h.symm
    simp [swapsByOthers, hu']
  | popFail n nd b ht hn hh =>
    refine Or.inl ⟨rfl, rfl, fun u hu => ?_⟩
    have hu' : ¬ t = u := fun h => hu h.symm
    simp [swapsByOthers, hu']
  | popRetEmpty ht =>
    refine Or.inl ⟨rfl, rfl, fun u hu => ?_⟩
    have hu' : ¬ t = u := fun h => hu h.symm
    simp [swapsByOthers, hu']
  | popRet n nd ht hn =>
    refine Or.inl ⟨rfl, rfl, fun u hu => ?_⟩
    have hu' : ¬ t = u := fun h => hu h.symm
    simp [swapsByOthers, hu']

/-- The retry account of a thread survives the steps of other threads. -/
theorem RetryOk.frame_retry {α : Type} {moved : α → α} {s s' : Sys α} {t : Nat} {a : Act α}
    (hs : Step moved s t a s') (hw : WF s) (hr : RetryOk s) (u : Nat) (hne : u ≠ t) :
    failedOf u s'.hist +
        (match s'.threads[u]? with
          | some l => stale s'.mem.nodes s'.mem.head_ l
          | none => 0) ≤
      swapsByOthers u s'.hist + spuriousOf u s'.hist := by
  obtain ⟨l0, m, l1, e, ht, hs', he⟩ := hs.shape
  have hne' : Event.tid e ≠ u := by rw [he]; exact fun h => hne h.symm
  have hthr : s'.threads[u]? = s.threads[u]? := by
    rw [hs', advance_threads_ne ht _ _ _ hne]
  have hf : failedOf u s'.hist = failedOf u s.hist := by
    rw [hs', advance_hist, failedOf_cons_ne _ _ _ hne']
  have hsp : spuriousOf u s'.hist = spuriousOf u s.hist := by
    rw [hs', advance_hist, spuriousOf_cons_ne _ _ _ hne']
  have h0 := hr u
  rw [hthr, hf, hsp]
  rcases hs.head_or_swap with ⟨hhead, _, hsw⟩ | ⟨_, hsw⟩
  · rw [hsw u hne, hhead]
    cases hu : s.threads[u]? with
    | none =>
      rw [hu] at h0
      exact h0
    | some l =>
      rw [hu] at h0
      have : stale s'.mem.nodes s.mem.head_ l = stale s.mem.nodes s.mem.head_ l := by
        cases l with
        | pushCas c =>
          simp only [stale]
          rw [hs.cand_frame hw hu hne]
        | idle => rfl
        | pushStart v => rfl
        | pushDone => rfl
        | popStart => rfl
        | popLoop x => cases x <;> rfl
        | popDone n => rfl
      simp only [this]
      exact h0
  · rw [hsw u hne]
    cases hu : s.threads[u]? with
    | none =>
      rw [hu] at h0
      simp only at h0 ⊢
      omega
    | some l =>
      rw [hu] at h0
      have h1 := stale_le_one s'.mem.nodes s'.mem.head_ l
      simp only at h0 ⊢
      omega

theorem stale_popLoop_head {α : Type} (nodes : List (Node α)) (head : Option Nat) :
    stale nodes head (Local.popLoop head : Local α) = 0 := by
  cases head with
  | none => rfl
  | some n => simp [stale]

theorem RetryOk.at_begin {α : Type} (k : Nat) : RetryOk (Sys.init k : Sys α) := by
  intro t
  cases h : (Sys.init k : Sys α).threads[t]? with
  | none => simp [Sys.init, failedOf, swapsByOthers, spuriousOf]
  | some l =>
    cases init_threads k t _ h
    simp [Sys.init, failedOf, swapsByOthers, spuriousOf, stale]

theorem RetryOk.preserved_retry {α : Type} {moved : α → α} {s s' : Sys α} {t : Nat}
    {a : Act α} (hw : WF s) (hr : RetryOk s) (hs : Step moved s t a s') : RetryOk s' := by
  intro u
  by_cases hut : u = t
  · subst hut
    have h0 := hr u
    cases hs with
    | callPush v ht =>
      rw [advance_threads_self ht]
      simp [failedOf, swapsByOthers, spuriousOf, stale]
    | callPop ht =>
      rw [advance_threads_self ht]
      simp [failedOf, swapsByOthers, spuriousOf, stale]
    | pushLoad v ht =>
      rw [advance_threads_self ht]
      rw [ht] at h0
      simp only [stale, add_zero] at h0
      simp [failedOf, swapsByOthers, spuriousOf, stale, h0]
    | pushOk c nd ht hc hh =>
      rw [advance_threads_self ht]
      rw [ht] at h0
      simp only [advance_hist, failedOf, swapsByOthers, spuriousOf, stale, if_true, zero_add,
        add_zero]
      omega
    | pushFail c nd b ht hc hh =>
      rw [advance_threads_self ht]
      rw [ht] at h0
      have hnode : (s.mem.setPrev c s.mem.head_).nodes[c]? =
          some { nd with prev := s.mem.head_ } := by
        simp only [Stack.setPrev]
        rw [List.getElem?_modify_eq, hc]
        rfl
      have hhd : (s.mem.setPrev c s.mem.head_).head_ = s.mem.head_ := rfl
      simp only [stale, hc] at h0
      simp only [advance_hist, advance_mem, failedOf, swapsByOthers, spuriousOf, stale, hnode,
        hhd, if_true, add_zero, true_and, decide_eq_true_eq]
      by_cases hp : s.mem.head_ = nd.prev
      · simp only [hp, if_true, add_zero] at h0 ⊢
        omega
      · simp only [hp, if_false] at h0 ⊢
        omega
    | pushRet ht =>
      rw [advance_threads_self ht]
      rw [ht] at h0
      simp only [advance_hist, failedOf, swapsByOthers, spuriousOf, stale, add_zero] at h0 ⊢
      exact h0
    | popLoad ht =>
      rw [advance_threads_self ht]
      rw [ht] at h0
      simp only [stale, add_zero] at h0
      simp only [advance_hist, advance_mem, failedOf, swapsByOthers, spuriousOf,
        stale_popLoop_head, add_zero]
      exact h0
    | popOk n nd ht hn hh =>
      rw [advance_threads_self ht]
      rw [ht] at h0
      simp only [advance_hist, failedOf, swapsByOthers, spuriousOf, stale, if_true, zero_add,
        add_zero]
      omega
    | popFail n nd b ht hn hh =>
      rw [advance_threads_self ht]
      rw [ht] at h0
      simp only [stale] at h0
      simp only [advance_hist, advance_mem, failedOf, swapsByOthers, spuriousOf,
        stale_popLoop_head, if_true, add_zero, true_and, decide_eq_true_eq]
      by_cases hp : s.mem.head_ = some n
      · simp only [hp, if_true, add_zero] at h0 ⊢
        omega
      · simp only [hp, if_false] at h0 ⊢
        omega
    | popRetEmpty ht =>
      rw [advance_threads_self ht]
      rw [ht] at h0
      simp only [advance_hist, failedOf, swapsByOthers, spuriousOf, stale, add_zero] at h0 ⊢
      exact h0
    | popRet n nd ht hn =>
      rw [advance_threads_self ht]
      rw [ht] at h0
      simp only [advance_hist, failedOf, swapsByOthers, spuriousOf, stale, add_zero] at h0 ⊢
      exact h0
  · exact RetryOk.frame_retry hs hw hr u hut

theorem Reachable.retryOk {α : Type} {moved : α → α} {k : Nat} {s : Sys α}
    (h : Reachable moved k s) : RetryOk s :=
  Reachable.induction RetryOk (RetryOk.at_begin k)
    (fun _ _ _ _ hr hp hs => RetryOk.preserved_retry hr.wf hp hs) s h

theorem swapsByOthers_le {α : Type} (t : Nat) (es : List (Event α)) :
    swapsByOthers t es ≤ swapCount es := by
  induction es with
  | nil => exact Nat.le_refl _
  | cons e es ih =>
    cases e with
    | inv u op =>
      simp only [swapsByOthers, swapCount]
      split <;> omega
    | pushed u c o =>
      simp only [swapsByOthers, swapCount]
      split <;> omega
    | popped u c o =>
      simp only [swapsByOthers, swapCount]
      split <;> omega
    | loaded u x => simpa [swapsByOthers, swapCount] using ih
    | failed u x b => simpa [swapsByOthers, swapCount] using ih
    | res u r => simpa [swapsByOthers, swapCount] using ih

theorem le_sum_map {β : Type} (g : β → Nat) :
    ∀ (l : List β) (t : Nat) (x : β), l[t]? = some x → g x ≤ (l.map g).sum := by
  intro l
  induction l with
  | nil => intro t x h; simp at h
  | cons a l ih =>
    intro t x h
    cases t with
    | zero =>
      simp only [List.getElem?_cons_zero, Option.some.injEq] at h
      subst h
      simp only [List.map_cons, List.sum_cons]
      omega
    | succ t =>
      simp only [List.getElem?_cons_succ] at h
      have := ih t x h
      simp only [List.map_cons, List.sum_cons]
      omega

theorem armed_le_one {α : Type} (l : Local α) : armed l ≤ 1 := by
  cases l with
  | popLoop x => cases x <;> simp [armed]
  | idle => simp [armed]
  | pushStart v => simp [armed]
  | pushCas c => simp [armed]
  | pushDone => simp [armed]
  | popStart => simp [armed]
  | popDone n => simp [armed]

theorem SwapOnce.at_begin_ok {α : Type} (k : Nat) : SwapOnce (Sys.init k : Sys α) := by
  have : ((Sys.init k : Sys α).threads.map armed).sum = 0 := by
    apply sum_map_zero
    intro x hx
    simp only [Sys.init] at hx
    rw [List.eq_of_mem_replicate hx]
    rfl
  simp only [SwapOnce, this]
  exact Nat.le_refl _

theorem SwapOnce.preserved_once {α : Type} {moved : α → α} {s s' : Sys α} {t : Nat}
    {a : Act α} (h : SwapOnce s) (hs : Step moved s t a s') : SwapOnce s' := by
  have key : ∀ (l0 l1 : Local α) (m : Stack α) (e : Event α), s.threads[t]? = some l0 →
      ((s.advance t m l1 e).threads.map armed).sum + armed l0 =
        (s.threads.map armed).sum + armed l1 := by
    intro l0 l1 m e ht
    exact sum_update armed armed s.threads t l0 l1 ht (fun _ _ _ _ => rfl)
  unfold SwapOnce at h ⊢
  cases hs with
  | callPush v ht =>
    have := key _ (Local.pushStart v) s.mem (Event.inv t (Op.push v)) ht
    simp only [armed, advance_hist, swapCount, invCount] at this ⊢
    omega
  | callPop ht =>
    have := key _ Local.popStart s.mem (Event.inv t Op.pop) ht
    simp only [armed, advance_hist, swapCount, invCount] at this ⊢
    omega
  | pushLoad v ht =>
    have := key _ (Local.pushCas s.mem.nodes.length)
      ⟨s.mem.nodes ++ [⟨v, s.mem.head_⟩], s.mem.head_⟩ (Event.loaded t s.mem.head_) ht
    simp only [armed, advance_hist, swapCount, invCount] at this ⊢
    omega
  | pushOk c nd ht hc hh =>
    have := key _ Local.pushDone { s.mem with head_ := some c } (Event.pushed t c nd.prev) ht
    simp only [armed, advance_hist, swapCount, invCount] at this ⊢
    omega
  | pushFail c nd b ht hc hh =>
    have := key _ (Local.pushCas c) (s.mem.setPrev c s.mem.head_)
      (Event.failed t s.mem.head_ (decide (s.mem.head_ = nd.prev))) ht
    simp only [armed, advance_hist, swapCount, invCount] at this ⊢
    omega
  | pushRet ht =>
    have := key _ Local.idle s.mem (Event.res t none) ht
    simp only [armed, advance_hist, swapCount, invCount] at this ⊢
    omega
  | popLoad ht =>
    have := key _ (Local.popLoop s.mem.head_) s.mem (Event.loaded t s.mem.head_) ht
    have h1 := armed_le_one (Local.popLoop s.mem.head_ : Local α)
    have h2 : armed (Local.popStart : Local α) = 1 := rfl
    rw [h2] at this
    simp only [advance_hist, swapCount, invCount] at this ⊢
    omega
  | popOk n nd ht hn hh =>
    have := key _ (Local.popDone n) { s.mem with head_ := nd.prev }
      (Event.popped t n nd.prev) ht
    simp only [armed, advance_hist, swapCount, invCount] at this ⊢
    omega
  | popFail n nd b ht hn hh =>
    have := key _ (Local.popLoop s.mem.head_) s.mem
      (Event.failed t s.mem.head_ (decide (s.mem.head_ = some n))) ht
    have h1 := armed_le_one (Local.popLoop s.mem.head_ : Local α)
    have h2 : armed (Local.popLoop (some n) : Local α) = 1 := rfl
    rw [h2] at this
    simp only [advance_hist, swapCount, invCount] at this ⊢
    omega
  | popRetEmpty ht =>
    have := key _ Local.idle s.mem (Event.res t none) ht
    simp only [armed, advance_hist, swapCount, invCount] at this ⊢
    omega
  | popRet n nd ht hn =>
    have := key _ Local.idle (s.mem.setValue n (moved nd.value))
      (Event.res t (some nd.value)) ht
    simp only [armed, advance_hist, swapCount, invCount] at this ⊢
    omega

theorem Reachable.swapOnce {α : Type} {moved : α → α} {k : Nat} {s : Sys α}
    (h : Reachable moved k s) : SwapOnce s :=
  Reachable.induction SwapOnce (SwapOnce.at_begin_ok k)
    (fun _ _ _ _ _ hp hs => SwapOnce.preserved_once hp hs) s h

/-! ## A call that runs alone returns -/

theorem Finishes.now {α : Type} (moved : α → α) {s : Sys α} {t : Nat}
    (h : s.threads[t]? = some Local.idle) : Finishes moved s t 0 :=
  ⟨[], s, Nat.le_refl _, fun x hx => (by cases hx), rfl, h⟩

theorem Finishes.cons {α : Type} {moved : α → α} {s s1 : Sys α} {t n : Nat} {a : Act α}
    (hs : Step moved s t a s1) (ha : a ≠ Act.cas true) (h : Finishes moved s1 t n) :
    Finishes moved s t (n + 1) := by
  obtain ⟨sched, s', h1, h2, h3, h4⟩ := h
  refine ⟨(t, a) :: sched, s', by simp only [List.length_cons]; omega, ?_, ?_, h4⟩
  · intro x hx
    rcases List.mem_cons.mp hx with rfl | hx
    · exact ⟨rfl, ha⟩
    · exact h2 x hx
  · simp only [exec, (step_iff _ _ _ _ _).mpr hs]
    exact h3

theorem Finishes.mono {α : Type} {moved : α → α} {s : Sys α} {t n m : Nat} (hnm : n ≤ m)
    (h : Finishes moved s t n) : Finishes moved s t m := by
  obtain ⟨sched, s', h1, h2, h3, h4⟩ := h
  exact ⟨sched, s', Nat.le_trans h1 hnm, h2, h3, h4⟩

theorem Finishes.of_pushDone {α : Type} (moved : α → α) {s : Sys α} {t : Nat}
    (h : s.threads[t]? = some Local.pushDone) : Finishes moved s t 1 :=
  Finishes.cons (Step.pushRet h) (by simp) (Finishes.now moved (advance_threads_self h _ _ _))

theorem Finishes.of_popDone {α : Type} (moved : α → α) {s : Sys α} {t n : Nat} {nd : Node α}
    (h : s.threads[t]? = some (Local.popDone n)) (hn : s.mem.nodes[n]? = some nd) :
    Finishes moved s t 1 :=
  Finishes.cons (Step.popRet n nd h hn) (by simp)
    (Finishes.now moved (advance_threads_self h _ _ _))

theorem Finishes.of_popLoop_none {α : Type} (moved : α → α) {s : Sys α} {t : Nat}
    (h : s.threads[t]? = some (Local.popLoop none)) : Finishes moved s t 1 :=
  Finishes.cons (Step.popRetEmpty h) (by simp)
    (Finishes.now moved (advance_threads_self h _ _ _))

theorem Finishes.of_pushCas_fresh {α : Type} (moved : α → α) {s : Sys α} {t c : Nat}
    {nd : Node α} (h : s.threads[t]? = some (Local.pushCas c))
    (hc : s.mem.nodes[c]? = some nd) (hh : s.mem.head_ = nd.prev) : Finishes moved s t 2 :=
  Finishes.cons (Step.pushOk c nd h hc hh) (by simp)
    (Finishes.of_pushDone moved (advance_threads_self h _ _ _))

theorem Finishes.of_pushCas {α : Type} (moved : α → α) {s : Sys α} {t c : Nat}
    {nd : Node α} (h : s.threads[t]? = some (Local.pushCas c))
    (hc : s.mem.nodes[c]? = some nd) : Finishes moved s t 3 := by
  by_cases hh : s.mem.head_ = nd.prev
  · exact (Finishes.of_pushCas_fresh moved h hc hh).mono (by omega)
  · refine Finishes.cons (Step.pushFail c nd false h hc (Or.inl hh)) (by simp) ?_
    have hnode : (s.advance t (s.mem.setPrev c s.mem.head_) (Local.pushCas c)
        (Event.failed t s.mem.head_ (decide (s.mem.head_ = nd.prev)))).mem.nodes[c]? =
        some { nd with prev := s.mem.head_ } := by
      simp only [advance_mem, Stack.setPrev]
      rw [List.getElem?_modify_eq, hc]
      rfl
    exact Finishes.of_pushCas_fresh moved (advance_threads_self h _ _ _) hnode rfl

theorem Finishes.of_popLoop_fresh {α : Type} (moved : α → α) {s : Sys α} {t : Nat}
    (hw : WF s) (h : s.threads[t]? = some (Local.popLoop s.mem.head_)) :
    Finishes moved s t 2 := by
  cases hh : s.mem.head_ with
  | none =>
    rw [hh] at h
    exact (Finishes.of_popLoop_none moved h).mono (by omega)
  | some n =>
    rw [hh] at h
    have hlt := hw.pubLt n (hw.head_pub hh).1
    have hn : s.mem.nodes[n]? = some s.mem.nodes[n] := List.getElem?_eq_getElem hlt
    exact Finishes.cons (Step.popOk n _ h hn hh) (by simp)
      (Finishes.of_popDone moved (advance_threads_self h _ _ _) hn)

/-- From any well-formed state, the call a thread is in returns within three of its own
steps when nobody else runs and no compare-and-swap fails spuriously. -/
theorem solo_returns {α : Type} (moved : α → α) {s : Sys α} {t : Nat} {l : Local α}
    (hw : WF s) (h : s.threads[t]? = some l) : Finishes moved s t 3 := by
  cases l with
  | idle => exact (Finishes.now moved h).mono (by omega)
  | pushStart v =>
    refine Finishes.cons (Step.pushLoad v h) (by simp) ?_
    have hnode : (s.advance t ⟨s.mem.nodes ++ [⟨v, s.mem.head_⟩], s.mem.head_⟩
        (Local.pushCas s.mem.nodes.length) (Event.loaded t s.mem.head_)).mem.nodes[
          s.mem.nodes.length]? = some ⟨v, s.mem.head_⟩ := by
      simp
    exact Finishes.of_pushCas_fresh moved (advance_threads_self h _ _ _) hnode rfl
  | pushCas c =>
    have hlt := (hw.cand t c h).1
    exact Finishes.of_pushCas moved h (List.getElem?_eq_getElem hlt)
  | pushDone => exact (Finishes.of_pushDone moved h).mono (by omega)
  | popStart =>
    have hS : Step moved s t _ _ := Step.popLoad h
    exact Finishes.cons hS (by simp)
      (Finishes.of_popLoop_fresh moved (hw.preserved hS) (advance_threads_self h _ _ _))
  | popLoop x =>
    cases x with
    | none => exact (Finishes.of_popLoop_none moved h).mono (by omega)
    | some n =>
      have hlt := hw.pubLt n (hw.popObs t n h)
      have hn : s.mem.nodes[n]? = some s.mem.nodes[n] := List.getElem?_eq_getElem hlt
      by_cases hh : s.mem.head_ = some n
      · exact (Finishes.cons (Step.popOk n _ h hn hh) (by simp)
          (Finishes.of_popDone moved (advance_threads_self h _ _ _) hn)).mono (by omega)
      · have hS : Step moved s t _ _ := Step.popFail n _ false h hn (Or.inl hh)
        exact Finishes.cons hS (by simp)
          (Finishes.of_popLoop_fresh moved (hw.preserved hS) (advance_threads_self h _ _ _))
  | popDone n =>
    have hlt := hw.pubLt n (hw.popPub n (hw.popHeld t n h))
    exact (Finishes.of_popDone moved h (List.getElem?_eq_getElem hlt)).mono (by omega)

/-- C8, as stated, fails.  One thread alone pushes onto the fresh stack and its weak
compare-and-swap fails spuriously three times: the call has three failed attempts, no other
call has changed the head, and the call is still in its loop. -/
theorem progress_counterexample :
    (exec id (Sys.init 1 : Sys Nat)
        [(0, Act.call (Op.push 7)), (0, Act.load), (0, Act.cas true), (0, Act.cas true),
          (0, Act.cas true)]).map
      (fun s => (failedOf 0 s.hist, swapsByOthers 0 s.hist, s.threads, s.mem.head_)) =
      some (3, 0, [Local.pushCas 0], none) := by
  decide

/-- C8, amended.  In every concurrent execution, the failed compare-and-swap attempts of a
call are bounded by the successful head changes made by other threads during the call plus
the attempts of the call that failed spuriously; every call changes the head at most once,
so the head changes are at most the calls invoked, and fewer while the call is still
retrying; and at every moment the call would return within three of its own steps if it ran
alone without spurious failure.  With finitely many calls and finitely many spurious
failures each retry loop therefore performs finitely many iterations. -/
theorem progress_amended {α : Type} (moved : α → α) (k : Nat) (s : Sys α) (t : Nat)
    (l : Local α) (hr : Reachable moved k s) (ht : s.threads[t]? = some l) :
    failedOf t s.hist ≤ swapsByOthers t s.hist + spuriousOf t s.hist ∧
    swapsByOthers t s.hist ≤ swapCount s.hist ∧
    swapCount s.hist + armed l ≤ invCount s.hist ∧
    Finishes moved s t 3 := by
  refine ⟨?_, swapsByOthers_le t s.hist, ?_, solo_returns moved hr.wf ht⟩
  · have := hr.retryOk t
    omega
  · have h1 := hr.swapOnce
    have h2 := le_sum_map armed s.threads t l ht
    unfold SwapOnce at h1
    omega

theorem progress_amended_witness :
    failedOf 0 demoRace.hist ≤ swapsByOthers 0 demoRace.hist + spuriousOf 0 demoRace.hist ∧
    swapsByOthers 0 demoRace.hist ≤ swapCount demoRace.hist ∧
    swapCount demoRace.hist + armed (Local.pushCas 0 : Local Nat) ≤ invCount demoRace.hist ∧
    Finishes id demoRace 0 3 :=
  progress_amended id 2 demoRace 0 (Local.pushCas 0) demoRace_reachable (by decide)

/-! ## Linearizability -/

theorem linOf_tid {α : Type} (e : Event α) (es : List (Event α)) (t : Nat) (op : Op α)
    (h : linOf e es = some (t, op)) : t = Event.tid e := by
  cases e with
  | inv u o => simp [linOf] at h
  | res u r => simp [linOf] at h
  | pushed u c o =>
    simp only [linOf] at h
    split at h
    · simp only [Option.some.injEq, Prod.mk.injEq] at h
      exact h.1.symm
    · cases h
  | popped u c o =>
    simp only [linOf, Option.some.injEq, Prod.mk.injEq] at h
    exact h.1.symm
  | loaded u x =>
    cases x with
    | some n => simp [linOf] at h
    | none =>
      simp only [linOf] at h
      split at h
      · simp only [Option.some.injEq, Prod.mk.injEq] at h
        exact h.1.symm
      · cases h
  | failed u x b =>
    cases x with
    | some n => simp [linOf] at h
    | none =>
      simp only [linOf] at h
      split at h
      · simp only [Option.some.injEq, Prod.mk.injEq] at h
        exact h.1.symm
      · cases h

theorem linOf_loaded_push {α : Type} (es : List (Event α)) (t : Nat) (x : Option Nat) (v : α)
    (h : opOf es t = some (Op.push v)) : linOf (Event.loaded t x) es = none := by
  cases x <;> simp [linOf, h]

theorem linOf_failed_push {α : Type} (es : List (Event α)) (t : Nat) (x : Option Nat)
    (b : Bool) (v : α) (h : opOf es t = some (Op.push v)) :
    linOf (Event.failed t x b) es = none := by
  cases x <;> simp [linOf, h]

theorem linOf_loaded_pop {α : Type} (es : List (Event α)) (t : Nat) (x : Option Nat)
    (h : opOf es t = some Op.pop) :
    linOf (Event.loaded t x) es = if x = none then some (t, Op.pop) else none := by
  cases x <;> simp [linOf, h]

theorem linOf_failed_pop {α : Type} (es : List (Event α)) (t : Nat) (x : Option Nat)
    (b : Bool) (h : opOf es t = some Op.pop) :
    linOf (Event.failed t x b) es = if x = none then some (t, Op.pop) else none := by
  cases x <;> simp [linOf, h]

theorem absStack_cons_none {α : Type} (e : Event α) (es : List (Event α))
    (h : linOf e es = none) : absStack (e :: es) = absStack es := by
  simp only [absStack, h]

theorem absStack_cons_some {α : Type} (e : Event α) (es : List (Event α)) (t : Nat)
    (op : Op α) (h : linOf e es = some (t, op)) :
    absStack (e :: es) = (specStep (absStack es) op).1 := by
  simp only [absStack, h]

theorem linHist_cons_none {α : Type} (e : Event α) (es : List (Event α))
    (h : linOf e es = none) : linHist (e :: es) = linHist es := by
  simp only [linHist, h]

theorem linHist_cons_some {α : Type} (e : Event α) (es : List (Event α)) (t : Nat)
    (op : Op α) (h : linOf e es = some (t, op)) :
    linHist (e :: es) = (t, op, (specStep (absStack es) op).2) :: linHist es := by
  simp only [linHist, h]

theorem chain_of_head_none {α : Type} {nodes : List (Node α)} {p : Option Nat} {l : List Nat}
    (h : Chain nodes p l) (hp : p = none) : l = [] := by
  subst hp
  cases h
  rfl

/-- The chain below the head follows the sequential stack: a step that is a linearization
point does to the values on the chain what its operation does to the sequential stack, and
any other step leaves the values on the chain as they are. -/
theorem Lin.abs_step {α : Type} {moved : α → α} {s s' : Sys α} {t : Nat} {a : Act α}
    (hw : WF s) (hb : Book s)
    (habs : ∀ l, Chain s.mem.nodes s.mem.head_ l → absStack s.hist = valuesOf s.mem.nodes l)
    (hs : Step moved s t a s') :
    ∀ l, Chain s'.mem.nodes s'.mem.head_ l → absStack s'.hist = valuesOf s'.mem.nodes l := by
  obtain ⟨l, hl, hp⟩ := hw.chain
  have hA := habs l hl
  intro l' hl'
  cases hs with
  | callPush v ht =>
    cases hl.unique hl'
    exact hA
  | callPop ht =>
    cases hl.unique hl'
    exact hA
  | pushRet ht =>
    cases hl.unique hl'
    exact hA
  | popRetEmpty ht =>
    cases hl.unique hl'
    exact hA
  | pushLoad v ht =>
    have h0 := hb t _ ht
    simp only [Booked] at h0
    cases (hl.append [⟨v, s.mem.head_⟩]).unique hl'
    rw [advance_hist, absStack_cons_none _ _ (linOf_loaded_push _ _ _ _ h0.1), hA]
    exact (valuesOf_append _ _ _ hl.lt_length).symm
  | pushOk c nd ht hc hh =>
    obtain ⟨nd', h1, h2, _, _⟩ := hb t _ ht
    rw [hc] at h1
    cases h1
    have hcons : Chain s.mem.nodes (some c) (c :: l) := Chain.cons hc (hh ▸ hl)
    cases hcons.unique hl'
    have hlin : linOf (Event.pushed t c nd.prev) s.hist = some (t, Op.push nd.value) := by
      simp only [linOf, h2]
    rw [advance_hist, absStack_cons_some _ _ _ _ hlin, hA]
    simp [specStep, valuesOf, List.filterMap_cons, hc]
  | pushFail c nd b ht hc hh =>
    obtain ⟨nd', h1, h2, _, _⟩ := hb t _ ht
    have hcl : c ∉ l := by
      intro hmem
      have := (hp c hmem).1
      rw [(hw.cand t c ht).2] at this
      cases this
    cases (hl.modify_of_not_mem (fun x => { x with prev := s.mem.head_ }) c hcl).unique hl'
    rw [advance_hist, absStack_cons_none _ _ (linOf_failed_push _ _ _ _ _ h2), hA]
    exact (valuesOf_modify _ _ _ _ hcl).symm
  | popLoad ht =>
    have h0 := hb t _ ht
    simp only [Booked] at h0
    cases hl.unique hl'
    rw [advance_hist]
    by_cases hh : s.mem.head_ = none
    · have hlin : linOf (Event.loaded t s.mem.head_) s.hist = some (t, Op.pop) := by
        rw [linOf_loaded_pop _ _ _ h0.1, if_pos hh]
      rw [absStack_cons_some _ _ _ _ hlin, hA]
      cases chain_of_head_none hl hh
      rfl
    · have hlin : linOf (Event.loaded t s.mem.head_) s.hist = none := by
        rw [linOf_loaded_pop _ _ _ h0.1, if_neg hh]
      rw [absStack_cons_none _ _ hlin]
      exact hA
  | popFail n nd b ht hn hh' =>
    have h0 := hb t _ ht
    simp only [Booked] at h0
    cases hl.unique hl'
    rw [advance_hist]
    by_cases hh : s.mem.head_ = none
    · have hlin : linOf (Event.failed t s.mem.head_ (decide (s.mem.head_ = some n))) s.hist =
          some (t, Op.pop) := by
        rw [linOf_failed_pop _ _ _ _ h0.1, if_pos hh]
      rw [absStack_cons_some _ _ _ _ hlin, hA]
      cases chain_of_head_none hl hh
      rfl
    · have hlin : linOf (Event.failed t s.mem.head_ (decide (s.mem.head_ = some n))) s.hist =
          none := by
        rw [linOf_failed_pop _ _ _ _ h0.1, if_neg hh]
      rw [absStack_cons_none _ _ hlin]
      exact hA
  | popOk n nd ht hn hh =>
    have hl1 := hl
    rw [hh] at hl1
    cases hl1 with
    | @cons _ nd1 l1 hn1 hc1 =>
      rw [hn] at hn1
      cases hn1
      cases hc1.unique hl'
      have hlin : linOf (Event.popped t n nd.prev) s.hist = some (t, Op.pop) := rfl
      rw [advance_hist, absStack_cons_some _ _ _ _ hlin, hA]
      simp [specStep, valuesOf, List.filterMap_cons, hn]
  | popRet n nd ht hn =>
    have hnl : n ∉ l := by
      intro hmem
      have := (hp n hmem).2
      rw [hw.popHeld t n ht] at this
      cases this
    cases (hl.modify_of_prev (fun x => { x with value := moved nd.value }) n
      (fun _ => rfl)).unique hl'
    have hlin : linOf (Event.res t (some nd.value)) s.hist = none := rfl
    rw [advance_hist, absStack_cons_none _ _ hlin, hA]
    exact (valuesOf_modify _ _ _ _ hnl).symm

theorem invOps_cons_ne {α : Type} (e : Event α) (es : List (Event α)) (u : Nat)
    (h : Event.tid e ≠ u) : invOps u (e :: es) = invOps u es := by
  cases e <;> (simp only [Event.tid] at h; simp [invOps, h])

theorem resOf_cons_ne {α : Type} (e : Event α) (es : List (Event α)) (u : Nat)
    (h : Event.tid e ≠ u) : resOf u (e :: es) = resOf u es := by
  cases e <;> (simp only [Event.tid] at h; simp [resOf, h])

theorem invOps_inv_self {α : Type} (t : Nat) (op : Op α) (es : List (Event α)) :
    invOps t (Event.inv t op :: es) = op :: invOps t es := by
  simp [invOps, List.filterMap_cons]

theorem resOf_res_self {α : Type} (t : Nat) (r : Option α) (es : List (Event α)) :
    resOf t (Event.res t r :: es) = r :: resOf t es := by
  simp [resOf, List.filterMap_cons]

theorem invOps_cons_other {α : Type} (e : Event α) (es : List (Event α)) (t : Nat)
    (h : ∀ u op, e ≠ Event.inv u op) : invOps t (e :: es) = invOps t es := by
  cases e with
  | inv u op => exact absurd rfl (h u op)
  | loaded u x => simp [invOps, List.filterMap_cons]
  | pushed u c o => simp [invOps, List.filterMap_cons]
  | popped u c o => simp [invOps, List.filterMap_cons]
  | failed u x b => simp [invOps, List.filterMap_cons]
  | res u r => simp [invOps, List.filterMap_cons]

theorem resOf_cons_other {α : Type} (e : Event α) (es : List (Event α)) (t : Nat)
    (h : ∀ u r, e ≠ Event.res u r) : resOf t (e :: es) = resOf t es := by
  cases e with
  | res u r => exact absurd rfl (h u r)
  | loaded u x => simp [resOf, List.filterMap_cons]
  | pushed u c o => simp [resOf, List.filterMap_cons]
  | popped u c o => simp [resOf, List.filterMap_cons]
  | failed u x b => simp [resOf, List.filterMap_cons]
  | inv u op => simp [resOf, List.filterMap_cons]

theorem linOps_cons_none {α : Type} (e : Event α) (es : List (Event α)) (t : Nat)
    (h : linOf e es = none) :
    linOpsOf t (linHist (e :: es)) = linOpsOf t (linHist es) ∧
      linResOf t (linHist (e :: es)) = linResOf t (linHist es) := by
  rw [linHist_cons_none _ _ h]
  exact ⟨rfl, rfl⟩

theorem linOps_cons_self {α : Type} (e : Event α) (es : List (Event α)) (t : Nat) (op : Op α)
    (h : linOf e es = some (t, op)) :
    linOpsOf t (linHist (e :: es)) = op :: linOpsOf t (linHist es) ∧
      linResOf t (linHist (e :: es)) =
        (specStep (absStack es) op).2 :: linResOf t (linHist es) := by
  rw [linHist_cons_some _ _ _ _ h]
  simp [linOpsOf, linResOf, List.filterMap_cons]

theorem linOps_cons_ne {α : Type} (e : Event α) (es : List (Event α)) (u : Nat)
    (h : Event.tid e ≠ u) :
    linOpsOf u (linHist (e :: es)) = linOpsOf u (linHist es) ∧
      linResOf u (linHist (e :: es)) = linResOf u (linHist es) := by
  cases hlin : linOf e es with
  | none => exact linOps_cons_none _ _ _ hlin
  | some x =>
    obtain ⟨t, op⟩ := x
    have ht := linOf_tid _ _ _ _ hlin
    have hne : ¬ t = u := by rw [ht]; exact h
    rw [linHist_cons_some _ _ _ _ hlin]
    simp [linOpsOf, linResOf, List.filterMap_cons, hne]

/-- Steps of other threads do not move a thread to another phase. -/
theorem LinPhase.frame_other {α : Type} {moved : α → α} {s s' : Sys α} {t : Nat} {a : Act α}
    (hs : Step moved s t a s') (hw : WF s) {u : Nat} (hne : u ≠ t)
    (h : LinPhase s.mem.nodes s.hist u s.threads[u]?) :
    LinPhase s'.mem.nodes s'.hist u s'.threads[u]? := by
  obtain ⟨l0, m, l1, e, ht, hs', he⟩ := hs.shape
  have hne' : Event.tid e ≠ u := by rw [he]; exact fun h => hne h.symm
  have hthr : s'.threads[u]? = s.threads[u]? := by
    rw [hs', advance_threads_ne ht _ _ _ hne]
  have hio : invOps u s'.hist = invOps u s.hist := by
    rw [hs', advance_hist, invOps_cons_ne _ _ _ hne']
  have hro : resOf u s'.hist = resOf u s.hist := by
    rw [hs', advance_hist, resOf_cons_ne _ _ _ hne']
  have hlo : linOpsOf u (linHist s'.hist) = linOpsOf u (linHist s.hist) := by
    rw [hs', advance_hist, (linOps_cons_ne _ _ _ hne').1]
  have hlr : linResOf u (linHist s'.hist) = linResOf u (linHist s.hist) := by
    rw [hs', advance_hist, (linOps_cons_ne _ _ _ hne').2]
  have hop : opOf s'.hist u = opOf s.hist u := by
    rw [hs', advance_hist, opOf_cons_ne _ _ _ hne']
  rw [hthr]
  cases hu : s.threads[u]? with
  | none =>
    rw [hu] at h
    simp only [LinPhase, hio, hro, hlo, hlr] at h ⊢
    exact h
  | some l =>
    rw [hu] at h
    cases l with
    | popDone n =>
      simp only [LinPhase, hio, hro, hlo, hlr] at h ⊢
      rw [hs.held_frame hw hu hne]
      exact h
    | popLoop x =>
      cases x <;> simp only [LinPhase, hio, hro, hlo, hlr, hop] at h ⊢ <;> exact h
    | idle =>
      simp only [LinPhase, hio, hro, hlo, hlr, hop] at h ⊢
      exact h
    | pushStart v =>
      simp only [LinPhase, hio, hro, hlo, hlr, hop] at h ⊢
      exact h
    | pushCas c =>
      simp only [LinPhase, hio, hro, hlo, hlr, hop] at h ⊢
      exact h
    | pushDone =>
      simp only [LinPhase, hio, hro, hlo, hlr, hop] at h ⊢
      exact h
    | popStart =>
      simp only [LinPhase, hio, hro, hlo, hlr, hop] at h ⊢
      exact h

theorem opOf_cons_other {α : Type} (e : Event α) (es : List (Event α)) (t : Nat)
    (h : ∀ u op, e ≠ Event.inv u op) : opOf (e :: es) t = opOf es t := by
  cases e with
  | inv u op => exact absurd rfl (h u op)
  | loaded u x => rfl
  | pushed u c o => rfl
  | popped u c o => rfl
  | failed u x b => rfl
  | res u r => rfl

/-- A step of a thread that is no linearization point, no invocation and no return leaves it
in the phase before its linearization point. -/
theorem LinPhase.stay_before {α : Type} {es : List (Event α)} {t : Nat} {e : Event α}
    (hlin : linOf e es = none) (h1 : ∀ u op, e ≠ Event.inv u op)
    (h2 : ∀ u r, e ≠ Event.res u r)
    (h : ∃ op, opOf es t = some op ∧ invOps t es = op :: linOpsOf t (linHist es) ∧
      resOf t es = linResOf t (linHist es)) :
    ∃ op, opOf (e :: es) t = some op ∧
      invOps t (e :: es) = op :: linOpsOf t (linHist (e :: es)) ∧
      resOf t (e :: es) = linResOf t (linHist (e :: es)) := by
  obtain ⟨op, hop, hio, hro⟩ := h
  refine ⟨op, ?_, ?_, ?_⟩
  · rw [opOf_cons_other _ _ _ h1, hop]
  · rw [invOps_cons_other _ _ _ h1, (linOps_cons_none _ _ _ hlin).1, hio]
  · rw [resOf_cons_other _ _ _ h2, (linOps_cons_none _ _ _ hlin).2, hro]

/-- The linearization point of a call moves its thread to the phase after it, with the result
the sequential stack gives. -/
theorem LinPhase.pass {α : Type} {es : List (Event α)} {t : Nat} {e : Event α} {op : Op α}
    (hlin : linOf e es = some (t, op)) (h1 : ∀ u op, e ≠ Event.inv u op)
    (h2 : ∀ u r, e ≠ Event.res u r) (hop : opOf es t = some op)
    (h : ∃ op, opOf es t = some op ∧ invOps t es = op :: linOpsOf t (linHist es) ∧
      resOf t es = linResOf t (linHist es)) :
    invOps t (e :: es) = linOpsOf t (linHist (e :: es)) ∧
      linResOf t (linHist (e :: es)) = (specStep (absStack es) op).2 :: resOf t (e :: es) := by
  obtain ⟨op', hop', hio, hro⟩ := h
  rw [hop] at hop'
  cases hop'
  constructor
  · rw [invOps_cons_other _ _ _ h1, (linOps_cons_self _ _ _ _ hlin).1, hio]
  · rw [resOf_cons_other _ _ _ h2, (linOps_cons_self _ _ _ _ hlin).2, hro]

/-- The return of a call moves its thread from the phase after the linearization point to
rest. -/
theorem LinPhase.settle {α : Type} {es : List (Event α)} {t : Nat} {r : Option α}
    (hio : invOps t es = linOpsOf t (linHist es))
    (hlr : linResOf t (linHist es) = r :: resOf t es) :
    invOps t (Event.res t r :: es) = linOpsOf t (linHist (Event.res t r :: es)) ∧
      resOf t (Event.res t r :: es) = linResOf t (linHist (Event.res t r :: es)) := by
  have hlin : linOf (Event.res t r) es = none := rfl
  constructor
  · rw [invOps_cons_other _ _ _ (fun u op h => by cases h),
      (linOps_cons_none _ _ _ hlin).1, hio]
  · rw [resOf_res_self, (linOps_cons_none _ _ _ hlin).2, hlr]

/-- An invocation moves its thread from rest to the phase before the linearization point. -/
theorem LinPhase.start {α : Type} {es : List (Event α)} {t : Nat} (op : Op α)
    (h : invOps t es = linOpsOf t (linHist es) ∧ resOf t es = linResOf t (linHist es)) :
    ∃ op', opOf (Event.inv t op :: es) t = some op' ∧
      invOps t (Event.inv t op :: es) = op' :: linOpsOf t (linHist (Event.inv t op :: es)) ∧
      resOf t (Event.inv t op :: es) = linResOf t (linHist (Event.inv t op :: es)) := by
  have hlin : linOf (Event.inv t op) es = none := rfl
  refine ⟨op, by simp [opOf], ?_, ?_⟩
  · rw [invOps_inv_self, (linOps_cons_none _ _ _ hlin).1, h.1]
  · rw [resOf_cons_other _ _ _ (fun u r h => by cases h),
      (linOps_cons_none _ _ _ hlin).2, h.2]

theorem LinPhase.own_step {α : Type} {moved : α → α} {s s' : Sys α} {t : Nat} {a : Act α}
    (hw : WF s) (hb : Book s) (hL : Lin s) (hs : Step moved s t a s') :
    LinPhase s'.mem.nodes s'.hist t s'.threads[t]? := by
  obtain ⟨l, hl, hp⟩ := hw.chain
  have hA := hL.abs l hl
  have h0 := hL.phase t
  cases hs with
  | callPush v ht =>
    rw [ht] at h0
    rw [advance_threads_self ht]
    exact LinPhase.start _ h0
  | callPop ht =>
    rw [ht] at h0
    rw [advance_threads_self ht]
    exact LinPhase.start _ h0
  | pushLoad v ht =>
    rw [ht] at h0
    rw [advance_threads_self ht]
    have hb0 := hb t _ ht
    simp only [Booked] at hb0
    exact LinPhase.stay_before (linOf_loaded_push _ _ _ _ hb0.1) (fun u op h => by cases h)
      (fun u r h => by cases h) h0
  | pushOk c nd ht hc hh =>
    rw [ht] at h0
    rw [advance_threads_self ht]
    obtain ⟨nd', h1, h2, _, _⟩ := hb t _ ht
    have hlin : linOf (Event.pushed t c nd.prev) s.hist = some (t, Op.push nd'.value) := by
      simp only [linOf, h2]
    have := LinPhase.pass hlin (fun u op h => by cases h) (fun u r h => by cases h) h2 h0
    have hpush : (specStep (absStack s.hist) (Op.push nd'.value)).2 = none := by
      cases absStack s.hist <;> rfl
    rw [hpush] at this
    exact this
  | pushFail c nd b ht hc hh =>
    rw [ht] at h0
    rw [advance_threads_self ht]
    obtain ⟨nd', h1, h2, _, _⟩ := hb t _ ht
    exact LinPhase.stay_before (linOf_failed_push _ _ _ _ _ h2) (fun u op h => by cases h)
      (fun u r h => by cases h) h0
  | pushRet ht =>
    rw [ht] at h0
    rw [advance_threads_self ht]
    exact LinPhase.settle h0.1 h0.2
  | popLoad ht =>
    rw [ht] at h0
    rw [advance_threads_self ht]
    have hb0 := hb t _ ht
    simp only [Booked] at hb0
    cases hh : s.mem.head_ with
    | none =>
      have hlin : linOf (Event.loaded t s.mem.head_) s.hist = some (t, Op.pop) := by
        rw [linOf_loaded_pop _ _ _ hb0.1, if_pos hh]
      have := LinPhase.pass hlin (fun u op h => by cases h) (fun u r h => by cases h) hb0.1 h0
      cases chain_of_head_none hl hh
      rw [hA] at this
      rw [hh] at this
      exact this
    | some n =>
      have hlin : linOf (Event.loaded t s.mem.head_) s.hist = none := by
        rw [linOf_loaded_pop _ _ _ hb0.1, if_neg (by rw [hh]; simp)]
      have := LinPhase.stay_before hlin (fun u op h => by cases h) (fun u r h => by cases h) h0
      rw [hh] at this
      exact this
  | popFail n nd b ht hn hh' =>
    rw [ht] at h0
    rw [advance_threads_self ht]
    have hb0 := hb t _ ht
    simp only [Booked] at hb0
    cases hh : s.mem.head_ with
    | none =>
      have hlin : linOf (Event.failed t s.mem.head_ (decide (s.mem.head_ = some n))) s.hist =
          some (t, Op.pop) := by
        rw [linOf_failed_pop _ _ _ _ hb0.1, if_pos hh]
      have := LinPhase.pass hlin (fun u op h => by cases h) (fun u r h => by cases h) hb0.1 h0
      cases chain_of_head_none hl hh
      rw [hA] at this
      rw [hh] at this
      exact this
    | some m =>
      have hlin : linOf (Event.failed t s.mem.head_ (decide (s.mem.head_ = some n))) s.hist =
          none := by
        rw [linOf_failed_pop _ _ _ _ hb0.1, if_neg (by rw [hh]; simp)]
      have := LinPhase.stay_before hlin (fun u op h => by cases h) (fun u r h => by cases h) h0
      rw [hh] at this
      exact this
  | popOk n nd ht hn hh =>
    rw [ht] at h0
    rw [advance_threads_self ht]
    have hb0 := hb t _ ht
    simp only [Booked] at hb0
    have hlin : linOf (Event.popped t n nd.prev) s.hist = some (t, Op.pop) := rfl
    have := LinPhase.pass hlin (fun u op h => by cases h) (fun u r h => by cases h) hb0.1 h0
    have hl1 := hl
    rw [hh] at hl1
    cases hl1 with
    | @cons _ nd1 l1 hn1 hc1 =>
      rw [hn] at hn1
      cases hn1
      have hv : valuesOf s.mem.nodes (n :: l1) = nd.value :: valuesOf s.mem.nodes l1 := by
        simp [valuesOf, List.filterMap_cons, hn]
      rw [hA, hv] at this
      exact ⟨this.1, nd, hn, this.2⟩
  | popRetEmpty ht =>
    rw [ht] at h0
    rw [advance_threads_self ht]
    exact LinPhase.settle h0.1 h0.2
  | popRet n nd ht hn =>
    rw [ht] at h0
    rw [advance_threads_self ht]
    obtain ⟨h1, nd', h2, h3⟩ := h0
    rw [hn] at h2
    cases h2
    exact LinPhase.settle h1 h3

theorem Lin.at_origin {α : Type} (k : Nat) : Lin (Sys.init k : Sys α) := by
  constructor
  · intro l hl
    cases hl
    rfl
  · intro t
    cases h : (Sys.init k : Sys α).threads[t]? with
    | none => exact ⟨rfl, rfl⟩
    | some l =>
      cases init_threads k t _ h
      exact ⟨rfl, rfl⟩

theorem Lin.preserved_lin {α : Type} {moved : α → α} {s s' : Sys α} {t : Nat} {a : Act α}
    (hw : WF s) (hb : Book s) (hL : Lin s) (hs : Step moved s t a s') : Lin s' := by
  constructor
  · exact Lin.abs_step hw hb hL.abs hs
  · intro u
    by_cases hut : u = t
    · subst hut
      exact LinPhase.own_step hw hb hL hs
    · exact LinPhase.frame_other hs hw hut (hL.phase u)

theorem Reachable.lin {α : Type} {moved : α → α} {k : Nat} {s : Sys α}
    (h : Reachable moved k s) : Lin s :=
  Reachable.induction Lin (Lin.at_origin k)
    (fun _ _ _ _ hr hp hs => Lin.preserved_lin hr.wf hr.book hp hs) s h

theorem specTrace_append {α : Type} (ops : List (Op α)) (op : Op α) :
    ∀ st : List α, specTrace st (ops ++ [op]) =
        specTrace st ops ++ [(specStep (specFinal st ops) op).2] ∧
      specFinal st (ops ++ [op]) = (specStep (specFinal st ops) op).1 := by
  induction ops with
  | nil => intro st; exact ⟨rfl, rfl⟩
  | cons o ops ih =>
    intro st
    have := ih (specStep st o).1
    constructor
    · show (specStep st o).2 :: specTrace (specStep st o).1 (ops ++ [op]) = _
      rw [this.1]
      rfl
    · show specFinal (specStep st o).1 (ops ++ [op]) = _
      rw [this.2]
      rfl

/-- The linearization is a legal history of the sequential stack, which ends with the content
`absStack`. -/
theorem linHist_legal {α : Type} (hist : List (Event α)) :
    specTrace [] ((linHist hist).reverse.map (fun x => x.2.1)) =
        (linHist hist).reverse.map (fun x => x.2.2) ∧
      specFinal [] ((linHist hist).reverse.map (fun x => x.2.1)) = absStack hist := by
  induction hist with
  | nil => exact ⟨rfl, rfl⟩
  | cons e es ih =>
    cases hlin : linOf e es with
    | none =>
      rw [linHist_cons_none _ _ hlin, absStack_cons_none _ _ hlin]
      exact ih
    | some x =>
      obtain ⟨t, op⟩ := x
      rw [linHist_cons_some _ _ _ _ hlin, absStack_cons_some _ _ _ _ hlin]
      simp only [List.reverse_cons, List.map_append, List.map_cons, List.map_nil]
      rw [(specTrace_append _ _ _).1, (specTrace_append _ _ _).2, ih.1, ih.2]
      exact ⟨rfl, rfl⟩

theorem LinPhase.suffixes {α : Type} {nodes : List (Node α)} {hist : List (Event α)}
    {t : Nat} {x : Option (Local α)} (h : LinPhase nodes hist t x) :
    linOpsOf t (linHist hist) <:+ invOps t hist ∧
      resOf t hist <:+ linResOf t (linHist hist) := by
  cases x with
  | none =>
    simp only [LinPhase] at h
    rw [h.1, h.2]
    exact ⟨List.suffix_refl _, List.suffix_refl _⟩
  | some l =>
    cases l with
    | idle =>
      simp only [LinPhase] at h
      rw [h.1, h.2]
      exact ⟨List.suffix_refl _, List.suffix_refl _⟩
    | pushStart v =>
      obtain ⟨op, _, h1, h2⟩ := h
      rw [h1, h2]
      exact ⟨List.suffix_cons _ _, List.suffix_refl _⟩
    | pushCas c =>
      obtain ⟨op, _, h1, h2⟩ := h
      rw [h1, h2]
      exact ⟨List.suffix_cons _ _, List.suffix_refl _⟩
    | popStart =>
      obtain ⟨op, _, h1, h2⟩ := h
      rw [h1, h2]
      exact ⟨List.suffix_cons _ _, List.suffix_refl _⟩
    | pushDone =>
      simp only [LinPhase] at h
      rw [h.1, h.2]
      exact ⟨List.suffix_refl _, List.suffix_cons _ _⟩
    | popDone n =>
      obtain ⟨h1, nd, _, h2⟩ := h
      rw [h1, h2]
      exact ⟨List.suffix_refl _, List.suffix_cons _ _⟩
    | popLoop y =>
      cases y with
      | none =>
        simp only [LinPhase] at h
        rw [h.1, h.2]
        exact ⟨List.suffix_refl _, List.suffix_cons _ _⟩
      | some n =>
        obtain ⟨op, _, h1, h2⟩ := h
        rw [h1, h2]
        exact ⟨List.suffix_cons _ _, List.suffix_refl _⟩

theorem linHist_suffix_cons {α : Type} (e : Event α) (es : List (Event α)) :
    linHist es <:+ linHist (e :: es) := by
  cases hlin : linOf e es with
  | none => rw [linHist_cons_none _ _ hlin]
  | some x =>
    obtain ⟨t, op⟩ := x
    rw [linHist_cons_some _ _ _ _ hlin]
    exact List.suffix_cons _ _

/-- An execution only adds to the history, and so only adds to the linearization. -/
theorem exec_grows {α : Type} (moved : α → α) :
    ∀ (sched : Schedule α) (s1 s2 : Sys α), exec moved s1 sched = some s2 →
      s1.hist <:+ s2.hist ∧ linHist s1.hist <:+ linHist s2.hist := by
  intro sched
  induction sched with
  | nil =>
    intro s1 s2 h
    simp only [exec, Option.some.injEq] at h
    subst h
    exact ⟨List.suffix_refl _, List.suffix_refl _⟩
  | cons x sched ih =>
    intro s1 s2 h
    obtain ⟨t, a⟩ := x
    simp only [exec] at h
    cases hst : step moved s1 t a with
    | none => rw [hst] at h; cases h
    | some s3 =>
      rw [hst] at h
      obtain ⟨_, m, l1, e, _, hs', _⟩ := ((step_iff _ _ _ _ _).mp hst).shape
      have h3 := ih s3 s2 h
      have h4 : s1.hist <:+ s3.hist := by
        rw [hs', advance_hist]
        exact List.suffix_cons _ _
      have h5 : linHist s1.hist <:+ linHist s3.hist := by
        rw [hs', advance_hist]
        exact linHist_suffix_cons _ _
      exact ⟨h4.trans h3.1, h5.trans h3.2⟩

theorem linResOf_length {α : Type} (t : Nat) (lh : List (Nat × Op α × Option α)) :
    (linResOf t lh).length = (linOpsOf t lh).length := by
  induction lh with
  | nil => rfl
  | cons x xs ih =>
    by_cases h : x.1 = t
    · simp [linResOf, linOpsOf, List.filterMap_cons, h] at ih ⊢
      exact ih
    · simp [linResOf, linOpsOf, List.filterMap_cons, h] at ih ⊢
      exact ih

theorem posOf_append_left {α : Type} (t : Nat) (b : List (Nat × Op α × Option α)) :
    ∀ (a : List (Nat × Op α × Option α)) (i : Nat), i < (linOpsOf t a).length →
      posOf t i (a ++ b) = posOf t i a ∧ ∀ p, posOf t i a = some p → p < a.length := by
  intro a
  induction a with
  | nil => intro i h; simp [linOpsOf] at h
  | cons x a ih =>
    intro i h
    have hcons : (x :: a) ++ b = x :: (a ++ b) := rfl
    rw [hcons]
    by_cases hx : x.1 = t
    · cases i with
      | zero =>
        simp only [posOf, hx, if_true, Option.some.injEq, true_and]
        intro p hp
        subst hp
        simp
      | succ i =>
        have hi : i < (linOpsOf t a).length := by
          simp [linOpsOf, List.filterMap_cons, hx] at h
          exact h
        obtain ⟨h1, h2⟩ := ih i hi
        simp only [posOf, hx, if_true, h1, true_and]
        intro p hp
        simp only [Option.map_eq_some'] at hp
        obtain ⟨q, hq, rfl⟩ := hp
        have := h2 q hq
        simp only [List.length_cons]
        omega
    · have hi : i < (linOpsOf t a).length := by
        simp [linOpsOf, List.filterMap_cons, hx] at h
        exact h
      obtain ⟨h1, h2⟩ := ih i hi
      simp only [posOf, hx, if_false, h1, true_and]
      intro p hp
      simp only [Option.map_eq_some'] at hp
      obtain ⟨q, hq, rfl⟩ := hp
      have := h2 q hq
      simp only [List.length_cons]
      omega

theorem posOf_append_right {α : Type} (t : Nat) (b : List (Nat × Op α × Option α)) :
    ∀ (a : List (Nat × Op α × Option α)) (i p : Nat), (linOpsOf t a).length ≤ i →
      posOf t i (a ++ b) = some p → a.length ≤ p := by
  intro a
  induction a with
  | nil => intro i p _ _; exact Nat.zero_le _
  | cons x a ih =>
    intro i p h hp
    have hcons : (x :: a) ++ b = x :: (a ++ b) := rfl
    rw [hcons] at hp
    by_cases hx : x.1 = t
    · cases i with
      | zero => simp [linOpsOf, List.filterMap_cons, hx] at h
      | succ i =>
        have hi : (linOpsOf t a).length ≤ i := by
          simp [linOpsOf, List.filterMap_cons, hx] at h
          exact h
        simp only [posOf, hx, if_true, Option.map_eq_some'] at hp
        obtain ⟨q, hq, rfl⟩ := hp
        have := ih i q hi hq
        simp only [List.length_cons]
        omega
    · have hi : (linOpsOf t a).length ≤ i := by
        simp [linOpsOf, List.filterMap_cons, hx] at h
        exact h
      simp only [posOf, hx, if_false, Option.map_eq_some'] at hp
      obtain ⟨q, hq, rfl⟩ := hp
      have := ih i q hi hq
      simp only [List.length_cons]
      omega

/-- C6. Linearizability.  For every concurrent execution of calls on one stack, built from the
atomic `load` and compare-and-swap steps of the calls, the list `linearization` puts the calls
that have taken effect in a total order such that: a sequential stack that executes the
operations in this order returns exactly the listed results; for every thread the listed
operations are, in the thread's own order, the operations it invoked (all of them but
possibly the one still running), and the results its calls returned are the listed results
of these calls; the order only grows at its end as the execution goes on; and a call that had
returned at an earlier moment of the execution comes before every call that was invoked
after that moment. -/
theorem linearizability {α : Type} (moved : α → α) (k : Nat) (s1 s2 : Sys α)
    (sched : Schedule α) (hr : Reachable moved k s1) (he : exec moved s1 sched = some s2) :
    specTrace [] ((linearization s2).map (fun x => x.2.1)) =
      (linearization s2).map (fun x => x.2.2) ∧
    (∀ t, linOpsOf t (linearization s2) <+: (invOps t s2.hist).reverse ∧
      (resOf t s2.hist).reverse <+: linResOf t (linearization s2)) ∧
    linearization s1 <+: linearization s2 ∧
    (∀ t i u j pa pb, posOf t i (linearization s2) = some pa →
      posOf u j (linearization s2) = some pb →
      i < (resOf t s1.hist).length → (invOps u s1.hist).length ≤ j → pa < pb) := by
  have hL1 := hr.lin
  have hL2 := (hr.exec sched he).lin
  have hgrow := (exec_grows moved sched s1 s2 he).2
  have hpre : linearization s1 <+: linearization s2 := List.reverse_prefix.mpr hgrow
  refine ⟨(linHist_legal s2.hist).1, ?_, hpre, ?_⟩
  · intro t
    have := (hL2.phase t).suffixes
    simp only [linearization, linOpsOf, linResOf, List.filterMap_reverse]
    exact ⟨List.reverse_prefix.mpr this.1, List.reverse_prefix.mpr this.2⟩
  · intro t i u j pa pb hpa hpb hi hj
    obtain ⟨rest, hrest⟩ := hpre
    rw [← hrest] at hpa hpb
    have h1 := (hL1.phase t).suffixes
    have h2 := (hL1.phase u).suffixes
    have hlen : ∀ v, (linOpsOf v (linearization s1)).length =
        (linOpsOf v (linHist s1.hist)).length := by
      intro v
      simp only [linearization, linOpsOf, List.filterMap_reverse, List.length_reverse]
    have hi' : i < (linOpsOf t (linearization s1)).length := by
      rw [hlen, ← linResOf_length]
      exact Nat.lt_of_lt_of_le hi h1.2.length_le
    have hj' : (linOpsOf u (linearization s1)).length ≤ j := by
      rw [hlen]
      exact Nat.le_trans h2.1.length_le hj
    obtain ⟨h3, h4⟩ := posOf_append_left t rest _ i hi'
    rw [h3] at hpa
    have ha := h4 pa hpa
    have hb := posOf_append_right u rest _ j pb hj' hpb
    omega

theorem linearizability_witness :
    specTrace [] ((linearization demoDrained).map (fun x => x.2.1)) =
      (linearization demoDrained).map (fun x => x.2.2) ∧
    (∀ t, linOpsOf t (linearization demoDrained) <+: (invOps t demoDrained.hist).reverse ∧
      (resOf t demoDrained.hist).reverse <+: linResOf t (linearization demoDrained)) ∧
    linearization demoRace <+: linearization demoDrained ∧
    (∀ t i u j pa pb, posOf t i (linearization demoDrained) = some pa →
      posOf u j (linearization demoDrained) = some pb →
      i < (resOf t demoRace.hist).length → (invOps u demoRace.hist).length ≤ j → pa < pb) :=
  linearizability id 2 demoRace demoDrained
    [(0, Act.cas false), (0, Act.cas false), (0, Act.ret), (1, Act.ret),
      (0, Act.call Op.pop), (1, Act.call Op.pop), (0, Act.load), (1, Act.load),
      (0, Act.cas false), (1, Act.cas false), (1, Act.cas false), (0, Act.ret), (1, Act.ret)]
    demoRace_reachable (by decide)

/-! ## Reference counts -/

theorem bump_length (incs : List Nat) : ∀ rc : List Nat, (bump incs rc).length = rc.length := by
  induction incs with
  | nil => intro rc; rfl
  | cons i incs ih =>
    intro rc
    simp only [bump, List.foldl_cons] at ih ⊢
    rw [ih]
    exact List.length_modify _ _ _

theorem bump_getD (incs : List Nat) :
    ∀ (rc : List Nat) (n : Nat), (∀ i ∈ incs, i < rc.length) →
      ((bump incs rc)[n]?).getD 0 = (rc[n]?).getD 0 + incs.count n := by
  induction incs with
  | nil => intro rc n _; simp [bump]
  | cons i incs ih =>
    intro rc n h
    have hi : i < rc.length := h i (List.mem_cons_self _ _)
    have h' : ∀ j ∈ incs, j < (rc.modify (fun k => k + 1) i).length := by
      intro j hj
      rw [List.length_modify]
      exact h j (List.mem_cons_of_mem _ hj)
    have := ih (rc.modify (fun k => k + 1) i) n h'
    simp only [bump, List.foldl_cons] at this ⊢
    rw [this]
    by_cases hin : i = n
    · subst hin
      rw [List.getElem?_modify_eq, List.getElem?_eq_getElem hi]
      simp only [Option.map_eq_map, Option.map_some', Option.getD_some, List.count_cons_self]
      omega
    · rw [List.getElem?_modify_ne _ _ hin, List.count_cons_of_ne (fun e => hin e.symm)]

theorem count_toList (o : Option Nat) (n : Nat) :
    o.toList.count n = if o = some n then 1 else 0 := by
  cases o with
  | none => simp
  | some m =>
    by_cases h : m = n
    · subst h; simp
    · simp [h, List.count_cons_of_ne (fun e => h e.symm)]

theorem count_one (c n : Nat) : [c].count n = if c = n then 1 else 0 := by
  by_cases h : c = n
  · subst h; simp
  · simp [h, List.count_cons_of_ne (fun e => h e.symm)]

theorem count_cons_ite (c : Nat) (l : List Nat) (n : Nat) :
    (c :: l).count n = (if c = n then 1 else 0) + l.count n := by
  by_cases h : c = n
  · subst h; simp; omega
  · simp [h, List.count_cons_of_ne (fun e => h e.symm)]

/-- Changing a function at one place changes its sum over a range by that place alone. -/
theorem sum_range_update (f f' : Nat → Nat) (len i : Nat) (hi : i < len)
    (h : ∀ m, m ≠ i → f' m = f m) :
    ((List.range len).map f').sum + f i = ((List.range len).map f).sum + f' i := by
  have h1 : (List.range len)[i]? = some i := by
    rw [List.getElem?_range hi]
  have h2 := sum_update f f' (List.range len) i i i h1 (by
    intro u y hu hy
    have hlt : u < (List.range len).length := getElem?_lt hy
    rw [List.getElem?_eq_getElem hlt] at hy
    simp only [List.getElem_range, Option.some.injEq] at hy
    subst hy
    exact h u hu)
  have h3 : (List.range len).set i i = List.range len := by
    apply List.ext_getElem?
    intro j
    rw [List.getElem?_set]
    by_cases hij : i = j
    · subst hij
      simp [hi]
    · simp [hij]
  rw [h3] at h2
  exact h2

theorem sum_range_congr (f f' : Nat → Nat) (len : Nat) (h : ∀ m, m < len → f' m = f m) :
    ((List.range len).map f').sum = ((List.range len).map f).sum := by
  congr 1
  apply List.map_congr_left
  intro m hm
  exact h m (List.mem_range.mp hm)

theorem sum_range_succ' (f : Nat → Nat) (len : Nat) :
    ((List.range (len + 1)).map f).sum = ((List.range len).map f).sum + f len := by
  rw [List.range_succ, List.map_append, List.sum_append]
  simp

theorem rstep_run_iff {α : Type} (moved : α → α) (s s' : RcSys α) (t : Nat) (a : Act α) :
    rstep moved s t (RAct.run a) = some s' ↔
      s.drops[t]? = some [] ∧ ∃ b, step moved s.base t a = some b ∧
        (∀ i ∈ (effect s.base t a).uses ++ (effect s.base t a).incs, s.freed[i]? = some false) ∧
        s' = {
          base := b
          rc := if (effect s.base t a).fresh then bump (effect s.base t a).incs s.rc ++ [1]
            else bump (effect s.base t a).incs s.rc
          freed := if (effect s.base t a).fresh then s.freed ++ [false] else s.freed
          drops := s.drops.set t (effect s.base t a).drops } := by
  simp only [rstep]
  constructor
  · intro h
    split at h
    · rename_i hd
      split at h
      · cases h
      · rename_i b hb
        split at h
        · rename_i hg
          simp only [List.all_eq_true, decide_eq_true_eq] at hg
          exact ⟨hd, b, hb, hg, (Option.some.inj h).symm⟩
        · cases h
    · cases h
  · rintro ⟨hd, b, hb, hg, rfl⟩
    simp only [hd, hb]
    rw [if_pos]
    simp only [List.all_eq_true, decide_eq_true_eq]
    exact hg

theorem rstep_release_iff {α : Type} (moved : α → α) (s s' : RcSys α) (t : Nat) :
    rstep moved s t RAct.release = some s' ↔
      ∃ n rest k, s.drops[t]? = some (n :: rest) ∧ s.freed[n]? = some false ∧
        s.rc[n]? = some (k + 1) ∧
        s' = if k = 0 then
            { s with
              rc := s.rc.set n 0
              freed := s.freed.set n true
              drops := s.drops.set t ((prevAt s.base n).toList ++ rest) }
          else { s with rc := s.rc.set n k, drops := s.drops.set t rest } := by
  simp only [rstep]
  constructor
  · intro h
    split at h
    · rename_i n rest hd
      split at h
      · rename_i k hf hr
        refine ⟨n, rest, k, hd, hf, hr, ?_⟩
        split at h
        · rename_i hk
          rw [if_pos hk]
          exact (Option.some.inj h).symm
        · rename_i hk
          rw [if_neg hk]
          exact (Option.some.inj h).symm
      · cases h
    · cases h
  · rintro ⟨n, rest, k, hd, hf, hr, rfl⟩
    simp only [hd, hf, hr]
    split <;> rfl

theorem dropSum_set (drops : List (List Nat)) (t : Nat) (d0 d : List Nat) (n : Nat)
    (h : drops[t]? = some d0) :
    dropSum (drops.set t d) n + d0.count n = dropSum drops n + d.count n :=
  sum_update (fun d => d.count n) (fun d => d.count n) drops t d0 d h (fun _ _ _ _ => rfl)

theorem localSum_advance {α : Type} (s : Sys α) (t : Nat) (l0 l : Local α) (m : Stack α)
    (e : Event α) (n : Nat) (h : s.threads[t]? = some l0) :
    localSum (s.advance t m l e) n + holdsLocal l0 n = localSum s n + holdsLocal l n :=
  sum_update (fun l => holdsLocal l n) (fun l => holdsLocal l n) s.threads t l0 l h
    (fun _ _ _ _ => rfl)

theorem linkSum_same {α : Type} (s s' : RcSys α) (n : Nat) (hf : s'.freed = s.freed)
    (hlen : s'.base.mem.nodes.length = s.base.mem.nodes.length)
    (hp : ∀ m, prevAt s'.base m = prevAt s.base m) : linkSum s' n = linkSum s n := by
  unfold linkSum
  rw [hlen]
  apply sum_range_congr
  intro m _
  simp only [linkAt, hf, hp]

theorem linkSum_change {α : Type} (s s' : RcSys α) (n c : Nat) (hf : s'.freed = s.freed)
    (hlen : s'.base.mem.nodes.length = s.base.mem.nodes.length)
    (hc : c < s.base.mem.nodes.length)
    (hp : ∀ m, m ≠ c → prevAt s'.base m = prevAt s.base m) :
    linkSum s' n + linkAt s n c = linkSum s n + linkAt s' n c := by
  unfold linkSum
  rw [hlen]
  apply sum_range_update _ _ _ _ hc
  intro m hm
  simp only [linkAt, hf, hp m hm]

theorem holders_zero_of_not_live {α : Type} {s : RcSys α} (hI : RcInv s) {n : Nat}
    (h : 0 < holders s n) : s.freed[n]? = some false := by
  by_contra hn
  have := hI.gone n hn
  omega

theorem live_lt {α : Type} {s : RcSys α} (hI : RcInv s) {n : Nat}
    (h : s.freed[n]? = some false) : n < s.base.mem.nodes.length := by
  rw [← hI.lenFreed]
  exact getElem?_lt h

/-- A step of the program that creates no node keeps the reference-count invariant if it
adds to every node as many handles as it adds to the node's use count. -/
theorem RcInv.run_plain {α : Type} {s : RcSys α} (hI : RcInv s) (b : Sys α) (t : Nat)
    (incs dr : List Nat) (hlen : b.mem.nodes.length = s.base.mem.nodes.length)
    (hthr : b.threads.length = s.base.threads.length)
    (hlive : ∀ i ∈ incs, s.freed[i]? = some false)
    (hH : ∀ n, holders ⟨b, bump incs s.rc, s.freed, s.drops.set t dr⟩ n =
      holders s n + incs.count n) :
    RcInv ⟨b, bump incs s.rc, s.freed, s.drops.set t dr⟩ := by
  constructor
  · simp only [bump_length, hI.lenRc, hlen]
  · simp only [hI.lenFreed, hlen]
  · simp only [List.length_set, hI.lenDrops, hthr]
  · intro n hn
    have h0 := hI.counted n hn
    have hb : ∀ i ∈ incs, i < s.rc.length := by
      intro i hi
      rw [hI.lenRc]
      exact live_lt hI (hlive i hi)
    have := bump_getD incs s.rc n hb
    simp only [rcAt] at h0 ⊢
    rw [hH n, this]
    omega
  · intro n hn
    have h0 := hI.gone n hn
    have hc : incs.count n = 0 := by
      apply List.count_eq_zero_of_not_mem
      intro hmem
      exact hn (hlive n hmem)
    rw [hH n, h0, hc]

theorem holdsLocal_popLoop {α : Type} (x : Option Nat) (n : Nat) :
    holdsLocal (Local.popLoop x : Local α) n = if x = some n then 1 else 0 := by
  cases x with
  | none => simp [holdsLocal]
  | some m => simp [holdsLocal]

theorem prevAt_of_nodes {α : Type} (s s' : Sys α) (h : s'.mem.nodes = s.mem.nodes) (m : Nat) :
    prevAt s' m = prevAt s m := by
  simp only [prevAt, h]

theorem prevAt_setValue {α : Type} (s : Sys α) (t i : Nat) (v : α) (l : Local α)
    (e : Event α) (m : Nat) :
    prevAt (s.advance t (s.mem.setValue i v) l e) m = prevAt s m := by
  simp only [prevAt, advance_mem, Stack.setValue]
  by_cases h : i = m
  · subst h
    rw [List.getElem?_modify_eq]
    cases s.mem.nodes[i]? <;> rfl
  · rw [List.getElem?_modify_ne _ _ h]

theorem prevAt_setPrev_ne {α : Type} (s : Sys α) (t c : Nat) (p : Option Nat) (l : Local α)
    (e : Event α) (m : Nat) (h : m ≠ c) :
    prevAt (s.advance t (s.mem.setPrev c p) l e) m = prevAt s m := by
  simp only [prevAt, advance_mem, Stack.setPrev]
  rw [List.getElem?_modify_ne _ _ (fun e => h e.symm)]

theorem prevAt_setPrev_self {α : Type} (s : Sys α) (t c : Nat) (p : Option Nat) (l : Local α)
    (e : Event α) (nd : Node α) (h : s.mem.nodes[c]? = some nd) :
    prevAt (s.advance t (s.mem.setPrev c p) l e) c = p := by
  simp only [prevAt, advance_mem, Stack.setPrev]
  rw [List.getElem?_modify_eq, h]
  rfl

theorem prevAt_of_node {α : Type} (s : Sys α) (c : Nat) (nd : Node α)
    (h : s.mem.nodes[c]? = some nd) : prevAt s c = nd.prev := by
  simp only [prevAt, h]

/-- The steps of the program that create no node keep the reference-count invariant. -/
theorem RcInv.run_step_plain {α : Type} {moved : α → α} {s : RcSys α} {t : Nat} {a : Act α}
    {b : Sys α} (hI : RcInv s) (hd : s.drops[t]? = some [])
    (hs : Step moved s.base t a b) (hfresh : (effect s.base t a).fresh = false)
    (hg : ∀ i ∈ (effect s.base t a).uses ++ (effect s.base t a).incs,
      s.freed[i]? = some false) :
    RcInv ⟨b, bump (effect s.base t a).incs s.rc, s.freed,
      s.drops.set t (effect s.base t a).drops⟩ := by
  have hD : ∀ (d : List Nat) (n : Nat),
      dropSum (s.drops.set t d) n = dropSum s.drops n + d.count n := by
    intro d n
    have := dropSum_set s.drops t [] d n hd
    simpa using this
  cases hs with
  | callPush v ht =>
    have he : effect s.base t (Act.call (Op.push v)) = ⟨[], [], false, []⟩ := by
      simp [effect, ht]
    rw [he]
    refine hI.run_plain _ t [] [] rfl (by simp [Sys.advance]) (fun i hi => by cases hi) ?_
    intro n
    have hT := localSum_advance s.base t _ (Local.pushStart v) s.base.mem
      (Event.inv t (Op.push v)) n ht
    have hL := linkSum_same s ⟨s.base.advance t s.base.mem (Local.pushStart v)
      (Event.inv t (Op.push v)), bump [] s.rc, s.freed, s.drops.set t []⟩ n rfl rfl
      (fun m => rfl)
    simp only [holders, hD, advance_mem, hL] at hT ⊢
    simp only [holdsLocal] at hT
    simp only [List.count_nil]
    omega
  | callPop ht =>
    have he : effect s.base t (Act.call Op.pop) = ⟨[], [], false, []⟩ := by
      simp [effect, ht]
    rw [he]
    refine hI.run_plain _ t [] [] rfl (by simp [Sys.advance]) (fun i hi => by cases hi) ?_
    intro n
    have hT := localSum_advance s.base t _ Local.popStart s.base.mem (Event.inv t Op.pop) n ht
    have hL := linkSum_same s ⟨s.base.advance t s.base.mem Local.popStart
      (Event.inv t Op.pop), bump [] s.rc, s.freed, s.drops.set t []⟩ n rfl rfl (fun m => rfl)
    simp only [holders, hD, advance_mem, hL] at hT ⊢
    simp only [holdsLocal] at hT
    simp only [List.count_nil]
    omega
  | pushLoad v ht =>
    have he : (effect s.base t Act.load).fresh = true := by
      simp [effect, ht]
    rw [he] at hfresh
    cases hfresh
  | pushOk c nd ht hc hh =>
    have he : effect s.base t (Act.cas false) = ⟨[c], [c], false, nd.prev.toList ++ [c]⟩ := by
      simp [effect, ht, hc, hh]
    rw [he] at hg ⊢
    refine hI.run_plain _ t [c] _ rfl (by simp [Sys.advance])
      (fun i hi => hg i (by simp at hi ⊢; exact hi)) ?_
    intro n
    have hT := localSum_advance s.base t _ Local.pushDone { s.base.mem with head_ := some c }
      (Event.pushed t c nd.prev) n ht
    have hL := linkSum_same s ⟨s.base.advance t { s.base.mem with head_ := some c }
      Local.pushDone (Event.pushed t c nd.prev), bump [c] s.rc, s.freed,
      s.drops.set t (nd.prev.toList ++ [c])⟩ n rfl rfl (fun m => rfl)
    simp only [holders, hD, advance_mem, hL, hh] at hT ⊢
    simp only [holdsLocal] at hT
    simp only [List.count_append, count_toList, count_one, Option.some.injEq]
    omega
  | pushFail c nd b ht hc hh =>
    have he : effect s.base t (Act.cas b) =
        ⟨[c], c :: s.base.mem.head_.toList, false, nd.prev.toList ++ [c]⟩ := by
      have hcond : ¬ (s.base.mem.head_ = nd.prev ∧ b = false) := by
        rintro ⟨h1, h2⟩
        rcases hh with h | h
        · exact h h1
        · rw [h2] at h; cases h
      simp [effect, ht, hc, hcond]
    rw [he] at hg ⊢
    have hclive : s.freed[c]? = some false := hg c (by simp)
    refine hI.run_plain _ t _ _ (by simp [Sys.advance, Stack.setPrev]) (by simp [Sys.advance])
      (fun i hi => hg i (by simp at hi ⊢; exact hi)) ?_
    intro n
    have hT := localSum_advance s.base t _ (Local.pushCas c)
      (s.base.mem.setPrev c s.base.mem.head_)
      (Event.failed t s.base.mem.head_ (decide (s.base.mem.head_ = nd.prev))) n ht
    have hL := linkSum_change s ⟨s.base.advance t (s.base.mem.setPrev c s.base.mem.head_)
      (Local.pushCas c) (Event.failed t s.base.mem.head_ (decide (s.base.mem.head_ = nd.prev))),
      bump (c :: s.base.mem.head_.toList) s.rc, s.freed,
      s.drops.set t (nd.prev.toList ++ [c])⟩ n c rfl
      (by simp [Sys.advance, Stack.setPrev]) (getElem?_lt hc)
      (fun m hm => prevAt_setPrev_ne _ _ _ _ _ _ _ hm)
    have h1 : (s.base.advance t (s.base.mem.setPrev c s.base.mem.head_) (Local.pushCas c)
        (Event.failed t s.base.mem.head_ (decide (s.base.mem.head_ = nd.prev)))).mem.head_ =
        s.base.mem.head_ := rfl
    simp only [linkAt, hclive, true_and, prevAt_setPrev_self _ _ _ _ _ _ _ hc,
      prevAt_of_node _ _ _ hc] at hL
    simp only [holders, hD, h1] at hT ⊢
    simp only [holdsLocal] at hT
    simp only [List.count_append, count_toList, count_one, count_cons_ite, List.count_nil]
    omega
  | pushRet ht =>
    have he : effect s.base t Act.ret = ⟨[], [], false, []⟩ := by
      simp [effect, ht]
    rw [he]
    refine hI.run_plain _ t [] [] rfl (by simp [Sys.advance]) (fun i hi => by cases hi) ?_
    intro n
    have hT := localSum_advance s.base t _ Local.idle s.base.mem (Event.res t none) n ht
    have hL := linkSum_same s ⟨s.base.advance t s.base.mem Local.idle
      (Event.res t none), bump [] s.rc, s.freed, s.drops.set t []⟩ n rfl rfl (fun m => rfl)
    simp only [holders, hD, advance_mem, hL] at hT ⊢
    simp only [holdsLocal] at hT
    simp only [List.count_nil]
    omega
  | popLoad ht =>
    have he : effect s.base t Act.load = ⟨[], s.base.mem.head_.toList, false, []⟩ := by
      simp [effect, ht]
    rw [he] at hg ⊢
    refine hI.run_plain _ t _ [] rfl (by simp [Sys.advance])
      (fun i hi => hg i (by simp at hi ⊢; exact hi)) ?_
    intro n
    have hT := localSum_advance s.base t _ (Local.popLoop s.base.mem.head_) s.base.mem
      (Event.loaded t s.base.mem.head_) n ht
    have hL := linkSum_same s ⟨s.base.advance t s.base.mem (Local.popLoop s.base.mem.head_)
      (Event.loaded t s.base.mem.head_), bump s.base.mem.head_.toList s.rc, s.freed,
      s.drops.set t []⟩ n rfl rfl (fun m => rfl)
    simp only [holders, hD, advance_mem, hL] at hT ⊢
    simp only [holdsLocal_popLoop] at hT
    simp only [holdsLocal] at hT
    simp only [List.count_nil, count_toList]
    omega
  | popOk n0 nd ht hn hh =>
    have he : effect s.base t (Act.cas false) = ⟨[n0], nd.prev.toList, false, [n0]⟩ := by
      simp [effect, ht, hn, hh]
    rw [he] at hg ⊢
    refine hI.run_plain _ t _ _ rfl (by simp [Sys.advance])
      (fun i hi => hg i (by simp at hi ⊢; exact Or.inr hi)) ?_
    intro n
    have hT := localSum_advance s.base t _ (Local.popDone n0)
      { s.base.mem with head_ := nd.prev } (Event.popped t n0 nd.prev) n ht
    have hL := linkSum_same s ⟨s.base.advance t { s.base.mem with head_ := nd.prev }
      (Local.popDone n0) (Event.popped t n0 nd.prev), bump nd.prev.toList s.rc, s.freed,
      s.drops.set t [n0]⟩ n rfl rfl (fun m => rfl)
    simp only [holders, hD, advance_mem, hL, hh] at hT ⊢
    simp only [holdsLocal] at hT
    simp only [count_toList, count_one, Option.some.injEq]
    omega
  | popFail n0 nd b ht hn hh =>
    have he : effect s.base t (Act.cas b) =
        ⟨[n0], nd.prev.toList ++ s.base.mem.head_.toList, false, n0 :: nd.prev.toList⟩ := by
      have hcond : ¬ (s.base.mem.head_ = some n0 ∧ b = false) := by
        rintro ⟨h1, h2⟩
        rcases hh with h | h
        · exact h h1
        · rw [h2] at h; cases h
      simp [effect, ht, hn, hcond]
    rw [he] at hg ⊢
    refine hI.run_plain _ t _ _ rfl (by simp [Sys.advance])
      (fun i hi => hg i (by simp at hi ⊢; exact Or.inr hi)) ?_
    intro n
    have hT := localSum_advance s.base t _ (Local.popLoop s.base.mem.head_) s.base.mem
      (Event.failed t s.base.mem.head_ (decide (s.base.mem.head_ = some n0))) n ht
    have hL := linkSum_same s ⟨s.base.advance t s.base.mem (Local.popLoop s.base.mem.head_)
      (Event.failed t s.base.mem.head_ (decide (s.base.mem.head_ = some n0))),
      bump (nd.prev.toList ++ s.base.mem.head_.toList) s.rc, s.freed,
      s.drops.set t (n0 :: nd.prev.toList)⟩ n rfl rfl (fun m => rfl)
    simp only [holders, hD, advance_mem, hL] at hT ⊢
    simp only [holdsLocal_popLoop, Option.some.injEq] at hT
    simp only [List.count_append, count_toList, count_cons_ite]
    omega
  | popRetEmpty ht =>
    have he : effect s.base t Act.ret = ⟨[], [], false, []⟩ := by
      simp [effect, ht]
    rw [he]
    refine hI.run_plain _ t [] [] rfl (by simp [Sys.advance]) (fun i hi => by cases hi) ?_
    intro n
    have hT := localSum_advance s.base t _ Local.idle s.base.mem (Event.res t none) n ht
    have hL := linkSum_same s ⟨s.base.advance t s.base.mem Local.idle
      (Event.res t none), bump [] s.rc, s.freed, s.drops.set t []⟩ n rfl rfl (fun m => rfl)
    simp only [holders, hD, advance_mem, hL] at hT ⊢
    simp only [holdsLocal] at hT
    simp only [List.count_nil]
    omega
  | popRet n0 nd ht hn =>
    have he : effect s.base t Act.ret = ⟨[n0], [], false, [n0]⟩ := by
      simp [effect, ht]
    rw [he]
    refine hI.run_plain _ t [] _ (by simp [Sys.advance, Stack.setValue])
      (by simp [Sys.advance]) (fun i hi => by cases hi) ?_
    intro n
    have hT := localSum_advance s.base t _ Local.idle
      (s.base.mem.setValue n0 (moved nd.value)) (Event.res t (some nd.value)) n ht
    have hL := linkSum_same s ⟨s.base.advance t (s.base.mem.setValue n0 (moved nd.value))
      Local.idle (Event.res t (some nd.value)), bump [] s.rc, s.freed,
      s.drops.set t [n0]⟩ n rfl (by simp [Sys.advance, Stack.setValue])
      (fun m => prevAt_setValue _ _ _ _ _ _ _)
    have h1 : (s.base.advance t (s.base.mem.setValue n0 (moved nd.value)) Local.idle
        (Event.res t (some nd.value))).mem.head_ = s.base.mem.head_ := rfl
    simp only [holders, hD, h1, hL] at hT ⊢
    simp only [holdsLocal] at hT
    simp only [List.count_nil, count_one]
    omega

theorem head_le_holders {α : Type} (s : RcSys α) (n : Nat) :
    (if s.base.mem.head_ = some n then 1 else 0) ≤ holders s n := by
  simp only [holders]
  omega

/-- The `load` of a `push`, which creates the node, keeps the reference-count invariant. -/
theorem RcInv.run_pushLoad {α : Type} {s : RcSys α} {t : Nat} {v : α} (hI : RcInv s)
    (hd : s.drops[t]? = some []) (ht : s.base.threads[t]? = some (Local.pushStart v))
    (hg : ∀ i ∈ s.base.mem.head_.toList, s.freed[i]? = some false) :
    RcInv ⟨s.base.advance t ⟨s.base.mem.nodes ++ [⟨v, s.base.mem.head_⟩], s.base.mem.head_⟩
        (Local.pushCas s.base.mem.nodes.length) (Event.loaded t s.base.mem.head_),
      bump s.base.mem.head_.toList s.rc ++ [1], s.freed ++ [false], s.drops.set t []⟩ := by
  have hH : ∀ n, holders ⟨s.base.advance t
        ⟨s.base.mem.nodes ++ [⟨v, s.base.mem.head_⟩], s.base.mem.head_⟩
        (Local.pushCas s.base.mem.nodes.length) (Event.loaded t s.base.mem.head_),
      bump s.base.mem.head_.toList s.rc ++ [1], s.freed ++ [false], s.drops.set t []⟩ n =
      holders s n + (if s.base.mem.head_ = some n then 1 else 0) +
        (if s.base.mem.nodes.length = n then 1 else 0) := by
    intro n
    have hD := dropSum_set s.drops t [] [] n hd
    have hT := localSum_advance s.base t _ (Local.pushCas s.base.mem.nodes.length)
      ⟨s.base.mem.nodes ++ [⟨v, s.base.mem.head_⟩], s.base.mem.head_⟩
      (Event.loaded t s.base.mem.head_) n ht
    have hL : linkSum ⟨s.base.advance t
          ⟨s.base.mem.nodes ++ [⟨v, s.base.mem.head_⟩], s.base.mem.head_⟩
          (Local.pushCas s.base.mem.nodes.length) (Event.loaded t s.base.mem.head_),
        bump s.base.mem.head_.toList s.rc ++ [1], s.freed ++ [false], s.drops.set t []⟩ n =
        linkSum s n + (if s.base.mem.head_ = some n then 1 else 0) := by
      simp only [linkSum, advance_mem, List.length_append, List.length_singleton]
      rw [sum_range_succ']
      congr 1
      · apply sum_range_congr
        intro m hm
        have hm' : m < s.freed.length := by rw [hI.lenFreed]; exact hm
        simp only [linkAt, prevAt, advance_mem, List.getElem?_append_left hm,
          List.getElem?_append_left hm']
      · have h1 : (s.freed ++ [false])[s.base.mem.nodes.length]? = some false := by
          rw [← hI.lenFreed]
          simp
        simp [linkAt, prevAt, h1]
    simp only [holders, advance_mem, hL] at hT ⊢
    simp only [holdsLocal, List.count_nil] at hT hD
    omega
  have hlen : (bump s.base.mem.head_.toList s.rc).length = s.base.mem.nodes.length := by
    rw [bump_length, hI.lenRc]
  have hb : ∀ i ∈ s.base.mem.head_.toList, i < s.rc.length := by
    intro i hi
    rw [hI.lenRc]
    exact live_lt hI (hg i hi)
  constructor
  · simp [hlen]
  · simp [hI.lenFreed]
  · simp [Sys.advance, hI.lenDrops]
  · intro n hn
    rw [hH n]
    simp only [rcAt]
    rcases Nat.lt_trichotomy n s.base.mem.nodes.length with hlt | heq | hgt
    · have hn' : s.freed[n]? = some false := by
        rw [List.getElem?_append_left (by rw [hI.lenFreed]; exact hlt)] at hn
        exact hn
      have h0 := hI.counted n hn'
      rw [List.getElem?_append_left (by rw [hlen]; exact hlt), bump_getD _ _ _ hb,
        count_toList]
      simp only [rcAt] at h0
      have hne : ¬ s.base.mem.nodes.length = n := by omega
      simp only [hne, if_false]
      omega
    · subst heq
      have h0 := hI.gone s.base.mem.nodes.length (by
        rw [List.getElem?_eq_none (by rw [hI.lenFreed])]
        simp)
      have h1 := head_le_holders s s.base.mem.nodes.length
      have h2 : (bump s.base.mem.head_.toList s.rc ++ [1])[s.base.mem.nodes.length]? =
          some 1 := by
        rw [← hlen]
        simp
      rw [h2]
      simp only [Option.getD_some, if_true]
      omega
    · rw [List.getElem?_eq_none (by simp [hI.lenFreed]; omega)] at hn
      cases hn
  · intro n hn
    rw [hH n]
    have hne : ¬ s.base.mem.nodes.length = n := by
      intro e
      apply hn
      rw [← e, ← hI.lenFreed]
      simp
    have hn' : s.freed[n]? ≠ some false := by
      intro h
      apply hn
      rw [List.getElem?_append_left (getElem?_lt h)]
      exact h
    have h0 := hI.gone n hn'
    have h1 := head_le_holders s n
    simp only [hne, if_false]
    omega

/-- The destruction of a handle that is not the last one keeps the reference-count
invariant. -/
theorem RcInv.release_keep {α : Type} {s : RcSys α} {t n0 k : Nat} {rest : List Nat}
    (hI : RcInv s) (hd : s.drops[t]? = some (n0 :: rest)) (hf : s.freed[n0]? = some false)
    (hr : s.rc[n0]? = some (k + 1)) (hk : k ≠ 0) :
    RcInv { s with rc := s.rc.set n0 k, drops := s.drops.set t rest } := by
  have hH : ∀ n, holders { s with rc := s.rc.set n0 k, drops := s.drops.set t rest } n +
      (if n0 = n then 1 else 0) = holders s n := by
    intro n
    have hD := dropSum_set s.drops t (n0 :: rest) rest n hd
    have hL := linkSum_same s { s with rc := s.rc.set n0 k, drops := s.drops.set t rest } n
      rfl rfl (fun m => rfl)
    simp only [holders, hL]
    simp only [count_cons_ite] at hD
    omega
  have h0 := hI.counted n0 hf
  simp only [rcAt, hr, Option.getD_some] at h0
  constructor
  · simp [hI.lenRc]
  · exact hI.lenFreed
  · simp [hI.lenDrops]
  · intro n hn
    have h1 := hI.counted n hn
    have h2 := hH n
    simp only [rcAt] at h1 ⊢
    by_cases hnn : n0 = n
    · subst hnn
      have hlt : n0 < s.rc.length := getElem?_lt hr
      simp only [List.getElem?_set, if_true, hlt, Option.getD_some] at h2 ⊢
      omega
    · simp only [List.getElem?_set, hnn, if_false] at h2 ⊢
      omega
  · intro n hn
    have h1 := hI.gone n hn
    have h2 := hH n
    omega

/-- The destruction of the last handle to a node, which reclaims the node and passes the
node's `prev` handle on to be destroyed, keeps the reference-count invariant. -/
theorem RcInv.release_free {α : Type} {s : RcSys α} {t n0 : Nat} {rest : List Nat}
    (hI : RcInv s) (hd : s.drops[t]? = some (n0 :: rest)) (hf : s.freed[n0]? = some false)
    (hr : s.rc[n0]? = some 1) :
    RcInv { s with
      rc := s.rc.set n0 0
      freed := s.freed.set n0 true
      drops := s.drops.set t ((prevAt s.base n0).toList ++ rest) } := by
  have hlt : n0 < s.freed.length := getElem?_lt hf
  have hfree : (s.freed.set n0 true)[n0]? = some true := by
    simp [List.getElem?_set, hlt]
  have hother : ∀ m, m ≠ n0 → (s.freed.set n0 true)[m]? = s.freed[m]? := by
    intro m hm
    have hne : ¬ n0 = m := fun e => hm e.symm
    simp only [List.getElem?_set, hne, if_false]
  have hH : ∀ n, holders { s with
        rc := s.rc.set n0 0
        freed := s.freed.set n0 true
        drops := s.drops.set t ((prevAt s.base n0).toList ++ rest) } n +
      (if n0 = n then 1 else 0) = holders s n := by
    intro n
    have hD := dropSum_set s.drops t (n0 :: rest) ((prevAt s.base n0).toList ++ rest) n hd
    have hL : linkSum { s with
          rc := s.rc.set n0 0
          freed := s.freed.set n0 true
          drops := s.drops.set t ((prevAt s.base n0).toList ++ rest) } n +
        (if prevAt s.base n0 = some n then 1 else 0) = linkSum s n := by
      have := sum_range_update (linkAt s n) (linkAt { s with
          rc := s.rc.set n0 0
          freed := s.freed.set n0 true
          drops := s.drops.set t ((prevAt s.base n0).toList ++ rest) } n)
        s.base.mem.nodes.length n0 (by rw [← hI.lenFreed]; exact hlt) (by
          intro m hm
          simp only [linkAt, hother m hm])
      simp only [linkAt, hfree, hf, true_and] at this
      simp only [linkSum]
      simpa using this
    simp only [holders]
    simp only [count_cons_ite, List.count_append, count_toList] at hD
    omega
  have h0 := hI.counted n0 hf
  simp only [rcAt, hr, Option.getD_some] at h0
  constructor
  · simp [hI.lenRc]
  · simp [hI.lenFreed]
  · simp [hI.lenDrops]
  · intro n hn
    have hnn : n ≠ n0 := by
      intro e
      subst e
      rw [hfree] at hn
      cases hn
    have hn' : s.freed[n]? = some false := by
      rw [← hother n hnn]
      exact hn
    have h1 := hI.counted n hn'
    have h2 := hH n
    have hne : ¬ n0 = n := fun e => hnn e.symm
    simp only [rcAt, List.getElem?_set, hne, if_false] at h1 h2 ⊢
    omega
  · intro n hn
    have h2 := hH n
    by_cases hnn : n0 = n
    · subst hnn
      simp only [if_true] at h2
      omega
    · have hn' : s.freed[n]? ≠ some false := by
        rw [← hother n (fun e => hnn e.symm)]
        exact hn
      have h1 := hI.gone n hn'
      omega

theorem RcInv.at_zero {α : Type} (k : Nat) : RcInv (RcSys.init k : RcSys α) := by
  have hz : ∀ n, holders (RcSys.init k : RcSys α) n = 0 := by
    intro n
    have h1 : localSum (Sys.init k : Sys α) n = 0 := by
      apply sum_map_zero
      intro x hx
      simp only [Sys.init] at hx
      rw [List.eq_of_mem_replicate hx]
      rfl
    have h2 : dropSum (List.replicate k []) n = 0 := by
      apply sum_map_zero
      intro x hx
      rw [List.eq_of_mem_replicate hx]
      rfl
    simp only [holders, RcSys.init, h1, h2]
    simp [Sys.init, Stack.empty, linkSum]
  constructor
  · rfl
  · rfl
  · simp [RcSys.init, Sys.init]
  · intro n hn
    simp [RcSys.init] at hn
  · intro n _
    exact hz n

/-- Every step of the counted system keeps the reference-count invariant. -/
theorem RcInv.preserved_rc {α : Type} {moved : α → α} {s s' : RcSys α} {t : Nat}
    {a : RAct α} (hI : RcInv s) (hs : rstep moved s t a = some s') : RcInv s' := by
  cases a with
  | release =>
    obtain ⟨n, rest, k, hd, hf, hr, rfl⟩ := (rstep_release_iff _ _ _ _).mp hs
    by_cases hk : k = 0
    · subst hk
      rw [if_pos rfl]
      exact hI.release_free hd hf hr
    · rw [if_neg hk]
      exact hI.release_keep hd hf hr hk
  | run a =>
    obtain ⟨hd, b, hb, hg, rfl⟩ := (rstep_run_iff _ _ _ _ _).mp hs
    have hS := (step_iff _ _ _ _ _).mp hb
    by_cases hfresh : (effect s.base t a).fresh = true
    · simp only [hfresh, if_true]
      cases hS with
      | pushLoad v ht =>
        have he : effect s.base t Act.load = ⟨[], s.base.mem.head_.toList, true, []⟩ := by
          simp [effect, ht]
        rw [he] at hg ⊢
        exact hI.run_pushLoad hd ht (fun i hi => hg i (by simpa using hi))
      | callPush v ht => simp [effect, ht] at hfresh
      | callPop ht => simp [effect, ht] at hfresh
      | pushOk c nd ht hc hh => simp [effect, ht, hc, hh] at hfresh
      | pushFail c nd b ht hc hh =>
        simp only [effect, ht, hc] at hfresh
        split at hfresh <;> cases hfresh
      | pushRet ht => simp [effect, ht] at hfresh
      | popLoad ht => simp [effect, ht] at hfresh
      | popOk n nd ht hn hh => simp [effect, ht, hn, hh] at hfresh
      | popFail n nd b ht hn hh =>
        simp only [effect, ht, hn] at hfresh
        split at hfresh <;> cases hfresh
      | popRetEmpty ht => simp [effect, ht] at hfresh
      | popRet n nd ht hn => simp [effect, ht] at hfresh
    · have hfresh' : (effect s.base t a).fresh = false := by
        cases h : (effect s.base t a).fresh with
        | true => exact absurd h hfresh
        | false => rfl
      simp only [hfresh', Bool.false_eq_true, if_false]
      exact hI.run_step_plain hd hS hfresh' hg

theorem RReachable.inv {α : Type} {moved : α → α} {k : Nat} {s : RcSys α}
    (h : RReachable moved k s) : RcInv s := by
  have key : ∀ (sched : List (Nat × RAct α)) (s s' : RcSys α), RcInv s →
      rexec moved s sched = some s' → RcInv s' := by
    intro sched
    induction sched with
    | nil =>
      intro s s' hI h
      simp only [rexec, Option.some.injEq] at h
      exact h ▸ hI
    | cons x sched ih =>
      intro s s' hI h
      obtain ⟨t, a⟩ := x
      simp only [rexec] at h
      cases hs : rstep moved s t a with
      | none => rw [hs] at h; cases h
      | some s1 =>
        rw [hs] at h
        exact ih s1 s' (hI.preserved_rc hs) h
  obtain ⟨sched, hsched⟩ := h
  exact key sched _ s (RcInv.at_zero k) hsched

/-- The counted system runs the program: forgetting the counts, an execution of it is an
execution of the plain system. -/
theorem RReachable.plain {α : Type} {moved : α → α} {k : Nat} {s : RcSys α}
    (h : RReachable moved k s) : Reachable moved k s.base := by
  have key : ∀ (sched : List (Nat × RAct α)) (s s' : RcSys α), Reachable moved k s.base →
      rexec moved s sched = some s' → Reachable moved k s'.base := by
    intro sched
    induction sched with
    | nil =>
      intro s s' hI h
      simp only [rexec, Option.some.injEq] at h
      exact h ▸ hI
    | cons x sched ih =>
      intro s s' hI h
      obtain ⟨t, a⟩ := x
      simp only [rexec] at h
      cases hs : rstep moved s t a with
      | none => rw [hs] at h; cases h
      | some s1 =>
        rw [hs] at h
        refine ih s1 s' ?_ h
        cases a with
        | release =>
          obtain ⟨n, rest, j, _, _, _, rfl⟩ := (rstep_release_iff _ _ _ _).mp hs
          split <;> exact hI
        | run a =>
          obtain ⟨_, b, hb, _, rfl⟩ := (rstep_run_iff _ _ _ _ _).mp hs
          exact hI.after hb
  obtain ⟨sched, hsched⟩ := h
  exact key sched _ s (Reachable.at_init moved k) hsched

theorem local_le_holders {α : Type} (s : RcSys α) (t n : Nat) (l : Local α)
    (h : s.base.threads[t]? = some l) : holdsLocal l n ≤ holders s n := by
  have := le_sum_map (fun l => holdsLocal l n) s.base.threads t l h
  simp only [holders, localSum] at this ⊢
  omega

theorem drop_le_holders {α : Type} (s : RcSys α) (t n : Nat) (d : List Nat)
    (h : s.drops[t]? = some d) : d.count n ≤ holders s n := by
  have := le_sum_map (fun d => d.count n) s.drops t d h
  simp only [holders, dropSum] at this ⊢
  omega

theorem link_le_holders {α : Type} (s : RcSys α) (n m : Nat)
    (h : m < s.base.mem.nodes.length) : linkAt s n m ≤ holders s n := by
  have := le_sum_map (linkAt s n) (List.range s.base.mem.nodes.length) m m
    (by rw [List.getElem?_range h])
  simp only [holders, linkSum]
  omega

theorem RcInv.live_of_local {α : Type} {s : RcSys α} (hI : RcInv s) {t n : Nat} {l : Local α}
    (h : s.base.threads[t]? = some l) (hl : holdsLocal l n = 1) :
    s.freed[n]? = some false := by
  apply holders_zero_of_not_live hI
  have := local_le_holders s t n l h
  omega

theorem RcInv.live_of_head {α : Type} {s : RcSys α} (hI : RcInv s) {n : Nat}
    (h : s.base.mem.head_ = some n) : s.freed[n]? = some false := by
  apply holders_zero_of_not_live hI
  have := head_le_holders s n
  simp only [h, if_true] at this
  omega

theorem RcInv.live_of_link {α : Type} {s : RcSys α} (hI : RcInv s) {n m : Nat} {nd : Node α}
    (hm : s.freed[m]? = some false) (hnd : s.base.mem.nodes[m]? = some nd)
    (hp : nd.prev = some n) : s.freed[n]? = some false := by
  apply holders_zero_of_not_live hI
  have := link_le_holders s n m (getElem?_lt hnd)
  simp only [linkAt, hm, prevAt_of_node _ _ _ hnd, hp, true_and, if_true] at this
  omega

/-- No use after free: whenever the program can take a step, the nodes the step dereferences
and the handles it copies are not reclaimed. -/
theorem RcInv.guard {α : Type} {moved : α → α} {s : RcSys α} {t : Nat} {a : Act α} {b : Sys α}
    (hI : RcInv s) (hs : Step moved s.base t a b) :
    ∀ i ∈ (effect s.base t a).uses ++ (effect s.base t a).incs, s.freed[i]? = some false := by
  have hhead : ∀ i ∈ s.base.mem.head_.toList, s.freed[i]? = some false := by
    intro i hi
    simp only [Option.mem_toList, Option.mem_def] at hi
    exact hI.live_of_head hi
  cases hs with
  | callPush v ht => simp [effect, ht]
  | callPop ht => simp [effect, ht]
  | pushRet ht => simp [effect, ht]
  | popRetEmpty ht => simp [effect, ht]
  | pushLoad v ht =>
    have he : effect s.base t Act.load = ⟨[], s.base.mem.head_.toList, true, []⟩ := by
      simp [effect, ht]
    rw [he]
    intro i hi
    exact hhead i (by simpa using hi)
  | popLoad ht =>
    have he : effect s.base t Act.load = ⟨[], s.base.mem.head_.toList, false, []⟩ := by
      simp [effect, ht]
    rw [he]
    intro i hi
    exact hhead i (by simpa using hi)
  | pushOk c nd ht hc hh =>
    have he : effect s.base t (Act.cas false) = ⟨[c], [c], false, nd.prev.toList ++ [c]⟩ := by
      simp [effect, ht, hc, hh]
    rw [he]
    intro i hi
    have hic : i = c := by simpa using hi
    subst hic
    exact hI.live_of_local ht (by simp [holdsLocal])
  | pushFail c nd b ht hc hh =>
    have hcond : ¬ (s.base.mem.head_ = nd.prev ∧ b = false) := by
      rintro ⟨h1, h2⟩
      rcases hh with h | h
      · exact h h1
      · rw [h2] at h; cases h
    have he : effect s.base t (Act.cas b) =
        ⟨[c], c :: s.base.mem.head_.toList, false, nd.prev.toList ++ [c]⟩ := by
      simp [effect, ht, hc, hcond]
    rw [he]
    intro i hi
    simp only [List.singleton_append, List.mem_cons] at hi
    rcases hi with rfl | rfl | hi
    · exact hI.live_of_local ht (by simp [holdsLocal])
    · exact hI.live_of_local ht (by simp [holdsLocal])
    · exact hhead i hi
  | popOk n nd ht hn hh =>
    have he : effect s.base t (Act.cas false) = ⟨[n], nd.prev.toList, false, [n]⟩ := by
      simp [effect, ht, hn, hh]
    rw [he]
    have hlive : s.freed[n]? = some false := hI.live_of_local ht (by simp [holdsLocal])
    intro i hi
    simp only [List.singleton_append, List.mem_cons] at hi
    rcases hi with rfl | hi
    · exact hlive
    · simp only [Option.mem_toList, Option.mem_def] at hi
      exact hI.live_of_link hlive hn hi
  | popFail n nd b ht hn hh =>
    have hcond : ¬ (s.base.mem.head_ = some n ∧ b = false) := by
      rintro ⟨h1, h2⟩
      rcases hh with h | h
      · exact h h1
      · rw [h2] at h; cases h
    have he : effect s.base t (Act.cas b) =
        ⟨[n], nd.prev.toList ++ s.base.mem.head_.toList, false, n :: nd.prev.toList⟩ := by
      simp [effect, ht, hn, hcond]
    rw [he]
    have hlive : s.freed[n]? = some false := hI.live_of_local ht (by simp [holdsLocal])
    intro i hi
    simp only [List.singleton_append, List.mem_cons, List.mem_append] at hi
    rcases hi with rfl | hi | hi
    · exact hlive
    · simp only [Option.mem_toList, Option.mem_def] at hi
      exact hI.live_of_link hlive hn hi
    · exact hhead i hi
  | popRet n nd ht hn =>
    have he : effect s.base t Act.ret = ⟨[n], [], false, [n]⟩ := by
      simp [effect, ht]
    rw [he]
    intro i hi
    have hic : i = n := by simpa using hi
    subst hic
    exact hI.live_of_local ht (by simp [holdsLocal])

/-- A reclaimed node stays reclaimed. -/
theorem rstep_freed_mono {α : Type} {moved : α → α} {s s' : RcSys α} {t : Nat} {a : RAct α}
    (hs : rstep moved s t a = some s') (n : Nat) (h : s.freed[n]? = some true) :
    s'.freed[n]? = some true := by
  cases a with
  | release =>
    obtain ⟨m, rest, j, _, hf, _, rfl⟩ := (rstep_release_iff _ _ _ _).mp hs
    split
    · have hne : ¬ m = n := by
        intro e
        subst e
        rw [hf] at h
        cases h
      simp only [List.getElem?_set, hne, if_false]
      exact h
    · exact h
  | run a =>
    obtain ⟨_, b, _, _, rfl⟩ := (rstep_run_iff _ _ _ _ _).mp hs
    simp only
    split
    · rw [List.getElem?_append_left (getElem?_lt h)]
      exact h
    · exact h

theorem demoCounted_reachable : RReachable id 1 demoCounted :=
  ⟨demoCountedSchedule, by decide⟩

/-- C9. No use after free, no double reclamation.  In every execution of the program with its
reference counts: the use count of a node that is not reclaimed is the number of handles to
it (head slot, `prev` of nodes not reclaimed, `active` of running calls, handles about to be
destroyed) and is positive, and nothing refers to a reclaimed node; so the node a `pop` has
observed, the node it has taken off and the candidate of a `push` are not reclaimed while
the call holds them.  Every step the program can take, it can take without dereferencing or
copying a handle to a reclaimed node, in particular the read of the value a `pop` returns.
The destruction of a handle always finds its node not reclaimed, and reclaims it exactly if
it was the last handle; a reclaimed node stays reclaimed. -/
theorem no_use_after_free {α : Type} (moved : α → α) (k : Nat) (s : RcSys α)
    (hr : RReachable moved k s) :
    (∀ n : Nat, s.freed[n]? = some false → rcAt s n = holders s n ∧ 0 < holders s n) ∧
    (∀ n : Nat, s.freed[n]? ≠ some false → holders s n = 0) ∧
    (∀ t n : Nat, s.base.threads[t]? = some (Local.popLoop (some n)) ∨
        s.base.threads[t]? = some (Local.popDone n) ∨
        s.base.threads[t]? = some (Local.pushCas n) → s.freed[n]? = some false) ∧
    (∀ (t : Nat) (a : Act α) (b : Sys α), s.drops[t]? = some [] →
      step moved s.base t a = some b →
      ∃ s', rstep moved s t (RAct.run a) = some s' ∧ s'.base = b) ∧
    (∀ (t n : Nat) (rest : List Nat), s.drops[t]? = some (n :: rest) →
      s.freed[n]? = some false ∧
      ∃ s', rstep moved s t RAct.release = some s' ∧
        (s'.freed[n]? = some true ↔ holders s n = 1) ∧
        ∀ m : Nat, m ≠ n → s'.freed[m]? = s.freed[m]?) ∧
    (∀ (t : Nat) (a : RAct α) (s' : RcSys α), rstep moved s t a = some s' →
      ∀ n : Nat, s.freed[n]? = some true → s'.freed[n]? = some true) := by
  have hI := hr.inv
  refine ⟨hI.counted, hI.gone, ?_, ?_, ?_, fun t a s' hs => rstep_freed_mono hs⟩
  · intro t n h
    rcases h with h | h | h
    · exact hI.live_of_local h (by simp [holdsLocal])
    · exact hI.live_of_local h (by simp [holdsLocal])
    · exact hI.live_of_local h (by simp [holdsLocal])
  · intro t a b hd hb
    have hS := (step_iff _ _ _ _ _).mp hb
    exact ⟨_, (rstep_run_iff _ _ _ _ _).mpr ⟨hd, b, hb, hI.guard hS, rfl⟩, rfl⟩
  · intro t n rest hd
    have hpos : 0 < holders s n := by
      have := drop_le_holders s t n _ hd
      simp only [List.count_cons_self] at this
      omega
    have hlive := holders_zero_of_not_live hI hpos
    have hc := hI.counted n hlive
    have hlt : n < s.rc.length := by
      rw [hI.lenRc]
      exact live_lt hI hlive
    have hrc : s.rc[n]? = some (rcAt s n - 1 + 1) := by
      rw [List.getElem?_eq_getElem hlt]
      simp only [rcAt, List.getElem?_eq_getElem hlt, Option.getD_some] at hc ⊢
      congr 1
      omega
    refine ⟨hlive, _, (rstep_release_iff _ _ _ _).mpr ⟨n, rest, _, hd, hlive, hrc, rfl⟩, ?_, ?_⟩
    · have hfl : n < s.freed.length := getElem?_lt hlive
      by_cases hk : rcAt s n - 1 = 0
      · rw [if_pos hk]
        simp only [List.getElem?_set, if_true, hfl]
        constructor
        · intro _
          omega
        · intro _
          trivial
      · rw [if_neg hk]
        simp only [hlive]
        constructor
        · intro h
          cases h
        · intro h
          omega
    · intro m hm
      have hne : ¬ n = m := fun e => hm e.symm
      split
      · simp only [List.getElem?_set, hne, if_false]
      · rfl

theorem no_use_after_free_witness :
    (∀ n : Nat, demoCounted.freed[n]? = some false →
      rcAt demoCounted n = holders demoCounted n ∧ 0 < holders demoCounted n) ∧
    (∀ n : Nat, demoCounted.freed[n]? ≠ some false → holders demoCounted n = 0) ∧
    (∀ t n : Nat, demoCounted.base.threads[t]? = some (Local.popLoop (some n)) ∨
        demoCounted.base.threads[t]? = some (Local.popDone n) ∨
        demoCounted.base.threads[t]? = some (Local.pushCas n) →
      demoCounted.freed[n]? = some false) ∧
    (∀ (t : Nat) (a : Act Nat) (b : Sys Nat), demoCounted.drops[t]? = some [] →
      step id demoCounted.base t a = some b →
      ∃ s', rstep id demoCounted t (RAct.run a) = some s' ∧ s'.base = b) ∧
    (∀ (t n : Nat) (rest : List Nat), demoCounted.drops[t]? = some (n :: rest) →
      demoCounted.freed[n]? = some false ∧
      ∃ s', rstep id demoCounted t RAct.release = some s' ∧
        (s'.freed[n]? = some true ↔ holders demoCounted n = 1) ∧
        ∀ m : Nat, m ≠ n → s'.freed[m]? = demoCounted.freed[m]?) ∧
    (∀ (t : Nat) (a : RAct Nat) (s' : RcSys Nat), rstep id demoCounted t a = some s' →
      ∀ n : Nat, demoCounted.freed[n]? = some true → s'.freed[n]? = some true) :=
  no_use_after_free id 1 demoCounted demoCounted_reachable

/-! ## The chain in order of installation -/

/-- What a step does to the chain below the head: the successful compare-and-swap of a `push`
puts its candidate on top, that of a `pop` takes the first node off, and every other step
leaves the chain as it is. -/
theorem Step.chain_next {α : Type} {moved : α → α} {s s' : Sys α} {t : Nat} {a : Act α}
    (hs : Step moved s t a s') (hw : WF s) {l : List Nat}
    (hl : Chain s.mem.nodes s.mem.head_ l) :
    (∃ c old, s'.hist = Event.pushed t c old :: s.hist ∧ wasPushed s.hist c = false ∧
      Chain s'.mem.nodes s'.mem.head_ (c :: l)) ∨
    (∃ n new l', s'.hist = Event.popped t n new :: s.hist ∧ l = n :: l' ∧
      Chain s'.mem.nodes s'.mem.head_ l') ∨
    (∃ e, s'.hist = e :: s.hist ∧ Event.swapped e = 0 ∧
      Chain s'.mem.nodes s'.mem.head_ l) := by
  obtain ⟨l0, hl0, hp⟩ := hw.chain
  cases hl0.unique hl
  cases hs with
  | callPush v ht => exact Or.inr (Or.inr ⟨_, rfl, rfl, hl⟩)
  | callPop ht => exact Or.inr (Or.inr ⟨_, rfl, rfl, hl⟩)
  | pushRet ht => exact Or.inr (Or.inr ⟨_, rfl, rfl, hl⟩)
  | popRetEmpty ht => exact Or.inr (Or.inr ⟨_, rfl, rfl, hl⟩)
  | popLoad ht => exact Or.inr (Or.inr ⟨_, rfl, rfl, hl⟩)
  | popFail n nd b ht hn hh => exact Or.inr (Or.inr ⟨_, rfl, rfl, hl⟩)
  | pushLoad v ht => exact Or.inr (Or.inr ⟨_, rfl, rfl, hl.append _⟩)
  | pushOk c nd ht hc hh =>
    refine Or.inl ⟨c, nd.prev, rfl, (hw.cand t c ht).2, ?_⟩
    exact Chain.cons hc (hh ▸ hl)
  | pushFail c nd b ht hc hh =>
    have hcl : c ∉ l := by
      intro hmem
      have := (hp c hmem).1
      rw [(hw.cand t c ht).2] at this
      cases this
    exact Or.inr (Or.inr ⟨_, rfl, rfl, hl.modify_of_not_mem _ c hcl⟩)
  | popOk n nd ht hn hh =>
    have hl1 := hl
    rw [hh] at hl1
    cases hl1 with
    | @cons _ nd1 l1 hn1 hc1 =>
      rw [hn] at hn1
      cases hn1
      exact Or.inr (Or.inl ⟨n, nd.prev, l1, rfl, rfl, hc1⟩)
  | popRet n nd ht hn =>
    exact Or.inr (Or.inr ⟨_, rfl, rfl, hl.modify_of_prev _ n (fun _ => rfl)⟩)

theorem mem_pushOrder {α : Type} (hist : List (Event α)) (c : Nat) :
    c ∈ pushOrder hist ↔ wasPushed hist c = true := by
  induction hist with
  | nil => simp [pushOrder, wasPushed]
  | cons e es ih =>
    rw [wasPushed_cons]
    cases e <;> simp [pushOrder, List.filterMap_cons] at ih ⊢ <;> try exact ih
    rename_i t c' old
    rw [ih]
    constructor
    · rintro (h | h)
      · exact Or.inl h.symm
      · exact Or.inr h
    · rintro (h | h)
      · exact Or.inl h.symm
      · exact Or.inr h

theorem pushOrder_cons {α : Type} (e : Event α) (es : List (Event α))
    (h : ∀ t c old, e ≠ Event.pushed t c old) : pushOrder (e :: es) = pushOrder es := by
  cases e <;> simp [pushOrder, List.filterMap_cons] at h ⊢

theorem liveNodes_cons {α : Type} (e : Event α) (es : List (Event α))
    (h : Event.swapped e = 0) : liveNodes (e :: es) = liveNodes es := by
  unfold liveNodes
  have h1 : pushOrder (e :: es) = pushOrder es := by
    apply pushOrder_cons
    intro t c old he
    rw [he] at h
    cases h
  have h2 : ∀ n, wasPopped (e :: es) n = wasPopped es n := by
    intro n
    rw [wasPopped_cons]
    cases e <;> first | rfl | cases h
  rw [h1]
  apply List.filter_congr
  intro n _
  rw [h2]

theorem Ordered.at_fresh {α : Type} (k : Nat) : Ordered (Sys.init k : Sys α) :=
  ⟨List.nodup_nil, Chain.nil⟩

theorem Ordered.preserved_order {α : Type} {moved : α → α} {s s' : Sys α} {t : Nat}
    {a : Act α} (hw : WF s) (ho : Ordered s) (hs : Step moved s t a s') : Ordered s' := by
  rcases hs.chain_next hw ho.live with ⟨c, old, he, hc, hch⟩ | ⟨n, new, l', he, hl, hch⟩ |
    ⟨e, he, hsw, hch⟩
  · have hpo : pushOrder s'.hist = c :: pushOrder s.hist := by rw [he]; rfl
    have hnot : wasPopped s.hist c = false := by
      cases h : wasPopped s.hist c with
      | false => rfl
      | true =>
        have := hw.popPub c h
        rw [hc] at this
        cases this
    have hwp : ∀ n, wasPopped s'.hist n = wasPopped s.hist n := by
      intro n; rw [he]; rfl
    constructor
    · rw [hpo]
      refine List.nodup_cons.mpr ⟨?_, ho.once⟩
      rw [mem_pushOrder, hc]
      exact Bool.false_ne_true
    · have : liveNodes s'.hist = c :: liveNodes s.hist := by
        unfold liveNodes
        rw [hpo, List.filter_cons, hwp c, hnot]
        simp only [Bool.not_false, if_true]
        congr 1
        apply List.filter_congr
        intro n _
        rw [hwp]
      rw [this]
      exact hch
  · have hpo : pushOrder s'.hist = pushOrder s.hist := by rw [he]; rfl
    have hwp : ∀ m, wasPopped s'.hist m = (decide (n = m) || wasPopped s.hist m) := by
      intro m; rw [he, wasPopped_cons]
    have hnd := ho.live.nodup
    rw [hl] at hnd
    have hnl : n ∉ l' := (List.nodup_cons.mp hnd).1
    constructor
    · rw [hpo]; exact ho.once
    · have : liveNodes s'.hist = l' := by
        have h1 : liveNodes s'.hist = (liveNodes s.hist).filter (fun m => !decide (n = m)) := by
          unfold liveNodes
          rw [hpo, List.filter_filter]
          apply List.filter_congr
          intro m _
          rw [hwp]
          cases decide (n = m) <;> cases wasPopped s.hist m <;> rfl
        rw [h1, hl, List.filter_cons]
        simp only [decide_True, Bool.not_true, Bool.false_eq_true, if_false]
        apply List.filter_eq_self.mpr
        intro m hm
        have : n ≠ m := fun e => hnl (e ▸ hm)
        simp [this]
      rw [this]
      exact hch
  · constructor
    · rw [he, pushOrder_cons]
      · exact ho.once
      · intro t c old h
        rw [h] at hsw
        cases hsw
    · rw [he, liveNodes_cons _ _ hsw]
      exact hch

theorem Reachable.ordered {α : Type} {moved : α → α} {k : Nat} {s : Sys α}
    (h : Reachable moved k s) : Ordered s :=
  Reachable.induction Ordered (Ordered.at_fresh k)
    (fun _ _ _ _ hr hp hs => Ordered.preserved_order hr.wf hp hs) s h

theorem walk_complete {α : Type} {nodes : List (Node α)} {p : Option Nat} {l : List Nat}
    (h : Chain nodes p l) : ∀ fuel, l.length ≤ fuel → walk nodes fuel p = some l := by
  induction h with
  | nil => intro fuel _; cases fuel <;> rfl
  | @cons m nd l hm _ ih =>
    intro fuel hf
    cases fuel with
    | zero => simp at hf
    | succ fuel =>
      simp only [walk, hm]
      rw [ih fuel (by simpa using hf)]
      rfl

theorem Chain.length_le {α : Type} {nodes : List (Node α)} {p : Option Nat} {l : List Nat}
    (h : Chain nodes p l) : l.length ≤ nodes.length := by
  have hsub : l ⊆ List.range nodes.length := by
    intro n hn
    exact List.mem_range.mpr (h.lt_length n hn)
  have := (List.subperm_of_subset h.nodup hsub).length_le
  simpa using this

/-- C11. Chain well-formedness.  After any list of calls run one after the other on a fresh
stack, and in every state reachable by interleaving the steps of `push` and `pop` calls on a
fresh stack, following `prev` from the head visits finitely many nodes, no node twice, and
ends at the empty handle (the walk with as much fuel as there are nodes finds the chain);
every handle on the way refers to a node.  The values met are exactly the content of the
sequential stack after the same calls, respectively after the calls linearized so far, top
first; and in a concurrent execution the nodes met are exactly the nodes installed as head
and not taken off since, the most recently installed first. -/
theorem chain_well_formed {α : Type} (moved : α → α) (ops : List (Op α × List Bool))
    (hops : ∀ o ∈ ops, false ∈ o.2) (k : Nat) (s : Sys α) (hr : Reachable moved k s) :
    (∃ m l, Stack.exec moved Stack.empty ops =
        some (m, (specRun [] (ops.map (fun o => o.1))).2) ∧
      Chain m.nodes m.head_ l ∧ l.Nodup ∧ walk m.nodes m.nodes.length m.head_ = some l ∧
      (valuesOf m.nodes l).length = l.length ∧
      valuesOf m.nodes l = (specRun [] (ops.map (fun o => o.1))).1) ∧
    (∃ l, Chain s.mem.nodes s.mem.head_ l ∧ l.Nodup ∧
      walk s.mem.nodes s.mem.nodes.length s.mem.head_ = some l ∧
      (valuesOf s.mem.nodes l).length = l.length ∧
      valuesOf s.mem.nodes l = specFinal [] ((linearization s).map (fun x => x.2.1)) ∧
      l = liveNodes s.hist) := by
  constructor
  · obtain ⟨m, l, h1, h2, h3⟩ := exec_refines moved ops Stack.empty [] hops Chain.nil
    exact ⟨m, l, h1, h2, h2.nodup, walk_complete h2 _ h2.length_le, h2.valuesOf_length, h3⟩
  · have ho := hr.ordered
    refine ⟨_, ho.live, ho.live.nodup, walk_complete ho.live _ ho.live.length_le,
      ho.live.valuesOf_length, ?_, rfl⟩
    rw [← hr.lin.abs _ ho.live]
    exact (linHist_legal s.hist).2.symm

theorem chain_well_formed_witness :
    (∃ m l, Stack.exec id (Stack.empty : Stack Nat)
        [(Op.push 1, [false]), (Op.push 2, [true, false]), (Op.pop, [false])] =
        some (m, (specRun [] [Op.push 1, Op.push 2, Op.pop]).2) ∧
      Chain m.nodes m.head_ l ∧ l.Nodup ∧ walk m.nodes m.nodes.length m.head_ = some l ∧
      (valuesOf m.nodes l).length = l.length ∧
      valuesOf m.nodes l = (specRun [] [Op.push 1, Op.push 2, Op.pop]).1) ∧
    (∃ l, Chain demoRace.mem.nodes demoRace.mem.head_ l ∧ l.Nodup ∧
      walk demoRace.mem.nodes demoRace.mem.nodes.length demoRace.mem.head_ = some l ∧
      (valuesOf demoRace.mem.nodes l).length = l.length ∧
      valuesOf demoRace.mem.nodes l =
        specFinal [] ((linearization demoRace).map (fun x => x.2.1)) ∧
      l = liveNodes demoRace.hist) :=
  chain_well_formed id
    [(Op.push 1, [false]), (Op.push 2, [true, false]), (Op.pop, [false])] (by decide) 2
    demoRace demoRace_reachable

/-! ## The retry loops -/

theorem wasPushed_suffix {α : Type} {es es' : List (Event α)} (h : es <:+ es') (c : Nat)
    (hc : wasPushed es c = true) : wasPushed es' c = true := by
  obtain ⟨pre, rfl⟩ := h
  induction pre with
  | nil => exact hc
  | cons e pre ih => exact wasPushed_mono _ _ _ ih

theorem wasPopped_suffix {α : Type} {es es' : List (Event α)} (h : es <:+ es') (c : Nat)
    (hc : wasPopped es c = true) : wasPopped es' c = true := by
  obtain ⟨pre, rfl⟩ := h
  induction pre with
  | nil => exact hc
  | cons e pre ih => exact wasPopped_mono _ _ _ ih

/-- C12. Push retry keeps the candidate consistent.  Take any concurrent execution and a
`push` about to run its compare-and-swap with candidate `c`.  The `prev` of the candidate is
the head value the call observed last, and the candidate is not reachable from the head, now
or at any earlier moment of the execution.  The compare-and-swap either fails or succeeds.
If it fails, the head did not equal `prev` or the failure was spurious; the step writes the
head value of that instant into the `prev` of the candidate and changes nothing else, and
this value is what the call has observed last from then on.  If it succeeds, the `prev` of
the installed node equals the head value immediately before the swap, the head becomes the
candidate and no node changes. -/
theorem push_retry_keeps_candidate {α : Type} (moved : α → α) (k : Nat) (s s' : Sys α)
    (t c : Nat) (b : Bool) (hr : Reachable moved k s)
    (ht : s.threads[t]? = some (Local.pushCas c))
    (hs : step moved s t (Act.cas b) = some s') :
    ∃ nd, s.mem.nodes[c]? = some nd ∧ lastSeen s.hist t = some nd.prev ∧
      (∀ l, Chain s.mem.nodes s.mem.head_ l → c ∉ l) ∧
      (∀ (s0 : Sys α) (sched : Schedule α) (l0 : List Nat), Reachable moved k s0 →
        exec moved s0 sched = some s → Chain s0.mem.nodes s0.mem.head_ l0 → c ∉ l0) ∧
      ((s'.threads[t]? = some (Local.pushCas c) ∧ (s.mem.head_ ≠ nd.prev ∨ b = true) ∧
          s'.mem.nodes[c]? = some ⟨nd.value, s.mem.head_⟩ ∧
          (∀ i, i ≠ c → s'.mem.nodes[i]? = s.mem.nodes[i]?) ∧
          s'.mem.head_ = s.mem.head_ ∧ lastSeen s'.hist t = some s.mem.head_) ∨
        (s'.threads[t]? = some Local.pushDone ∧ b = false ∧ nd.prev = s.mem.head_ ∧
          s'.mem.head_ = some c ∧ s'.mem.nodes = s.mem.nodes ∧
          s'.mem.nodes[c]? = some ⟨nd.value, s.mem.head_⟩)) := by
  have hw := hr.wf
  obtain ⟨nd, hnd, _, hseen, _⟩ := hr.book t _ ht
  have hnp : wasPushed s.hist c = false := (hw.cand t c ht).2
  have hout : ∀ (s0 : Sys α), Reachable moved k s0 → s0.hist <:+ s.hist →
      ∀ l0, Chain s0.mem.nodes s0.mem.head_ l0 → c ∉ l0 := by
    intro s0 hr0 hsuf l0 hl0 hmem
    obtain ⟨l1, hl1, hp⟩ := hr0.wf.chain
    cases hl1.unique hl0
    have := wasPushed_suffix hsuf c (hp c hmem).1
    rw [hnp] at this
    cases this
  refine ⟨nd, hnd, hseen, hout s hr (List.suffix_refl _), ?_, ?_⟩
  · intro s0 sched l0 hr0 he
    exact hout s0 hr0 (exec_grows moved sched s0 s he).1 l0
  · have hS := (step_iff _ _ _ _ _).mp hs
    cases hS with
    | pushOk c' nd' ht' hc' hh =>
      rw [ht] at ht'
      cases ht'
      rw [hnd] at hc'
      cases hc'
      right
      refine ⟨advance_threads_self ht _ _ _, rfl, hh.symm, rfl, rfl, ?_⟩
      simp only [advance_mem]
      rw [hnd, hh]
    | pushFail c' nd' b' ht' hc' hh =>
      rw [ht] at ht'
      cases ht'
      rw [hnd] at hc'
      cases hc'
      left
      refine ⟨advance_threads_self ht _ _ _, hh, ?_, ?_, rfl, ?_⟩
      · simp only [advance_mem, Stack.setPrev]
        rw [List.getElem?_modify_eq, hnd]
        rfl
      · intro i hi
        simp only [advance_mem, Stack.setPrev]
        rw [List.getElem?_modify_ne _ _ (fun e => hi e.symm)]
      · simp [lastSeen, Event.tid]
    | popOk n nd' ht' hn hh =>
      rw [ht] at ht'
      cases ht'
    | popFail n nd' b' ht' hn hh =>
      rw [ht] at ht'
      cases ht'

theorem push_retry_keeps_candidate_witness :
    ∃ nd, demoRace.mem.nodes[0]? = some nd ∧ lastSeen demoRace.hist 0 = some nd.prev ∧
      (∀ l, Chain demoRace.mem.nodes demoRace.mem.head_ l → 0 ∉ l) ∧
      (∀ (s0 : Sys Nat) (sched : Schedule Nat) (l0 : List Nat), Reachable id 2 s0 →
        exec id s0 sched = some demoRace → Chain s0.mem.nodes s0.mem.head_ l0 → 0 ∉ l0) ∧
      ((demoRetried.threads[0]? = some (Local.pushCas 0) ∧
          (demoRace.mem.head_ ≠ nd.prev ∨ false = true) ∧
          demoRetried.mem.nodes[0]? = some ⟨nd.value, demoRace.mem.head_⟩ ∧
          (∀ i, i ≠ 0 → demoRetried.mem.nodes[i]? = demoRace.mem.nodes[i]?) ∧
          demoRetried.mem.head_ = demoRace.mem.head_ ∧
          lastSeen demoRetried.hist 0 = some demoRace.mem.head_) ∨
        (demoRetried.threads[0]? = some Local.pushDone ∧ false = false ∧
          nd.prev = demoRace.mem.head_ ∧
          demoRetried.mem.head_ = some 0 ∧ demoRetried.mem.nodes = demoRace.mem.nodes ∧
          demoRetried.mem.nodes[0]? = some ⟨nd.value, demoRace.mem.head_⟩)) :=
  push_retry_keeps_candidate id 2 demoRace demoRetried 0 0 false demoRace_reachable
    (by decide) (by decide)

/-- The steps of other threads leave the local state of a thread as it is. -/
theorem local_stable {α : Type} {moved : α → α} {u : Nat} {l : Local α} :
    ∀ (sched : Schedule α) (s1 s2 : Sys α), s1.threads[u]? = some l →
      (∀ x ∈ sched, x.1 ≠ u) → exec moved s1 sched = some s2 → s2.threads[u]? = some l := by
  intro sched
  induction sched with
  | nil =>
    intro s1 s2 h1 _ he
    simp only [exec, Option.some.injEq] at he
    subst he
    exact h1
  | cons x sched ih =>
    intro s1 s2 h1 hx he
    obtain ⟨t, a⟩ := x
    simp only [exec] at he
    cases hst : step moved s1 t a with
    | none => rw [hst] at he; cases he
    | some s3 =>
      rw [hst] at he
      have hne : u ≠ t := fun e => hx (t, a) (List.mem_cons_self _ _) e.symm
      obtain ⟨l0, m, l1, e, ht, hs', _⟩ := ((step_iff _ _ _ _ _).mp hst).shape
      have h3 : s3.threads[u]? = some l := by
        rw [hs', advance_threads_ne ht _ _ _ hne]
        exact h1
      exact ih s3 s2 h3 (fun y hy => hx y (List.mem_cons_of_mem _ hy)) he

/-- C13. Pop retry re-checks emptiness and uses a fresh `prev`.  Take any concurrent execution
and a `pop` about to run its compare-and-swap with `active` referring to node `n`.  No step of
any thread changes the `prev` of `n`.  The compare-and-swap either succeeds or fails.  If it
succeeds, `n` was the head immediately before the swap and the head becomes the `prev` of
this same `n`.  If it fails, `n` was not the head or the failure was spurious; the memory is
unchanged and `active` becomes the head of that instant, which the loop test examines next.
A `pop` whose `active` is empty after its `load` or after such a refresh has observed the
head empty last and has never written the head; it stays so whatever other threads do, it
makes no compare-and-swap, and its next step returns nothing and leaves the memory
unchanged. -/
theorem pop_retry_rechecks {α : Type} (moved : α → α) (k : Nat) (s s' s0 : Sys α)
    (t n u : Nat) (b : Bool) (hr : Reachable moved k s)
    (ht : s.threads[t]? = some (Local.popLoop (some n)))
    (hs : step moved s t (Act.cas b) = some s')
    (hr0 : Reachable moved k s0) (hu : s0.threads[u]? = some (Local.popLoop none)) :
    (∃ nd, s.mem.nodes[n]? = some nd ∧ s'.mem.nodes = s.mem.nodes ∧
      (∀ (v : Nat) (a : Act α) (s1 : Sys α), step moved s v a = some s1 →
        ∃ nd1, s1.mem.nodes[n]? = some nd1 ∧ nd1.prev = nd.prev) ∧
      ((s'.threads[t]? = some (Local.popDone n) ∧ b = false ∧ s.mem.head_ = some n ∧
          s'.mem.head_ = nd.prev) ∨
        (s'.threads[t]? = some (Local.popLoop s.mem.head_) ∧
          (s.mem.head_ ≠ some n ∨ b = true) ∧ s'.mem = s.mem ∧
          lastSeen s'.hist t = some s.mem.head_ ∧ wroteHead s'.hist t = false))) ∧
    (lastSeen s0.hist u = some none ∧ wroteHead s0.hist u = false ∧
      (∀ b0, step moved s0 u (Act.cas b0) = none) ∧
      (∃ s1, step moved s0 u Act.ret = some s1 ∧ s1.hist = Event.res u none :: s0.hist ∧
        s1.mem = s0.mem ∧ s1.threads[u]? = some Local.idle) ∧
      ∀ (sched : Schedule α) (s2 : Sys α), (∀ x ∈ sched, x.1 ≠ u) →
        exec moved s0 sched = some s2 → s2.threads[u]? = some (Local.popLoop none)) := by
  have hw := hr.wf
  constructor
  · have hpub := hw.popObs t n ht
    obtain ⟨nd, hnd⟩ : ∃ nd, s.mem.nodes[n]? = some nd :=
      ⟨_, List.getElem?_eq_getElem (hw.pubLt n hpub)⟩
    obtain ⟨_, _, hwr⟩ := hr.book t _ ht
    refine ⟨nd, hnd, ?_, ?_, ?_⟩
    · have hS := (step_iff _ _ _ _ _).mp hs
      cases hS with
      | pushOk c' nd' ht' hc' hh => rw [ht] at ht'; cases ht'
      | pushFail c' nd' b' ht' hc' hh => rw [ht] at ht'; cases ht'
      | popOk n' nd' ht' hn hh => rfl
      | popFail n' nd' b' ht' hn hh => rfl
    · intro v a s1 h1
      rcases ((step_iff _ _ _ _ _).mp h1).node_change hnd with h | ⟨h, _⟩ | ⟨_, _, h⟩
      · exact ⟨nd, h, rfl⟩
      · rw [(hw.cand v n h).2] at hpub
        cases hpub
      · exact ⟨_, h, rfl⟩
    · have hS := (step_iff _ _ _ _ _).mp hs
      cases hS with
      | pushOk c' nd' ht' hc' hh => rw [ht] at ht'; cases ht'
      | pushFail c' nd' b' ht' hc' hh => rw [ht] at ht'; cases ht'
      | popOk n' nd' ht' hn hh =>
        rw [ht] at ht'
        cases ht'
        rw [hnd] at hn
        cases hn
        exact Or.inl ⟨advance_threads_self ht _ _ _, rfl, hh, rfl⟩
      | popFail n' nd' b' ht' hn hh =>
        rw [ht] at ht'
        cases ht'
        refine Or.inr ⟨advance_threads_self ht _ _ _, hh, rfl, ?_, ?_⟩
        · simp [lastSeen, Event.tid]
        · simp only [advance_hist, wroteHead, Event.tid, if_true]
          exact hwr
  · obtain ⟨_, hseen, hwr⟩ := hr0.book u _ hu
    refine ⟨hseen, hwr, ?_, ?_, ?_⟩
    · intro b0
      simp only [step, hu]
    · refine ⟨_, ((step_iff _ _ _ _ _).mpr (Step.popRetEmpty hu)), rfl, rfl, ?_⟩
      exact advance_threads_self hu _ _ _
    · intro sched s2 hx he
      exact local_stable sched s0 s2 hu hx he

theorem pop_retry_rechecks_witness :
    (∃ nd, demoPop.mem.nodes[0]? = some nd ∧ demoPopped.mem.nodes = demoPop.mem.nodes ∧
      (∀ (v : Nat) (a : Act Nat) (s1 : Sys Nat), step id demoPop v a = some s1 →
        ∃ nd1, s1.mem.nodes[0]? = some nd1 ∧ nd1.prev = nd.prev) ∧
      ((demoPopped.threads[0]? = some (Local.popDone 0) ∧ false = false ∧
          demoPop.mem.head_ = some 0 ∧ demoPopped.mem.head_ = nd.prev) ∨
        (demoPopped.threads[0]? = some (Local.popLoop demoPop.mem.head_) ∧
          (demoPop.mem.head_ ≠ some 0 ∨ false = true) ∧ demoPopped.mem = demoPop.mem ∧
          lastSeen demoPopped.hist 0 = some demoPop.mem.head_ ∧
          wroteHead demoPopped.hist 0 = false))) ∧
    (lastSeen demoEmptyPop.hist 0 = some none ∧ wroteHead demoEmptyPop.hist 0 = false ∧
      (∀ b0, step id demoEmptyPop 0 (Act.cas b0) = none) ∧
      (∃ s1, step id demoEmptyPop 0 Act.ret = some s1 ∧
        s1.hist = Event.res 0 none :: demoEmptyPop.hist ∧
        s1.mem = demoEmptyPop.mem ∧ s1.threads[0]? = some Local.idle) ∧
      ∀ (sched : Schedule Nat) (s2 : Sys Nat), (∀ x ∈ sched, x.1 ≠ 0) →
        exec id demoEmptyPop sched = some s2 →
        s2.threads[0]? = some (Local.popLoop none)) :=
  pop_retry_rechecks id 1 demoPop demoPopped demoEmptyPop 0 0 0 false demoPop_reachable
    (by decide) (by decide) demoEmptyPop_reachable (by decide)

/-! ## Retries and head changes -/

theorem swapsSinceSeen_cons_ne {α : Type} (e : Event α) (es : List (Event α)) (u : Nat)
    (h : Event.tid e ≠ u) :
    swapsSinceSeen u (e :: es) = Event.swapped e + swapsSinceSeen u es := by
  simp [swapsSinceSeen, h]

theorem swapsSinceSeen_cons_self {α : Type} (e : Event α) (es : List (Event α)) (u : Nat)
    (h : Event.tid e = u) : swapsSinceSeen u (e :: es) = 0 := by
  simp [swapsSinceSeen, h]

theorem swapsSinceLoad_cons_ne {α : Type} (e : Event α) (es : List (Event α)) (u : Nat)
    (h : Event.tid e ≠ u) :
    swapsSinceLoad u (e :: es) = Event.swapped e + swapsSinceLoad u es := by
  cases e <;> simp only [swapsSinceLoad, Event.swapped] <;> simp only [Event.tid] at h <;>
    simp [h]

theorem attemptsOf_cons_ne {α : Type} (e : Event α) (es : List (Event α)) (u : Nat)
    (h : Event.tid e ≠ u) : attemptsOf u (e :: es) = attemptsOf u es := by
  cases e <;> simp only [attemptsOf] <;> simp only [Event.tid] at h <;> simp [h]

/-- The event of a step records a successful compare-and-swap, or the step leaves the head
slot alone. -/
theorem Step.event_swap {α : Type} {moved : α → α} {s s' : Sys α} {t : Nat} {a : Act α}
    (hs : Step moved s t a s') :
    ∃ e, s'.hist = e :: s.hist ∧ Event.tid e = t ∧
      (Event.swapped e = 0 ∧ s'.mem.head_ = s.mem.head_ ∨ Event.swapped e = 1) := by
  cases hs with
  | callPush v ht => exact ⟨_, rfl, rfl, Or.inl ⟨rfl, rfl⟩⟩
  | callPop ht => exact ⟨_, rfl, rfl, Or.inl ⟨rfl, rfl⟩⟩
  | pushLoad v ht => exact ⟨_, rfl, rfl, Or.inl ⟨rfl, rfl⟩⟩
  | pushOk c nd ht hc hh => exact ⟨_, rfl, rfl, Or.inr rfl⟩
  | pushFail c nd b ht hc hh => exact ⟨_, rfl, rfl, Or.inl ⟨rfl, rfl⟩⟩
  | pushRet ht => exact ⟨_, rfl, rfl, Or.inl ⟨rfl, rfl⟩⟩
  | popLoad ht => exact ⟨_, rfl, rfl, Or.inl ⟨rfl, rfl⟩⟩
  | popOk n nd ht hn hh => exact ⟨_, rfl, rfl, Or.inr rfl⟩
  | popFail n nd b ht hn hh => exact ⟨_, rfl, rfl, Or.inl ⟨rfl, rfl⟩⟩
  | popRetEmpty ht => exact ⟨_, rfl, rfl, Or.inl ⟨rfl, rfl⟩⟩
  | popRet n nd ht hn => exact ⟨_, rfl, rfl, Or.inl ⟨rfl, rfl⟩⟩

/-- Whether the next attempt of a thread is bound to fail is not changed by a step of another
thread that leaves the head alone. -/
theorem stale_frame {α : Type} {moved : α → α} {s s' : Sys α} {t : Nat} {a : Act α}
    (hs : Step moved s t a s') (hw : WF s) {u : Nat} {l : Local α}
    (hu : s.threads[u]? = some l) (hne : u ≠ t) (hd : Option Nat) :
    stale s'.mem.nodes hd l = stale s.mem.nodes hd l := by
  cases l with
  | pushCas c =>
    simp only [stale]
    rw [hs.cand_frame hw hu hne]
  | idle => rfl
  | pushStart v => rfl
  | pushDone => rfl
  | popStart => rfl
  | popLoop x => cases x <;> rfl
  | popDone n => rfl

theorem Fresh.of_le {α : Type} {nodes nodes' : List (Node α)} {head head' : Option Nat}
    {hist hist' : List (Event α)} {t : Nat} {l : Local α}
    (h : Fresh nodes head hist t l) (ha : attemptsOf t hist' = attemptsOf t hist)
    (hsp : spuriousOf t hist' = spuriousOf t hist)
    (hle : stale nodes' head' l + swapsSinceLoad t hist ≤
      stale nodes head l + swapsSinceLoad t hist') :
    Fresh nodes' head' hist' t l := by
  cases l with
  | idle => trivial
  | pushDone => trivial
  | popDone n => trivial
  | pushStart v =>
    simp only [Fresh] at h ⊢
    rw [ha]; exact h
  | popStart =>
    simp only [Fresh] at h ⊢
    rw [ha]; exact h
  | pushCas c =>
    simp only [Fresh] at h ⊢
    rw [ha, hsp]
    omega
  | popLoop x =>
    simp only [Fresh] at h ⊢
    rw [ha, hsp]
    omega

/-- The account of a thread survives the steps of other threads. -/
theorem Attempts.frame_account {α : Type} {moved : α → α} {s s' : Sys α} {t : Nat} {a : Act α}
    (hs : Step moved s t a s') (hw : WF s) (hA : Attempts s) {u : Nat} {l : Local α}
    (hu : s.threads[u]? = some l) (hne : u ≠ t) :
    stale s'.mem.nodes s'.mem.head_ l ≤ swapsSinceSeen u s'.hist ∧
      Fresh s'.mem.nodes s'.mem.head_ s'.hist u l := by
  obtain ⟨e, he, htid, hsw⟩ := hs.event_swap
  have hne' : Event.tid e ≠ u := by rw [htid]; exact fun h => hne h.symm
  have h1 := hA.seen u l hu
  have h2 := hA.budget u l hu
  have hfr := stale_frame hs hw hu hne
  have hle1 := stale_le_one s'.mem.nodes s'.mem.head_ l
  rw [he, swapsSinceSeen_cons_ne _ _ _ hne']
  have hst : stale s'.mem.nodes s'.mem.head_ l ≤
      Event.swapped e + stale s.mem.nodes s.mem.head_ l := by
    rcases hsw with ⟨h0, hh⟩ | h1'
    · rw [hh, hfr, h0]; omega
    · omega
  refine ⟨by omega, ?_⟩
  apply h2.of_le (attemptsOf_cons_ne _ _ _ hne') (spuriousOf_cons_ne _ _ _ hne')
  rw [swapsSinceLoad_cons_ne _ _ _ hne']
  omega

theorem Attempts.at_begin_all {α : Type} (k : Nat) : Attempts (Sys.init k : Sys α) := by
  constructor
  · intro t l h
    cases init_threads k t _ h
    simp [stale]
  · intro t l h
    cases init_threads k t _ h
    trivial

theorem Attempts.preserved_all {α : Type} {moved : α → α} {s s' : Sys α} {t : Nat}
    {a : Act α} (hw : WF s) (hA : Attempts s) (hs : Step moved s t a s') : Attempts s' := by
  have key : ∀ (u : Nat) (l : Local α), s'.threads[u]? = some l →
      stale s'.mem.nodes s'.mem.head_ l ≤ swapsSinceSeen u s'.hist ∧
        Fresh s'.mem.nodes s'.mem.head_ s'.hist u l := by
    intro u l hul
    by_cases hut : u = t
    · subst hut
      cases hs with
      | callPush v ht =>
        rw [advance_threads_self ht] at hul
        cases hul
        exact ⟨by simp [stale], by simp [Fresh, attemptsOf]⟩
      | callPop ht =>
        rw [advance_threads_self ht] at hul
        cases hul
        exact ⟨by simp [stale], by simp [Fresh, attemptsOf]⟩
      | pushLoad v ht =>
        rw [advance_threads_self ht] at hul
        cases hul
        have h2 := hA.budget u _ ht
        simp only [Fresh] at h2
        have hst : stale (s.mem.nodes ++ [⟨v, s.mem.head_⟩]) s.mem.head_
            (Local.pushCas s.mem.nodes.length : Local α) = 0 := by
          simp [stale]
        simp only [advance_mem, advance_hist]
        rw [hst]
        refine ⟨Nat.zero_le _, ?_⟩
        simp only [Fresh, hst, attemptsOf, h2]
        omega
      | pushOk c nd ht hc hh =>
        rw [advance_threads_self ht] at hul
        cases hul
        exact ⟨by simp [stale], trivial⟩
      | pushFail c nd b ht hc hh =>
        rw [advance_threads_self ht] at hul
        cases hul
        have h2 := hA.budget u _ ht
        have hnode : (s.mem.setPrev c s.mem.head_).nodes[c]? =
            some { nd with prev := s.mem.head_ } := by
          simp only [Stack.setPrev]
          rw [List.getElem?_modify_eq, hc]
          rfl
        have hst : stale (s.mem.setPrev c s.mem.head_).nodes s.mem.head_
            (Local.pushCas c : Local α) = 0 := by
          simp [stale, hnode]
        have hhd : (s.mem.setPrev c s.mem.head_).head_ = s.mem.head_ := rfl
        simp only [advance_mem, advance_hist, hhd]
        rw [hst]
        refine ⟨Nat.zero_le _, ?_⟩
        simp only [Fresh, stale, hc] at h2
        simp only [Fresh, hst, attemptsOf, swapsSinceLoad, spuriousOf, if_true, true_and,
          decide_eq_true_eq]
        by_cases hp : s.mem.head_ = nd.prev
        · simp only [hp, if_true] at h2 ⊢
          omega
        · simp only [hp, if_false] at h2 ⊢
          omega
      | pushRet ht =>
        rw [advance_threads_self ht] at hul
        cases hul
        exact ⟨by simp [stale], trivial⟩
      | popLoad ht =>
        rw [advance_threads_self ht] at hul
        cases hul
        have h2 := hA.budget u _ ht
        simp only [Fresh] at h2
        simp only [advance_mem, advance_hist]
        rw [stale_popLoop_head]
        refine ⟨Nat.zero_le _, ?_⟩
        simp only [Fresh, stale_popLoop_head, attemptsOf, h2]
        omega
      | popOk n nd ht hn hh =>
        rw [advance_threads_self ht] at hul
        cases hul
        exact ⟨by simp [stale], trivial⟩
      | popFail n nd b ht hn hh =>
        rw [advance_threads_self ht] at hul
        cases hul
        have h2 := hA.budget u _ ht
        simp only [advance_mem, advance_hist]
        rw [stale_popLoop_head]
        refine ⟨Nat.zero_le _, ?_⟩
        simp only [Fresh, stale] at h2
        simp only [Fresh, stale_popLoop_head, attemptsOf, swapsSinceLoad, spuriousOf, if_true,
          true_and, decide_eq_true_eq]
        by_cases hp : s.mem.head_ = some n
        · simp only [hp, if_true] at h2 ⊢
          omega
        · simp only [hp, if_false] at h2 ⊢
          omega
      | popRetEmpty ht =>
        rw [advance_threads_self ht] at hul
        cases hul
        exact ⟨by simp [stale], trivial⟩
      | popRet n nd ht hn =>
        rw [advance_threads_self ht] at hul
        cases hul
        exact ⟨by simp [stale], trivial⟩
    · obtain ⟨l0, m, l1, e, ht, hs', _⟩ := hs.shape
      have hu : s.threads[u]? = some l := by
        rw [hs', advance_threads_ne ht _ _ _ hut] at hul
        exact hul
      exact Attempts.frame_account hs hw hA hu hut
  exact ⟨fun u l h => (key u l h).1, fun u l h => (key u l h).2⟩

theorem Reachable.attempts {α : Type} {moved : α → α} {k : Nat} {s : Sys α}
    (h : Reachable moved k s) : Attempts s :=
  Reachable.induction Attempts (Attempts.at_begin_all k)
    (fun _ _ _ _ hr hp hs => Attempts.preserved_all hr.wf hp hs) s h

/-- A compare-and-swap that does not fail spuriously succeeds when the head has not changed
since the thread observed it. -/
theorem cas_succeeds {α : Type} (moved : α → α) {s : Sys α} (hw : WF s) {t : Nat}
    {l : Local α} (ht : s.threads[t]? = some l)
    (hl : (∃ c, l = Local.pushCas c) ∨ ∃ n, l = Local.popLoop (some n))
    (hst : stale s.mem.nodes s.mem.head_ l = 0) :
    ∃ s', step moved s t (Act.cas false) = some s' ∧
      (s'.threads[t]? = some Local.pushDone ∨ ∃ n, s'.threads[t]? = some (Local.popDone n)) ∧
      attemptsOf t s'.hist = 1 + attemptsOf t s.hist := by
  rcases hl with ⟨c, rfl⟩ | ⟨n, rfl⟩
  · obtain ⟨nd, hnd⟩ : ∃ nd, s.mem.nodes[c]? = some nd :=
      ⟨_, List.getElem?_eq_getElem (hw.cand t c ht).1⟩
    simp only [stale, hnd] at hst
    have hh : s.mem.head_ = nd.prev := by
      by_contra hne
      simp [hne] at hst
    refine ⟨_, (step_iff _ _ _ _ _).mpr (Step.pushOk c nd ht hnd hh),
      Or.inl (advance_threads_self ht _ _ _), ?_⟩
    simp [attemptsOf]
  · obtain ⟨nd, hnd⟩ : ∃ nd, s.mem.nodes[n]? = some nd :=
      ⟨_, List.getElem?_eq_getElem (hw.pubLt n (hw.popObs t n ht))⟩
    simp only [stale] at hst
    have hh : s.mem.head_ = some n := by
      by_contra hne
      simp [hne] at hst
    refine ⟨_, (step_iff _ _ _ _ _).mpr (Step.popOk n nd ht hnd hh),
      Or.inr ⟨n, advance_threads_self ht _ _ _⟩, ?_⟩
    simp [attemptsOf]

/-- C14, as stated, fails.  One thread alone pushes `7` and then pops: after its `load` nobody
has changed the head, and yet its weak compare-and-swap fails, spuriously, leaving the memory
as it is; the call completes with two attempts and returns `7`. -/
theorem retries_counterexample :
    exec id (Sys.init 1) demoPopSchedule = some demoPop ∧
    swapsSinceSeen 0 demoPop.hist = 0 ∧ swapsSinceLoad 0 demoPop.hist = 0 ∧
    (step id demoPop 0 (Act.cas true)).map (fun s => (s.hist.head?, s.threads, s.mem)) =
      some (some (Event.failed 0 (some 0) true), [Local.popLoop (some 0)], demoPop.mem) ∧
    (exec id demoPop [(0, Act.cas true), (0, Act.cas false), (0, Act.ret)]).map
        (fun s => (attemptsOf 0 s.hist, s.threads, (resOf 0 s.hist).head?)) =
      some (2, [Local.idle], some (some 7)) := by
  decide

/-- C14, amended.  In every concurrent execution, a compare-and-swap of `push` or `pop` that
fails either fails spuriously, with the head equal to the expected handle, or finds a head
different from what the call observed last, and then another thread has changed the head by
a successful compare-and-swap since that observation.  A compare-and-swap that does not fail
spuriously succeeds when no other thread has changed the head since the call observed it.
When no other thread has changed the head since the `load` of the call and no attempt of the
call has failed spuriously, the call has made no attempt so far; a `push` and a `pop` that
saw a node then complete with exactly one attempt, provided this attempt does not fail
spuriously, and a `pop` that saw the head empty makes no attempt and returns. -/
theorem retries_amended {α : Type} (moved : α → α) (k : Nat) (s : Sys α) (t : Nat)
    (l : Local α) (hr : Reachable moved k s) (ht : s.threads[t]? = some l) :
    (∀ (b : Bool) (s' : Sys α) (seen : Option Nat) (sp : Bool),
      step moved s t (Act.cas b) = some s' → s'.hist = Event.failed t seen sp :: s.hist →
      seen = s.mem.head_ ∧ ((sp = true ∧ b = true) ∨
        (sp = false ∧ lastSeen s.hist t ≠ some s.mem.head_ ∧
          1 ≤ swapsSinceSeen t s.hist))) ∧
    (swapsSinceSeen t s.hist = 0 →
      ((∃ c, l = Local.pushCas c) ∨ ∃ n, l = Local.popLoop (some n)) →
      ∃ s', step moved s t (Act.cas false) = some s' ∧
        (s'.threads[t]? = some Local.pushDone ∨
          ∃ n, s'.threads[t]? = some (Local.popDone n))) ∧
    (swapsSinceLoad t s.hist = 0 → spuriousOf t s.hist = 0 →
      (((∃ c, l = Local.pushCas c) ∨ ∃ n, l = Local.popLoop (some n)) →
        attemptsOf t s.hist = 0 ∧
        ∃ s', step moved s t (Act.cas false) = some s' ∧
          (s'.threads[t]? = some Local.pushDone ∨
            ∃ n, s'.threads[t]? = some (Local.popDone n)) ∧
          attemptsOf t s'.hist = 1) ∧
      (l = Local.popLoop none →
        attemptsOf t s.hist = 0 ∧ (∀ b, step moved s t (Act.cas b) = none) ∧
        ∃ s', step moved s t Act.ret = some s' ∧ s'.threads[t]? = some Local.idle ∧
          attemptsOf t s'.hist = 0)) := by
  have hw := hr.wf
  have hA := hr.attempts
  have hseen := hA.seen t l ht
  have hbud := hA.budget t l ht
  refine ⟨?_, ?_, ?_⟩
  · intro b s' seen sp hs he
    have hS := (step_iff _ _ _ _ _).mp hs
    cases hS with
    | pushOk c nd ht' hc hh => simp only [advance_hist] at he; cases he
    | popOk n nd ht' hn hh => simp only [advance_hist] at he; cases he
    | pushFail c nd b' ht' hc hh =>
      rw [ht] at ht'
      cases ht'
      simp only [advance_hist, List.cons.injEq, Event.failed.injEq, and_true, true_and] at he
      obtain ⟨h1, h2⟩ := he
      refine ⟨h1.symm, ?_⟩
      obtain ⟨nd', hnd', _, hls, _⟩ := hr.book t _ ht
      rw [hc] at hnd'
      cases hnd'
      by_cases hp : s.mem.head_ = nd.prev
      · left
        rw [← h2]
        refine ⟨by simp [hp], ?_⟩
        rcases hh with hh | hh
        · exact absurd hp hh
        · exact hh
      · right
        rw [← h2]
        refine ⟨by simp [hp], ?_, ?_⟩
        · rw [hls]
          intro h
          exact hp (Option.some.inj h).symm
        · simp only [stale, hc, hp, if_false] at hseen
          exact hseen
    | popFail n nd b' ht' hn hh =>
      rw [ht] at ht'
      cases ht'
      simp only [advance_hist, List.cons.injEq, Event.failed.injEq, and_true, true_and] at he
      obtain ⟨h1, h2⟩ := he
      refine ⟨h1.symm, ?_⟩
      obtain ⟨_, hls, _⟩ := hr.book t _ ht
      by_cases hp : s.mem.head_ = some n
      · left
        rw [← h2]
        refine ⟨by simp [hp], ?_⟩
        rcases hh with hh | hh
        · exact absurd hp hh
        · exact hh
      · right
        rw [← h2]
        refine ⟨by simp [hp], ?_, ?_⟩
        · rw [hls]
          intro h
          exact hp (Option.some.inj h).symm
        · simp only [stale, hp, if_false] at hseen
          exact hseen
  · intro h0 hl
    obtain ⟨s', h1, h2, _⟩ := cas_succeeds moved hw ht hl (by omega)
    exact ⟨s', h1, h2⟩
  · intro h0 h1
    constructor
    · intro hl
      have h2 : attemptsOf t s.hist + stale s.mem.nodes s.mem.head_ l = 0 := by
        rcases hl with ⟨c, rfl⟩ | ⟨n, rfl⟩
        · simp only [Fresh] at hbud
          omega
        · simp only [Fresh] at hbud
          omega
      have h3 : attemptsOf t s.hist = 0 := by omega
      obtain ⟨s', h4, h5, h6⟩ := cas_succeeds moved hw ht hl (by omega)
      exact ⟨h3, s', h4, h5, by rw [h6, h3]⟩
    · intro hl
      subst hl
      simp only [Fresh, stale] at hbud
      have h3 : attemptsOf t s.hist = 0 := by omega
      refine ⟨h3, ?_, _, (step_iff _ _ _ _ _).mpr (Step.popRetEmpty ht),
        advance_threads_self ht _ _ _, ?_⟩
      · intro b
        simp only [step, ht]
      · simp only [advance_hist, attemptsOf]
        exact h3

theorem retries_amended_witness :
    (∀ (b : Bool) (s' : Sys Nat) (seen : Option Nat) (sp : Bool),
      step id demoPush 0 (Act.cas b) = some s' →
      s'.hist = Event.failed 0 seen sp :: demoPush.hist →
      seen = demoPush.mem.head_ ∧ ((sp = true ∧ b = true) ∨
        (sp = false ∧ lastSeen demoPush.hist 0 ≠ some demoPush.mem.head_ ∧
          1 ≤ swapsSinceSeen 0 demoPush.hist))) ∧
    (swapsSinceSeen 0 demoPush.hist = 0 →
      ((∃ c, (Local.pushCas 0 : Local Nat) = Local.pushCas c) ∨
        ∃ n, (Local.pushCas 0 : Local Nat) = Local.popLoop (some n)) →
      ∃ s', step id demoPush 0 (Act.cas false) = some s' ∧
        (s'.threads[0]? = some Local.pushDone ∨
          ∃ n, s'.threads[0]? = some (Local.popDone n))) ∧
    (swapsSinceLoad 0 demoPush.hist = 0 → spuriousOf 0 demoPush.hist = 0 →
      (((∃ c, (Local.pushCas 0 : Local Nat) = Local.pushCas c) ∨
          ∃ n, (Local.pushCas 0 : Local Nat) = Local.popLoop (some n)) →
        attemptsOf 0 demoPush.hist = 0 ∧
        ∃ s', step id demoPush 0 (Act.cas false) = some s' ∧
          (s'.threads[0]? = some Local.pushDone ∨
            ∃ n, s'.threads[0]? = some (Local.popDone n)) ∧
          attemptsOf 0 s'.hist = 1) ∧
      ((Local.pushCas 0 : Local Nat) = Local.popLoop none →
        attemptsOf 0 demoPush.hist = 0 ∧ (∀ b, step id demoPush 0 (Act.cas b) = none) ∧
        ∃ s', step id demoPush 0 Act.ret = some s' ∧ s'.threads[0]? = some Local.idle ∧
          attemptsOf 0 s'.hist = 0)) :=
  retries_amended id 1 demoPush 0 (Local.pushCas 0) demoPush_reachable (by decide)

/-! ## Dereferences go through handles that refer to a node -/

theorem cas_isSome {α β : Type} (m : Stack α) (e d : Option Nat) (b : Bool)
    (f g : Stack α → Option Nat → β) :
    (match m.compare_exchange_weak e d b with
      | (true, m', e') => some (f m' e')
      | (false, m', e') => some (g m' e')).isSome = true := by
  cases h : m.compare_exchange_weak e d b with
  | mk r rest =>
    obtain ⟨m', e'⟩ := rest
    cases r <;> rfl

/-- In a reachable state a step can be taken exactly if the control flow allows it: no step
fails on a dereference. -/
theorem step_isSome {α : Type} (moved : α → α) {k : Nat} {s : Sys α} (hr : Reachable moved k s)
    {t : Nat} {l : Local α} (ht : s.threads[t]? = some l) (a : Act α) :
    (step moved s t a).isSome = enabled l a := by
  have hw := hr.wf
  cases l with
  | idle =>
    cases a with
    | call op => cases op <;> simp [step, ht, enabled]
    | load => simp [step, ht, enabled]
    | cas b => simp [step, ht, enabled]
    | ret => simp [step, ht, enabled]
  | pushStart v => cases a <;> simp [step, ht, enabled, Stack.alloc]
  | pushCas c =>
    obtain ⟨nd, hnd⟩ : ∃ nd, s.mem.nodes[c]? = some nd :=
      ⟨_, List.getElem?_eq_getElem (hw.cand t c ht).1⟩
    cases a with
    | cas b =>
      simp only [step, ht, hnd, enabled]
      exact cas_isSome _ _ _ _
        (fun m e => s.advance t m Local.pushDone (Event.pushed t c e))
        (fun m e => s.advance t (m.setPrev c e) (Local.pushCas c)
          (Event.failed t e (decide (s.mem.head_ = nd.prev))))
    | call op => simp [step, ht, enabled]
    | load => simp [step, ht, enabled]
    | ret => simp [step, ht, enabled]
  | pushDone => cases a <;> simp [step, ht, enabled]
  | popStart => cases a <;> simp [step, ht, enabled]
  | popLoop x =>
    cases x with
    | none => cases a <;> simp [step, ht, enabled]
    | some n =>
      obtain ⟨nd, hnd⟩ : ∃ nd, s.mem.nodes[n]? = some nd :=
        ⟨_, List.getElem?_eq_getElem (hw.pubLt n (hw.popObs t n ht))⟩
      cases a with
      | cas b =>
        simp only [step, ht, hnd, enabled]
        exact cas_isSome _ _ _ _
          (fun m _ => s.advance t m (Local.popDone n) (Event.popped t n nd.prev))
          (fun m e => s.advance t m (Local.popLoop e)
            (Event.failed t e (decide (s.mem.head_ = some n))))
      | call op => simp [step, ht, enabled]
      | load => simp [step, ht, enabled]
      | ret => simp [step, ht, enabled]
  | popDone n =>
    obtain ⟨nd, hnd⟩ : ∃ nd, s.mem.nodes[n]? = some nd :=
      ⟨_, List.getElem?_eq_getElem (hw.pubLt n (hw.popPub n (hw.popHeld t n ht)))⟩
    cases a <;> simp [step, ht, hnd, enabled]

/-- C15. No empty-handle dereference.  In every concurrent execution a thread can take a step
exactly if the control flow of its call allows it, so no step ever fails on a dereference;
every step that is taken and reads `active->prev` (the compare-and-swap of `push` and of
`pop`) or `active->value` (the return of a `pop` that swapped) does so through a non-empty
`active` that refers to a node; a step that would dereference an empty `active` is never
taken; and a `pop` whose `active` is empty returns without touching the memory.  Run without
interference on any stack whose head is empty or refers to a node, `push` and `pop` complete
without a failed dereference. -/
theorem no_empty_dereference {α : Type} (moved : α → α) (k : Nat) (s : Sys α) (t : Nat)
    (l : Local α) (a : Act α) (m : Stack α) (v : α) (sp : List Bool)
    (hr : Reachable moved k s) (ht : s.threads[t]? = some l)
    (hm : ∀ n, m.head_ = some n → n < m.nodes.length) (hsp : false ∈ sp) :
    (step moved s t a).isSome = enabled l a ∧
    (∀ (s' : Sys α) (h : Option Nat), step moved s t a = some s' → derefOf l a = some h →
      ∃ n nd, h = some n ∧ s.mem.nodes[n]? = some nd) ∧
    (derefOf l a = some none → step moved s t a = none) ∧
    (l = Local.popLoop none → ∃ s', step moved s t Act.ret = some s' ∧ s'.mem = s.mem) ∧
    (m.push v sp).isSome = true ∧ (m.pop moved sp).isSome = true := by
  have hw := hr.wf
  have h1 := step_isSome moved hr ht a
  refine ⟨h1, ?_, ?_, ?_, ?_, ?_⟩
  · intro s' h hs hd
    rw [hs] at h1
    cases l with
    | pushCas c =>
      cases a <;> simp only [derefOf] at hd <;> try cases hd
      exact ⟨c, _, rfl, List.getElem?_eq_getElem (hw.cand t c ht).1⟩
    | popLoop x =>
      cases a <;> simp only [derefOf] at hd <;> try cases hd
      cases h with
      | none => simp [enabled] at h1
      | some n =>
        exact ⟨n, _, rfl, List.getElem?_eq_getElem (hw.pubLt n (hw.popObs t n ht))⟩
    | popDone n =>
      cases a <;> simp only [derefOf] at hd <;> try cases hd
      exact ⟨n, _, rfl,
        List.getElem?_eq_getElem (hw.pubLt n (hw.popPub n (hw.popHeld t n ht)))⟩
    | idle => cases a <;> simp [derefOf] at hd
    | pushStart w => cases a <;> simp [derefOf] at hd
    | pushDone => cases a <;> simp [derefOf] at hd
    | popStart => cases a <;> simp [derefOf] at hd
  · intro hd
    cases l with
    | popLoop x =>
      cases a <;> simp only [derefOf] at hd <;> try cases hd
      simp only [step, ht]
    | pushCas c => cases a <;> simp [derefOf] at hd
    | popDone n => cases a <;> simp [derefOf] at hd
    | idle => cases a <;> simp [derefOf] at hd
    | pushStart w => cases a <;> simp [derefOf] at hd
    | pushDone => cases a <;> simp [derefOf] at hd
    | popStart => cases a <;> simp [derefOf] at hd
  · intro hl
    subst hl
    exact ⟨_, (step_iff _ _ _ _ _).mpr (Step.popRetEmpty ht), rfl⟩
  · rw [push_eq m v sp hsp]
    rfl
  · cases hh : m.head_ with
    | none =>
      rw [pop_eq_of_none moved m hh sp]
      rfl
    | some n =>
      rw [pop_eq_of_some moved m n _ hh (List.getElem?_eq_getElem (hm n hh)) sp hsp]
      rfl

theorem no_empty_dereference_witness :
    (step id demoPop 0 (Act.cas false)).isSome =
      enabled (Local.popLoop (some 0) : Local Nat) (Act.cas false) ∧
    (∀ (s' : Sys Nat) (h : Option Nat), step id demoPop 0 (Act.cas false) = some s' →
      derefOf (Local.popLoop (some 0) : Local Nat) (Act.cas false) = some h →
      ∃ n nd, h = some n ∧ demoPop.mem.nodes[n]? = some nd) ∧
    (derefOf (Local.popLoop (some 0) : Local Nat) (Act.cas false) = some none →
      step id demoPop 0 (Act.cas false) = none) ∧
    ((Local.popLoop (some 0) : Local Nat) = Local.popLoop none →
      ∃ s', step id demoPop 0 Act.ret = some s' ∧ s'.mem = demoPop.mem) ∧
    ((⟨[⟨5, none⟩], some 0⟩ : Stack Nat).push 7 [true, false]).isSome = true ∧
    (Stack.pop id (⟨[⟨5, none⟩], some 0⟩ : Stack Nat) [true, false]).isSome = true :=
  no_empty_dereference id 1 demoPop 0 (Local.popLoop (some 0)) (Act.cas false)
    ⟨[⟨5, none⟩], some 0⟩ 7 [true, false] demoPop_reachable (by decide) (by decide)
    (by decide)

/-! ## A node is taken off at most once -/

theorem isDetach_le {α : Type} {moved : α → α} {s s' : Sys α} {t : Nat} {a : Act α}
    (hs : Step moved s t a s') (hw : WF s) (n : Nat) :
    isDetach s s' t n + (if wasPopped s.hist n = true then 1 else 0) ≤
      (if wasPopped s'.hist n = true then 1 else 0) := by
  have hmono : (if wasPopped s.hist n = true then 1 else 0) ≤
      (if wasPopped s'.hist n = true then 1 else 0) := by
    obtain ⟨l0, m, l1, e, _, hs', _⟩ := hs.shape
    by_cases h : wasPopped s.hist n = true
    · have h' : wasPopped s'.hist n = true := by
        rw [hs', advance_hist]
        exact wasPopped_mono _ _ _ h
      simp [h, h']
    · simp only [h, if_false]
      exact Nat.zero_le _
  cases hs with
  | popOk m nd ht hn hh =>
    by_cases hmn : m = n
    · subst hmn
      have h0 := (hw.head_pub hh).2
      have h1 : wasPopped (Event.popped t m nd.prev :: s.hist) m = true := by
        rw [wasPopped_cons]
        simp
      simp only [isDetach, ht, advance_threads_self ht, advance_hist, h0, h1, if_true]
      simp
    · simp only [isDetach, ht, advance_threads_self ht, hmn, if_false, zero_add]
      exact hmono
  | callPush v ht =>
    simp only [isDetach, ht, zero_add]
    exact hmono
  | callPop ht =>
    simp only [isDetach, ht, zero_add]
    exact hmono
  | pushLoad v ht =>
    simp only [isDetach, ht, zero_add]
    exact hmono
  | pushOk c nd ht hc hh =>
    simp only [isDetach, ht, zero_add]
    exact hmono
  | pushFail c nd b ht hc hh =>
    simp only [isDetach, ht, zero_add]
    exact hmono
  | pushRet ht =>
    simp only [isDetach, ht, zero_add]
    exact hmono
  | popLoad ht =>
    simp only [isDetach, ht, zero_add]
    exact hmono
  | popFail m nd b ht hn hh =>
    simp only [isDetach, ht, advance_threads_self ht, zero_add]
    exact hmono
  | popRetEmpty ht =>
    simp only [isDetach, ht, advance_threads_self ht, zero_add]
    exact hmono
  | popRet m nd ht hn =>
    simp only [isDetach, ht, zero_add]
    exact hmono

theorem detaches_le {α : Type} (moved : α → α) (k n : Nat) :
    ∀ (sched : Schedule α) (s : Sys α), Reachable moved k s →
      detaches moved s sched n + (if wasPopped s.hist n = true then 1 else 0) ≤ 1 := by
  intro sched
  induction sched with
  | nil =>
    intro s _
    simp only [detaches, zero_add]
    split <;> omega
  | cons x sched ih =>
    intro s hr
    obtain ⟨t, a⟩ := x
    simp only [detaches]
    cases hst : step moved s t a with
    | none =>
      simp only [zero_add]
      split <;> omega
    | some s' =>
      have h1 := ih s' (hr.after hst)
      have h2 := isDetach_le ((step_iff _ _ _ _ _).mp hst) hr.wf n
      simp only
      omega

theorem isMove_le_one {α : Type} (s : Sys α) (t : Nat) (a : Act α) (n : Nat) :
    isMove s t a n ≤ 1 := by
  unfold isMove
  split
  · split <;> omega
  · omega

theorem isMove_eq_one {α : Type} {s : Sys α} {t : Nat} {a : Act α} {n : Nat}
    (h : isMove s t a n ≠ 0) : s.threads[t]? = some (Local.popDone n) ∧ a = Act.ret := by
  unfold isMove at h
  split at h
  · rename_i m heq
    by_cases hmn : m = n
    · subst hmn
      exact ⟨heq, rfl⟩
    · simp [hmn] at h
  · exact absurd rfl h

theorem Gone.no_move {α : Type} {s : Sys α} {n : Nat} (h : Gone s n) (t : Nat) (a : Act α) :
    isMove s t a n = 0 := by
  by_contra hne
  exact h.2 t (isMove_eq_one hne).1

/-- Once a node was taken off and the `pop` that took it has returned, it stays so. -/
theorem Gone.preserved_gone {α : Type} {moved : α → α} {s s' : Sys α} {t : Nat} {a : Act α}
    {n : Nat} (hs : Step moved s t a s') (hw : WF s) (h : Gone s n) : Gone s' n := by
  obtain ⟨l0, m, l1, e, ht, hs', _⟩ := hs.shape
  constructor
  · rw [hs', advance_hist]
    exact wasPopped_mono _ _ _ h.1
  · intro u hu
    by_cases hut : u = t
    · subst hut
      cases hs with
      | popOk m nd ht' hn hh =>
        rw [advance_threads_self ht'] at hu
        cases hu
        have := (hw.head_pub hh).2
        rw [h.1] at this
        cases this
      | callPush v ht' => rw [advance_threads_self ht'] at hu; cases hu
      | callPop ht' => rw [advance_threads_self ht'] at hu; cases hu
      | pushLoad v ht' => rw [advance_threads_self ht'] at hu; cases hu
      | pushOk c nd ht' hc hh => rw [advance_threads_self ht'] at hu; cases hu
      | pushFail c nd b ht' hc hh => rw [advance_threads_self ht'] at hu; cases hu
      | pushRet ht' => rw [advance_threads_self ht'] at hu; cases hu
      | popLoad ht' => rw [advance_threads_self ht'] at hu; cases hu
      | popFail m nd b ht' hn hh => rw [advance_threads_self ht'] at hu; cases hu
      | popRetEmpty ht' => rw [advance_threads_self ht'] at hu; cases hu
      | popRet m nd ht' hn => rw [advance_threads_self ht'] at hu; cases hu
    · rw [hs', advance_threads_ne ht _ _ _ hut] at hu
      exact h.2 u hu

/-- The return of the `pop` that took a node off leaves the node gone. -/
theorem Gone.after_move {α : Type} {moved : α → α} {s s' : Sys α} {t : Nat} {a : Act α}
    {n : Nat} (hs : Step moved s t a s') (hw : WF s) (h : isMove s t a n ≠ 0) :
    Gone s' n := by
  obtain ⟨ht, ha⟩ := isMove_eq_one h
  obtain ⟨l0, m, l1, e, ht0, hs', _⟩ := hs.shape
  constructor
  · rw [hs', advance_hist]
    exact wasPopped_mono _ _ _ (hw.popHeld t n ht)
  · intro u hu
    by_cases hut : u = t
    · subst hut
      cases hs with
      | popRet m nd ht' hn => rw [advance_threads_self ht'] at hu; cases hu
      | popRetEmpty ht' => rw [advance_threads_self ht'] at hu; cases hu
      | pushRet ht' => rw [advance_threads_self ht'] at hu; cases hu
      | callPush v ht' => cases ha
      | callPop ht' => cases ha
      | pushLoad v ht' => cases ha
      | pushOk c nd ht' hc hh => cases ha
      | pushFail c nd b ht' hc hh => cases ha
      | popLoad ht' => cases ha
      | popOk m nd ht' hn hh => cases ha
      | popFail m nd b ht' hn hh => cases ha
    · rw [hs', advance_threads_ne ht0 _ _ _ hut] at hu
      exact hut (hw.popUniq u t n hu ht)

theorem movesOut_le {α : Type} (moved : α → α) (k n : Nat) :
    ∀ (sched : Schedule α) (s : Sys α), Reachable moved k s →
      (Gone s n → movesOut moved s sched n = 0) ∧ movesOut moved s sched n ≤ 1 := by
  intro sched
  induction sched with
  | nil =>
    intro s _
    exact ⟨fun _ => rfl, Nat.zero_le _⟩
  | cons x sched ih =>
    intro s hr
    obtain ⟨t, a⟩ := x
    simp only [movesOut]
    cases hst : step moved s t a with
    | none => exact ⟨fun _ => rfl, Nat.zero_le _⟩
    | some s' =>
      have hS := (step_iff _ _ _ _ _).mp hst
      obtain ⟨h1, h2⟩ := ih s' (hr.after hst)
      simp only
      constructor
      · intro hg
        rw [hg.no_move t a, h1 (hg.preserved_gone hS hr.wf)]
      · by_cases hm : isMove s t a n = 0
        · rw [hm]
          omega
        · rw [h1 (Gone.after_move hS hr.wf hm)]
          have := isMove_le_one s t a n
          omega

/-- C16. Each node is detached at most once.  In every run of every schedule from the fresh
stack, at most one step is a successful compare-and-swap of a `pop` against a given node
`n`, and at most one step moves the value out of `n`; a step that changes the value of `n`
is such a move, the return of the `pop` that took `n` off.  And a node that was on the chain
below the head and is no longer on it was taken off by a `pop`, and is not on the chain at
any later moment of the execution. -/
theorem detached_at_most_once {α : Type} (moved : α → α) (k : Nat) (sched : Schedule α)
    (n : Nat) (s1 s2 s3 : Sys α) (sch12 sch23 : Schedule α) (l1 l2 l3 : List Nat)
    (hr : Reachable moved k s1) (h12 : exec moved s1 sch12 = some s2)
    (h23 : exec moved s2 sch23 = some s3)
    (hl1 : Chain s1.mem.nodes s1.mem.head_ l1) (hn1 : n ∈ l1)
    (hl2 : Chain s2.mem.nodes s2.mem.head_ l2) (hn2 : n ∉ l2)
    (hl3 : Chain s3.mem.nodes s3.mem.head_ l3) :
    detaches moved (Sys.init k) sched n ≤ 1 ∧
    movesOut moved (Sys.init k) sched n ≤ 1 ∧
    (∀ (t : Nat) (a : Act α) (s' : Sys α) (nd nd' : Node α), step moved s2 t a = some s' →
      s2.mem.nodes[n]? = some nd → s'.mem.nodes[n]? = some nd' → nd'.value ≠ nd.value →
      isMove s2 t a n = 1) ∧
    wasPopped s2.hist n = true ∧ n ∉ l3 := by
  have hr2 := hr.exec sch12 h12
  have hr3 := hr2.exec sch23 h23
  have hpop : wasPopped s2.hist n = true := by
    obtain ⟨l, hl, hp⟩ := hr.wf.chain
    cases hl.unique hl1
    have h1 := wasPushed_suffix (exec_grows moved sch12 s1 s2 h12).1 n (hp n hn1).1
    have ho := hr2.ordered
    cases ho.live.unique hl2
    cases h : wasPopped s2.hist n with
    | true => rfl
    | false =>
      exfalso
      apply hn2
      unfold liveNodes
      rw [List.mem_filter, mem_pushOrder, h]
      exact ⟨h1, rfl⟩
  refine ⟨?_, (movesOut_le moved k n sched _ (Reachable.at_init moved k)).2, ?_, hpop, ?_⟩
  · have := detaches_le moved k n sched _ (Reachable.at_init moved k)
    omega
  · intro t a s' nd nd' hs hnd hnd' hne
    rcases ((step_iff _ _ _ _ _).mp hs).node_change hnd with h | ⟨_, _, h, _⟩ | ⟨ht, ha, _⟩
    · rw [h] at hnd'
      cases hnd'
      exact absurd rfl hne
    · rw [h] at hnd'
      cases hnd'
      exact absurd rfl hne
    · simp [isMove, ht, ha]
  · intro hmem
    obtain ⟨l, hl, hp⟩ := hr3.wf.chain
    cases hl.unique hl3
    have := wasPopped_suffix (exec_grows moved sch23 s2 s3 h23).1 n hpop
    rw [(hp n hmem).2] at this
    cases this

theorem detached_at_most_once_witness :
    detaches id (Sys.init 1)
        (demoPopSchedule ++ [(0, Act.cas false)] ++ demoAgainSchedule) 0 ≤ 1 ∧
    movesOut id (Sys.init 1)
        (demoPopSchedule ++ [(0, Act.cas false)] ++ demoAgainSchedule) 0 ≤ 1 ∧
    (∀ (t : Nat) (a : Act Nat) (s' : Sys Nat) (nd nd' : Node Nat),
      step id demoPopped t a = some s' →
      demoPopped.mem.nodes[0]? = some nd → s'.mem.nodes[0]? = some nd' →
      nd'.value ≠ nd.value → isMove demoPopped t a 0 = 1) ∧
    wasPopped demoPopped.hist 0 = true ∧ 0 ∉ [1] :=
  detached_at_most_once id 1 (demoPopSchedule ++ [(0, Act.cas false)] ++ demoAgainSchedule) 0
    demoPop demoPopped demoAgain [(0, Act.cas false)] demoAgainSchedule [0] [] [1]
    demoPop_reachable (by decide) (by decide) (walk_sound _ 1 _ _ (by decide)) (by decide)
    (walk_sound _ 0 _ _ (by decide)) (by decide) (walk_sound _ 1 _ _ (by decide))

end LockFree
